import Mathlib

/-!
The command `cut` (libcmd/cut.c): selector compilation and the column / field extractors.

A shallow embedding of `cutinit`, `cutcols` and `cutfields` of `src/lib/libcmd/cut.c`.

* C `int` values are `Int`; every arithmetic result that the C code stores in an `int`
  goes through `wrap32` (two's complement, 32 bits).
* A C string or an input buffer is a `List Nat` of byte values; `bytes` turns ASCII text
  into that form.
* `error(ERROR_exit(1), ...)` ends the command: it is the `Except.error` result.
-/

namespace Cut

/-! ## Integers and bytes -/

/-- `#define HUGE INT_MAX`. -/
def HUGE : Int := 2147483647

/-- The value an `int` holds after a result `x` is stored in it (two's complement). -/
def wrap32 (x : Int) : Int := (x + 2147483648) % 4294967296 - 2147483648

/-- The bytes of an ASCII text. -/
def bytes (s : String) : List Nat := s.toList.map Char.toNat

/-- `isdigit` in the C locale. -/
def isdigit (c : Nat) : Bool := decide (48 ≤ c) && decide (c ≤ 57)

/-- The ways `cutinit` can end without returning a selector. -/
inductive CutError
  /-- `error(ERROR_exit(1), "bad list for c/f option")` -/
  | badList
  /-- `error(ERROR_exit(1), "invalid range for c/f option")` -/
  | invalidRange
  /-- a store through `dp[-1]` while `dp` is still `cut->list` (undefined behaviour) -/
  | outOfBounds
  deriving DecidableEq, Repr

deriving instance DecidableEq for Except

/-! ## `cutinit`: parsing the list -/

/-- The code shared by `case 0` and `case ','` (lines 168-179): the pair `(start, length)`
stored through `lp` for the item that ends here, `n` and `range` being the loop variables. -/
def endItem (n range : Int) : Except CutError (Int × Int) :=
  if range ≠ 0 then
    let range1 := wrap32 (range - 1)
    let n1 := if n ≠ 0 then wrap32 (n - range1) else HUGE - 1
    if n1 < 0 then Except.error CutError.invalidRange else Except.ok (range1, n1)
  else Except.ok (wrap32 (n - 1), 1)

/-- The `for (;;) switch (c = *cp++)` loop of `cutinit` (lines 160-231) up to the point where
`case 0` is reached, returning the pairs stored through `lp` in order.  The end of the list
is the terminating NUL, and so is a 0 byte inside it.  `blanks` is true while the inner
`while (*cp == ' ' || *cp == '\t') cp++` is running, that is right after a blank ended an
item. -/
def parseList : Bool → Int → Int → List Nat → Except CutError (List (Int × Int))
  | _, n, range, [] => (endItem n range).map (fun p => [p])
  | blanks, n, range, c :: cs =>
    if c = 0 then (endItem n range).map (fun p => [p])
    else if c = 32 ∨ c = 9 then
      if blanks then parseList true n range cs
      else (endItem n range).bind (fun p => (parseList true 0 0 cs).map (fun ps => p :: ps))
    else if c = 44 then
      (endItem n range).bind (fun p => (parseList false 0 0 cs).map (fun ps => p :: ps))
    else if c = 45 then
      if range ≠ 0 then Except.error CutError.badList
      else parseList false 0 (if n ≠ 0 then n else 1) cs
    else if isdigit c then
      parseList false (wrap32 (wrap32 (10 * n) + ((c : Int) - 48))) range cs
    else Except.error CutError.badList

/-! ## `cutinit`: sorting, merging, gaps -/

/-- `mycomp` (lines 127-131): compares the first `int` of two pairs. -/
def mycomp (a b : Int × Int) : Int :=
  if a.1 < b.1 then -1 else if a.1 > b.1 then 1 else 0

/-- The order `qsort` sorts into: `mycomp a b ≤ 0`. -/
def pairLe (a b : Int × Int) : Prop := mycomp a b ≤ 0

instance : DecidableRel pairLe := fun a b => inferInstanceAs (Decidable (mycomp a b ≤ 0))

/-- `qsort(lp, n, 2 * sizeof(*lp), mycomp)` (line 185), the order it leaves the stored
pairs in.  The C library leaves the order of pairs with equal starts open; this is one
such sort.  The call sorts `n = items + 1` pairs: the last one is the sentinel pair, whose
first `int` is the `HUGE` of line 182 and whose second `int` was never stored
(`qsortInts` is the number of `int`s the call works on).  The sentinel pair has the
greatest key, so sorting leaves it last (`qsort_sentinel`), and it is not part of the
list here: `mergeLoop` treats the end of the list and a start equal to `HUGE` alike, as
the loop test `*lp != HUGE` does. -/
def qsort (ps : List (Int × Int)) : List (Int × Int) := List.insertionSort pairLe ps

/-- The number of `int`s of `cut->list` that the call of `qsort` at line 185 is given:
`n` elements of two `int`s each, with `n = 1 + (lp - cut->list) / 2` (line 183), where
`lp - cut->list` is the number of `int`s stored for the pairs `ps`. -/
def qsortInts (ps : List (Int × Int)) : Nat := 2 * (1 + (2 * ps.length) / 2)

/-- The loop "eliminate overlapping regions" (lines 187-206) over the sorted pairs.
`range` is the C variable; `cur` is the pair at `dp[-2], dp[-1]`, `none` while `dp` is
still `cut->list`.  The result is the pairs `cut->list` holds up to `dp` when the loop
ends. -/
def mergeLoop : List (Int × Int) → Int → Option (Int × Int) →
    Except CutError (List (Int × Int))
  | [], _, cur => Except.ok cur.toList
  | (s, l) :: rest, range, cur =>
    if s = HUGE then Except.ok cur.toList
    else if s ≤ range then
      match cur with
      | none =>
        if l = HUGE then Except.error CutError.outOfBounds
        else if wrap32 (wrap32 (s + l) - range) > 0 then Except.error CutError.outOfBounds
        else mergeLoop rest range none
      | some (cs, ct) =>
        if l = HUGE then Except.ok [(cs, HUGE)]
        else
          let c := wrap32 (wrap32 (s + l) - range)
          if c > 0 then mergeLoop rest (wrap32 (range + c)) (some (cs, wrap32 (ct + c)))
          else mergeLoop rest range (some (cs, ct))
    else
      if l = HUGE then Except.ok (cur.toList ++ [(s, HUGE)])
      else (mergeLoop rest (wrap32 (s + l)) (some (s, l))).map (fun out => cur.toList ++ out)

/-- The loop "convert ranges into gaps" (lines 210-214): `n` is the C variable. -/
def gaps : Int → List (Int × Int) → List (Int × Int)
  | _, [] => []
  | n, (s, t) :: rest => (wrap32 (s - n), t) :: gaps (wrap32 (s + t)) rest

/-- The `int`s of a list of pairs, in array order. -/
def flatten : List (Int × Int) → List Int
  | [] => []
  | (s, t) :: rest => s :: t :: flatten rest

/-- Lines 182-215: from the parsed pairs to the contents of `cut->list` up to and
including the `HUGE` stored by `*dp = HUGE`. -/
def compile (ps : List (Int × Int)) : Except CutError (List Int) :=
  (mergeLoop (qsort ps) (-2) none).map (fun rs => flatten (gaps 0 rs) ++ [HUGE])

/-- The contents of `cut->list` when `cutinit` returns for the list string `str`. -/
def cutinitList (str : List Nat) : Except CutError (List Int) :=
  (parseList false 0 0 str).bind compile

/-! ## The selector -/

/-- `Delim_t` (lines 90-94). -/
structure Delim_t where
  /-- the bytes of the delimiter -/
  str : List Nat
  /-- their number -/
  len : Int
  /-- the delimiter as a character code -/
  chr : Int

def C_BYTES : Nat := 1
def C_CHARS : Nat := 2
def C_FIELDS : Nat := 4
def C_SUPRESS : Nat := 8
def C_NOSPLIT : Nat := 16
def C_NONEWLINE : Nat := 32

def SP_LINE : Nat := 1
def SP_WORD : Nat := 2
def SP_WIDE : Nat := 3

/-- `Cut_t` (lines 96-108).  The `int` flags that are only tested for zero are `Bool`;
`space` is the 256-entry table as a function of the byte; `list` is the array up to and
including the final `HUGE`. -/
structure Cut_t where
  mb : Bool
  eob : Int
  cflag : Bool
  nosplit : Bool
  sflag : Bool
  nlflag : Bool
  reclen : Int
  wdelim : Delim_t
  ldelim : Delim_t
  space : Nat → Nat
  list : List Int

/-- The table `cut->space` as lines 142-153 fill it: the `memset`s, then
`space[wdelim->chr] = SP_WORD` when the word delimiter is one byte, then
`space[eob] = SP_LINE`, the later store winning. -/
def spaceTable (mb : Bool) (wdelim : Delim_t) (eob : Int) (b : Nat) : Nat :=
  if (b : Int) = eob then SP_LINE
  else if wdelim.len = 1 ∧ (b : Int) = wdelim.chr then SP_WORD
  else if mb = true ∧ 128 ≤ b then SP_WIDE
  else 0

/-- `cutinit` (lines 133-233).  `mbwide` is the value of `mbwide()`, a property of the
locale.  The allocation is taken to succeed. -/
def cutinit (mbwide : Bool) (mode : Nat) (str : List Nat) (wdelim ldelim : Delim_t)
    (reclen : Int) : Except CutError Cut_t :=
  (cutinitList str).map (fun l =>
    let eob : Int := if ldelim.len = 1 then ldelim.chr else 0
    { mb := mbwide
      eob := eob
      cflag := decide (mode &&& C_CHARS ≠ 0) && mbwide
      nosplit := decide (mode &&& (C_BYTES ||| C_NOSPLIT) = (C_BYTES ||| C_NOSPLIT)) && mbwide
      sflag := decide (mode &&& C_SUPRESS ≠ 0)
      nlflag := decide (mode &&& C_NONEWLINE ≠ 0)
      reclen := reclen
      wdelim := wdelim
      ldelim := ldelim
      space := spaceTable mbwide wdelim eob
      list := l })

/-! ## `cutcols` -/

/-- The byte at offset `i` of the record, `none` outside it. -/
def byteAt (rec : List Nat) (i : Int) : Option Nat :=
  if 0 ≤ i then rec.get? i.toNat else none

/-- The `c` bytes at offset `bp` of the record, as `sfwrite(fdout, bp, c)` reads them;
`none` when they are not all inside the record (undefined behaviour). -/
def slice (rec : List Nat) (bp c : Int) : Option (List Nat) :=
  if 0 ≤ bp ∧ 0 ≤ c ∧ bp + c ≤ rec.length then some ((rec.drop bp.toNat).take c.toNat)
  else none

/-- The variables of the `do ... while` loop of `cutcols` (lines 264-327).  `bp` and `xx`
are offsets into the record (`xx = none` is the null pointer), `skip` and `must` are the
`int`s tested for zero, `out` is what has been written to `fdout`. -/
structure ColState where
  bp : Int
  len : Int
  ncol : Int
  skip : Bool
  must : Bool
  xx : Option Int
  out : List Nat

/-- The `while (w > 0)` loop of the `nosplit` branch (lines 270-287), from `s`, `bp`, `w`,
`xx` to their values when it ends.  `mblen s w` receives the bytes from `s` to the end of
the record and `w`.  It ends within `fuel` rounds or is `none`. -/
def nosplitScan (mblen : List Nat → Int → Int) (rec : List Nat) (skip : Bool) :
    Nat → Int → Int → Int → Option Int → Option (Int × Int × Int × Option Int)
  | 0, _, _, _, _ => none
  | fuel + 1, s, bp, w, xx =>
    if w > 0 then
      match byteAt rec s with
      | none => none
      | some b =>
        if b &&& 128 = 0 then nosplitScan mblen rec skip fuel (s + 1) bp (wrap32 (w - 1)) xx
        else
          let z := mblen (rec.drop s.toNat) w
          if z ≤ 0 then
            match xx with
            | some x =>
              if s = bp then nosplitScan mblen rec skip fuel x x (wrap32 (w + (s - x))) none
              else some (if skip then s + w else s, bp, 0, some s)
            | none => some (if skip then s + w else s, bp, 0, some s)
          else nosplitScan mblen rec skip fuel (s + z) bp (wrap32 (w - z)) xx
    else some (s, bp, w, xx)

/-- The `while (w > 0 && ncol > 0)` loop of the `cflag` branch (lines 295-300), from `s`,
`w`, `ncol` to their values when it ends. -/
def cflagScan (mblen : List Nat → Int → Int) (rec : List Nat) :
    Nat → Int → Int → Int → Option (Int × Int × Int)
  | 0, _, _, _ => none
  | fuel + 1, s, w, ncol =>
    if w > 0 ∧ ncol > 0 then
      match byteAt rec s with
      | none => none
      | some b =>
        let z : Int :=
          if b &&& 128 = 0 then 1
          else if mblen (rec.drop s.toNat) w ≤ 0 then 1 else mblen (rec.drop s.toNat) w
        cflagScan mblen rec fuel (s + z) (wrap32 (w - z)) (wrap32 (ncol - 1))
    else some (s, w, ncol)

/-- Lines 265-316: one round of the `do ... while` body up to and including `bp += c`.
The result is `c` and the variables after it.  Writes to `fdout` succeed. -/
def colStep (cut : Cut_t) (mblen : List Nat → Int → Int) (rec : List Nat) (st : ColState) :
    Option (Int × ColState) :=
  let r : Option (Int × Int × Int × Option Int) :=
    if cut.nosplit then
      (nosplitScan mblen rec st.skip (2 * rec.length + 2) st.bp st.bp
          (if st.len < st.ncol then st.len else st.ncol) st.xx).map
        (fun q => (q.1 - q.2.1, if q.2.2.1 = 0 ∧ st.ncol ≥ st.len then 1 else 0, q.2.1, q.2.2.2))
    else if cut.cflag then
      (cflagScan mblen rec (rec.length + 1) st.bp st.len st.ncol).map
        (fun q => (q.1 - st.bp, if q.2.1 = 0 ∧ (q.2.2 ≠ 0 ∨ st.skip = false) then 1 else 0,
          st.bp, st.xx))
    else if st.ncol > st.len then some (st.len, wrap32 (st.ncol - st.len), st.bp, st.xx)
    else if st.ncol = st.len ∧ st.skip = false then
      some (st.ncol, wrap32 (wrap32 (st.ncol + 1) - st.ncol), st.bp, st.xx)
    else some (st.ncol, wrap32 (st.ncol - st.ncol), st.bp, st.xx)
  match r with
  | none => none
  | some (c, ncol, bp, xx) =>
    if st.skip = false ∧ c ≠ 0 then
      (slice rec bp c).map (fun w =>
        (c, { bp := bp + c, len := st.len, ncol := ncol, skip := st.skip, must := false,
              xx := xx, out := st.out ++ w }))
    else
      some (c, { bp := bp + c, len := st.len, ncol := ncol, skip := st.skip, must := st.must,
                 xx := xx, out := st.out })

/-- The `do ... while (ncol != HUGE)` loop (lines 264-327).  The first argument is the part
of `cut->list` after `*lp`; reading past its end is `none`. -/
def colLoop (cut : Cut_t) (mblen : List Nat → Int → Int) (rec : List Nat) :
    List Int → ColState → Option ColState
  | [], st =>
    match colStep cut mblen rec st with
    | none => none
    | some (_, st1) => if st1.ncol ≠ 0 then some st1 else none
  | next :: lp, st =>
    match colStep cut mblen rec st with
    | none => none
    | some (c, st1) =>
      if st1.ncol ≠ 0 then some st1
      else
        let st2 : ColState :=
          { bp := st1.bp, len := wrap32 (st1.len - c), ncol := next, skip := !st1.skip,
            must := st1.must, xx := st1.xx, out := st1.out }
        if next = HUGE then some st2 else colLoop cut mblen rec lp st2

/-- What `cutcols` writes for one record (lines 258-334): `rec` is the record `bp` points
to and `sfvalue` its length.  `none` stands for undefined behaviour (a read outside the
record or past the end of the list). -/
def cutcolsRecord (cut : Cut_t) (mblen : List Nat → Int → Int) (rec : List Nat) :
    Option (List Nat) :=
  match cut.list with
  | [] => none
  | l0 :: lp =>
    let start : Option (Int × List Int) :=
      if l0 ≠ 0 then some (l0, lp)
      else match lp with
        | [] => none
        | l1 :: lp1 => some (l1, lp1)
    match start with
    | none => none
    | some (ncol, lp1) =>
      (colLoop cut mblen rec lp1
          { bp := 0, len := rec.length, ncol := ncol, skip := decide (l0 ≠ 0), must := true,
            xx := none, out := [] }).map
        (fun st =>
          st.out ++
            (if cut.nlflag = false ∧ (st.skip = true ∨ st.must = true ∨ cut.reclen ≠ 0) then
              (if cut.ldelim.len > 1 then cut.ldelim.str.take cut.ldelim.len.toNat
               else [(cut.ldelim.chr % 256).toNat])
            else []))

/-- `cutcols` (lines 239-336) on the records the loop head obtains from `fdin`, in order:
with `reclen = 0` each is a line with its `'\n'` as `sfgetr(fdin, '\n', 0)` returns it (the
last one, from `sfgetr(fdin, 0, SF_LASTR)`, without), otherwise a block of `reclen` bytes.
The result is what is written to `fdout`. -/
def cutcols (cut : Cut_t) (mblen : List Nat → Int → Int) : List (List Nat) → Option (List Nat)
  | [] => some []
  | rec :: rest =>
    match cutcolsRecord cut mblen rec with
    | none => none
    | some o => (cutcols cut mblen rest).map (fun os => o ++ os)

/-! ## `cutfields` -/

/-- The variables of `cutfields` (lines 344-357) in a single-byte locale.  `buf` is the
current input buffer as the code has modified it, `cp`, `first` and `copy` are offsets into
it (`copy = none` is the null pointer), `lp` is the index into `cut->list`, `out` is what
has been written to `fdout`, and `tmp` is the first `offset` bytes of `fdtmp`. -/
structure FieldState where
  buf : List Nat
  cp : Nat
  first : Nat
  lp : Nat
  nfields : Int
  copy : Option Nat
  nodelim : Bool
  empty : Bool
  inword : Bool
  out : List Nat
  tmp : List Nat

/-- `while (!(c = sp[*cp++]));` (lines 462-464) over the bytes from offset `i` on: the
offset `wp` of the byte that ends it and its class `c`; `none` if no byte does. -/
def scanWord (sp : Nat → Nat) : List Nat → Nat → Option (Nat × Nat)
  | [], _ => none
  | b :: rest, i => if sp b ≠ 0 then some (i, sp b) else scanWord sp rest (i + 1)

/-- The bytes of `buf` from offset `a` up to offset `b`, as `sfwrite(fdout, a, b - a)`
under the guard `b - a > 0` writes them. -/
def between (buf : List Nat) (a b : Nat) : List Nat := (buf.drop a).take (b - a)

/-- The `do ... while (!inword)` loop (lines 380-488), branch `cut->mb == 0`.  `lastchar`
and `ep` are the C variables.  Each round moves `cp` forward, so it ends within
`fuel` rounds (or is `none`); reading past the end of `cut->list` is `none`. -/
def fieldLoop (cut : Cut_t) (lastchar ep : Nat) : Nat → FieldState → Option FieldState
  | 0, _ => none
  | fuel + 1, st =>
    match scanWord cut.space (st.buf.drop st.cp) st.cp with
    | none => none
    | some (wp, c) =>
      let cp := wp + 1
      if c = SP_LINE ∧ (cp ≤ ep ∨ (lastchar : Int) = cut.ldelim.chr) then
        some { st with cp := cp }
      else
        let buf1 :=
          if c = SP_LINE ∧ (lastchar : Int) ≠ cut.eob then st.buf.set ep lastchar else st.buf
        let inword1 := st.inword || decide (c = SP_LINE)
        if c = SP_LINE ∧ cut.space lastchar = 0 then
          some { st with cp := cp, buf := buf1, inword := inword1 }
        else
          let nfields1 := wrap32 (st.nfields - 1)
          if nfields1 > 0 then
            let st1 : FieldState :=
              { st with cp := cp, buf := buf1, inword := inword1, nodelim := false,
                        nfields := nfields1 }
            if inword1 then some st1 else fieldLoop cut lastchar ep fuel st1
          else
            match cut.list.get? (st.lp + 1) with
            | none => none
            | some nf =>
              let st1 : FieldState :=
                match st.copy with
                | some cpy =>
                  { st with cp := cp, buf := buf1, inword := inword1, nodelim := false,
                            lp := st.lp + 1, nfields := nf, empty := false,
                            out := st.out ++ between buf1 cpy wp, copy := none }
                | none =>
                  { st with cp := cp, buf := buf1, inword := inword1, nodelim := false,
                            lp := st.lp + 1, nfields := nf,
                            copy := some (if st.empty then cp else wp) }
              if inword1 then some st1 else fieldLoop cut lastchar ep fuel st1

/-- Lines 366-379: the start of a round of `while (cp <= ep)`. -/
def lineStart (cut : Cut_t) (st : FieldState) : Option FieldState :=
  if st.inword = false then
    match cut.list with
    | [] => none
    | nf :: rest =>
      if nf ≠ 0 then
        some { st with first := st.cp, nodelim := true, empty := true, copy := none,
                       lp := 0, nfields := nf, inword := false }
      else
        match rest with
        | [] => none
        | nf1 :: _ =>
          some { st with first := st.cp, nodelim := true, empty := true,
                         copy := some st.cp, lp := 1, nfields := nf1, inword := false }
  else
    some { st with first := st.cp, inword := false,
                   copy := if st.copy.isSome then some st.cp else none }

/-- Lines 489-508: what follows the `do ... while` in a round of `while (cp <= ep)`. -/
def lineEnd (cut : Cut_t) (st : FieldState) : FieldState :=
  let st1 : FieldState :=
    if st.inword = false then
      if st.copy.isNone then
        if st.nodelim then
          if cut.sflag = false then
            { st with out := st.out ++ st.tmp, copy := some st.first, tmp := [] }
          else { st with tmp := [] }
        else { st with out := st.out ++ [10], tmp := [] }
      else { st with tmp := [] }
    else st
  match st1.copy with
  | none => st1
  | some cpy =>
    if cpy < st1.cp ∧ (st1.nodelim = false ∨ cut.sflag = false) then
      { st1 with out := st1.out ++ between st1.buf cpy st1.cp }
    else st1

/-- One round of `while (cp <= ep)` (lines 365-509): one line of the buffer, or its
unfinished last part. -/
def fieldLine (cut : Cut_t) (lastchar ep : Nat) (st : FieldState) : Option FieldState :=
  match lineStart cut st with
  | none => none
  | some st1 => (fieldLoop cut lastchar ep (st1.buf.length + 1) st1).map (lineEnd cut)

/-- The loop `while (cp <= ep)` (lines 365-509); it ends within `fuel` rounds. -/
def fieldLines (cut : Cut_t) (lastchar ep : Nat) : Nat → FieldState → Option FieldState
  | 0, _ => none
  | fuel + 1, st =>
    if st.cp ≤ ep then
      match fieldLine cut lastchar ep st with
      | none => none
      | some st1 => fieldLines cut lastchar ep fuel st1
    else some st

/-- One round of the loop over the input buffers (lines 359-517) for the non-empty buffer
`b :: bs` that `sfreserve` returned. -/
def fieldBuffer (cut : Cut_t) (st : FieldState) (b : Nat) (bs : List Nat) :
    Option FieldState :=
  let buf := b :: bs
  let ep := buf.length - 1
  let lastchar := buf.getLast (List.cons_ne_nil b bs)
  let buf1 := if (lastchar : Int) ≠ cut.eob then buf.set ep (cut.eob % 256).toNat else buf
  (fieldLines cut lastchar ep (buf.length + 1) { st with buf := buf1, cp := 0 }).map
    (fun st1 =>
      if st1.inword = true ∧ st1.nodelim = true ∧ cut.sflag = false ∧ st1.first < st1.cp then
        { st1 with tmp := st1.tmp ++ between st1.buf st1.first st1.cp }
      else st1)

/-- The loop over the buffers `sfreserve(fdin, SF_UNBOUND, -1)` returns, in order; an empty
buffer ends it, as the end of the input does. -/
def fieldBuffers (cut : Cut_t) : List (List Nat) → FieldState → Option FieldState
  | [], st => some st
  | [] :: _, st => some st
  | (b :: bs) :: rest, st =>
    match fieldBuffer cut st b bs with
    | none => none
    | some st1 => fieldBuffers cut rest st1

/-- The variables of `cutfields` on entry (lines 344-357). -/
def fieldInit : FieldState :=
  { buf := [], cp := 0, first := 0, lp := 0, nfields := 0, copy := none, nodelim := false,
    empty := false, inword := false, out := [], tmp := [] }

/-- `cutfields` (lines 343-520) in a single-byte locale: what is written to `fdout` for the
input that arrives in the given buffers.  The branch `cut->mb != 0` (lines 382-460) is not
embedded: for such a selector the result is `none`, as it is for undefined behaviour.
Writes to `fdout` and `fdtmp` succeed. -/
def cutfields (cut : Cut_t) (buffers : List (List Nat)) : Option (List Nat) :=
  if cut.mb then none else (fieldBuffers cut buffers fieldInit).map (fun st => st.out)

/-! ## The command: `cutinit`, then an extractor -/

/-- A one-byte delimiter, as `b_cut` builds it from the argument of `-d` or `-D` in a
single-byte locale (lines 562-563 and 576-577). -/
def delim1 (b : Nat) : Delim_t := { str := [b], len := 1, chr := b }

/-- The calls `cutinit(mode, cp, &wdelim, &ldelim, reclen)` and `cutfields(cut, fp,
sfstdout)` of `b_cut` (lines 630 and 641) for one input, in a single-byte locale. -/
def cutFieldsOutput (mode : Nat) (str : List Nat) (wdelim ldelim : Delim_t)
    (buffers : List (List Nat)) : Except CutError (Option (List Nat)) :=
  (cutinit false mode str wdelim ldelim 0).map (fun cut => cutfields cut buffers)

/-- The calls `cutinit(mode, cp, &wdelim, &ldelim, reclen)` and `cutcols(cut, fp,
sfstdout)` of `b_cut` (lines 630 and 643) for one input, in a single-byte locale, where
`mblen` is not called. -/
def cutColsOutput (mode : Nat) (str : List Nat) (wdelim ldelim : Delim_t) (reclen : Int)
    (records : List (List Nat)) : Except CutError (Option (List Nat)) :=
  (cutinit false mode str wdelim ldelim reclen).map
    (fun cut => cutcols cut (fun _ _ => 1) records)

/-- The selector `cutinit` returns for `cut -d: -f2` in a single-byte locale. -/
def fieldTwo : Cut_t :=
  { mb := false, eob := 10, cflag := false, nosplit := false, sflag := false, nlflag := false,
    reclen := 0, wdelim := delim1 58, ldelim := delim1 10,
    space := spaceTable false (delim1 58) 10, list := [1, 1, HUGE] }

/-! ## The words of the specification about lists -/

/-- The characters the grammar of a list allows: a decimal digit, `-`, `,`, space, tab. -/
def listChar (c : Nat) : Bool :=
  isdigit c || decide (c = 45) || decide (c = 44) || decide (c = 32) || decide (c = 9)

/-- The characters that separate the items of a list: `,`, space, tab. -/
def isSep (c : Nat) : Bool := decide (c = 44) || decide (c = 32) || decide (c = 9)

/-- The list has an item with two `-` characters: two `-` with no separator between. -/
def twoDashes (s : List Nat) : Prop :=
  ∃ pre mid post, s = pre ++ 45 :: (mid ++ 45 :: post) ∧ ∀ c ∈ mid, isSep c = false

/-- The value of a decimal numeral given by its digit characters. -/
def numVal (ds : List Nat) : Nat := ds.foldl (fun a c => 10 * a + (c - 48)) 0

/-- The outcome `r` of the parsing loop is one of its two fatal errors. -/
def Fails (r : Except CutError (List (Int × Int))) : Prop :=
  r = Except.error CutError.badList ∨ r = Except.error CutError.invalidRange

/-- An item `N`, `-N` or `N-M` of a list, each number given by its decimal digits. -/
inductive Item
  | single (n : List Nat)
  | upto (n : List Nat)
  | range (lo hi : List Nat)
  deriving DecidableEq

/-- The characters of an item. -/
def Item.text : Item → List Nat
  | Item.single n => n
  | Item.upto n => 45 :: n
  | Item.range lo hi => lo ++ 45 :: hi

/-- The first position (1-based) of the range of an item: `-N` means `1..N`. -/
def Item.low : Item → Nat
  | Item.single n => numVal n
  | Item.upto _ => 1
  | Item.range lo _ => numVal lo

/-- The last position (1-based) of the range of an item: `N` means `N..N`. -/
def Item.high : Item → Nat
  | Item.single n => numVal n
  | Item.upto n => numVal n
  | Item.range _ hi => numVal hi

/-- A decimal numeral: one or more digits. -/
def isNumeral (ds : List Nat) : Prop := ds ≠ [] ∧ ∀ c ∈ ds, isdigit c = true

/-- The numbers of the item are numerals. -/
def Item.numerals : Item → Prop
  | Item.single n => isNumeral n
  | Item.upto n => isNumeral n
  | Item.range lo hi => isNumeral lo ∧ isNumeral hi

/-- An item of the grammar whose numbers fit an `int`: `1 ≤ low ≤ high ≤ INT_MAX`. -/
def Item.wf (i : Item) : Prop :=
  i.numerals ∧ 1 ≤ i.low ∧ i.low ≤ i.high ∧ i.high ≤ 2147483647

/-- What separates two items: a single comma or a run of blanks. -/
inductive Sep
  | comma
  | blanks (bs : List Nat)

/-- The characters of a separator. -/
def Sep.text : Sep → List Nat
  | Sep.comma => [44]
  | Sep.blanks bs => bs

/-- A run of blanks is not empty and holds spaces and tabs only. -/
def Sep.wf : Sep → Prop
  | Sep.comma => True
  | Sep.blanks bs => bs ≠ [] ∧ ∀ c ∈ bs, c = 32 ∨ c = 9

/-- The list string made of a first item and further items, each after a separator. -/
def listText (first : Item) : List (Sep × Item) → List Nat
  | [] => first.text
  | (s, i) :: rest => first.text ++ (s.text ++ listText i rest)

/-- The items of such a list. -/
def listItems (first : Item) (rest : List (Sep × Item)) : List Item :=
  first :: rest.map Prod.snd

/-- The pair `cutinit` stores for an item: the 0-based start and the length. -/
def Item.pair (i : Item) : Int × Int := ((i.low : Int) - 1, (i.high : Int) - (i.low : Int) + 1)

/-- A gap list read from position `pos` on as alternating skip and take run lengths, up
to the `HUGE` in the place of a skip: whether it selects the position `p`. -/
def selects : List Int → Int → Int → Bool
  | skip :: take :: rest, pos, p =>
    if skip = HUGE then false
    else decide (pos + skip ≤ p ∧ p < pos + skip + take) || selects rest (pos + skip + take) p
  | _, _, _ => false

/-- A pair `(start, length)` of a closed range that fits an `int`. -/
def ValidPair (q : Int × Int) : Prop := 0 ≤ q.1 ∧ 1 ≤ q.2 ∧ q.1 + q.2 ≤ HUGE

/-- The position `p` lies in one of the ranges `[start, start + length)`. -/
def Covers (ps : List (Int × Int)) (p : Int) : Prop := ∃ q ∈ ps, q.1 ≤ p ∧ p < q.1 + q.2

/-- Runs in canonical form: each starts at or after `lo`, is at least 1 long, ends at or
before `HUGE`, and the next one starts after a gap of at least 1. -/
def Runs : Int → List (Int × Int) → Prop
  | _, [] => True
  | lo, (s, t) :: rest => lo ≤ s ∧ 1 ≤ t ∧ s + t ≤ HUGE ∧ Runs (s + t + 1) rest

instance : IsTotal (Int × Int) pairLe :=
  ⟨fun a b => by unfold pairLe mycomp; split_ifs <;> omega⟩

instance : IsTrans (Int × Int) pairLe :=
  ⟨fun a b c => by unfold pairLe mycomp; split_ifs <;> omega⟩

instance (ds : List Nat) : Decidable (isNumeral ds) :=
  inferInstanceAs (Decidable (ds ≠ [] ∧ ∀ c ∈ ds, isdigit c = true))

instance : (i : Item) → Decidable i.numerals
  | Item.single n => inferInstanceAs (Decidable (isNumeral n))
  | Item.upto n => inferInstanceAs (Decidable (isNumeral n))
  | Item.range lo hi => inferInstanceAs (Decidable (isNumeral lo ∧ isNumeral hi))

instance (i : Item) : Decidable i.wf :=
  inferInstanceAs (Decidable (i.numerals ∧ 1 ≤ i.low ∧ i.low ≤ i.high ∧ i.high ≤ 2147483647))

instance : (s : Sep) → Decidable s.wf
  | Sep.comma => isTrue trivial
  | Sep.blanks bs => inferInstanceAs (Decidable (bs ≠ [] ∧ ∀ c ∈ bs, c = 32 ∨ c = 9))

end Cut

/-!
The command `enum` (ksh93/bltins/enum.c): the discipline of an enumeration type.

A shallow embedding of `put_enum`, `get_enum`, `get_nenum`, `create_enum`, `sh_outenum` and
`b_enum` of `src/cmd/ksh93/bltins/enum.c`.

* A C string is the `List Nat` of its bytes; the end of the list is the terminating NUL,
  and so is a 0 byte inside it (`cstr`).
* The name-value functions of the shell (`nv_putv`, `nv_getn`, `nv_isattr`, `nv_disc`,
  `nv_hasdisc`, `nv_open`) are not among the sources; what they do to the fields
  embedded here is taken from the specification, in definitions marked as such.
* `error(ERROR_exit(1), ...)` ends the command: it is the `Except.error` result.
-/

namespace Ksh

/-! ## C strings -/

/-- The bytes of a C string up to its terminating NUL. -/
def cstr (s : List Nat) : List Nat := s.takeWhile (fun c => decide (c ≠ 0))

/-- `strlen`. -/
def strlen (s : List Nat) : Nat := (cstr s).length

/-- `strcmp` of the C library: the difference of the first bytes that differ, 0 when the
strings agree up to their NUL. -/
def strcmp : List Nat → List Nat → Int
  | [], [] => 0
  | [], b :: _ => 0 - (b : Int)
  | a :: _, [] => (a : Int)
  | a :: as, b :: bs =>
    if a ≠ b then (a : Int) - (b : Int) else if a = 0 then 0 else strcmp as bs

/-- `tolower` on ASCII: `A`..`Z` go to `a`..`z`, every other byte stays. -/
def tolower (c : Nat) : Nat := if 65 ≤ c ∧ c ≤ 90 then c + 32 else c

/-- `strcasecmp` of the C library with ASCII case folding of both operands, which is how
the specification has the case-insensitive comparison. -/
def strcasecmp : List Nat → List Nat → Int
  | [], [] => 0
  | [], b :: _ => 0 - (tolower b : Int)
  | a :: _, [] => (tolower a : Int)
  | a :: as, b :: bs =>
    if tolower a ≠ tolower b then (tolower a : Int) - (tolower b : Int)
    else if a = 0 then 0 else strcasecmp as bs

/-- The digits of `n` as `%u` prints them. -/
def decimal (n : Nat) : List Nat := (Nat.toDigits 10 n).map Char.toNat

/-! ## Descriptor and variable -/

/-- `struct Enum` (lines 107-113).  `values` is the array of `nelem` strings, so `nelem`
is its length; `nofree` is `namfun.nofree`.  The storage `node` of the synthetic variable
is what `create_enum` returns (`EnumConst`). -/
structure Enum where
  nofree : Bool
  iflag : Bool
  values : List (List Nat)
  deriving DecidableEq

/-- A discipline on the stack `nvfun` of a variable: the enum discipline with its
descriptor (`disc == &ENUM_disc`), or another one. -/
inductive Namfun
  | enum (ep : Enum)
  | other (id : Nat)
  deriving DecidableEq

/-- The fields of `Namval_t` that `enum.c` reads or writes: the name, the numeric slot
(16 bits, unsigned), the attributes `NV_NOTSET` (as `nv_isattr(np, NV_NOTSET) ==
NV_NOTSET`) and `NV_NOFREE`, and the stack of disciplines, first one first. -/
structure Namval_t where
  nvname : List Nat
  nvalue : Nat
  notset : Bool
  nofree : Bool
  nvfun : List Namfun
  deriving DecidableEq

/-- The ways the functions of `enum.c` end a command. -/
inductive EnumError
  /-- `error(ERROR_exit(1), "%s:  invalid value %s", ...)` (line 193) -/
  | invalidValue
  /-- `error(ERROR_exit(1), "%s: invalid enum constant for %s", ...)` (line 243) -/
  | invalidConstant
  /-- `error(ERROR_exit(1), "%s must name an array containing at least two elements", ...)`
  (line 327) -/
  | notAnArray
  /-- `errormsg(SH_DICT, ERROR_usage(2), ...)` (line 311) -/
  | usage
  deriving DecidableEq

/-- Modelled from the spec: `nv_putv`, which is not among the sources, as far as the slot
goes.  A null value clears the slot and leaves the variable unset; a number is stored as
16 bits unsigned, unchanged otherwise ("Integer writes store the bits unchanged", "on
success store ordinal as 16-bit unsigned"), and the variable is then set. -/
def nv_putv (np : Namval_t) : Option Int → Namval_t
  | none => { np with nvalue := 0, notset := true }
  | some n => { np with nvalue := (n % 65536).toNat, notset := false }

/-- Modelled from the spec: `nv_getn`, which is not among the sources: the slot as a
number ("Arithmetic reads return the slot as an integer"). -/
def nv_getn (np : Namval_t) : Nat := np.nvalue

/-- Modelled from the spec: `nv_disc(np, &ep->namfun, DISC_OP_POP)`, which is not among
the sources: the enum discipline leaves the stack of the variable ("pop the
discipline"). -/
def nv_disc_pop : List Namfun → List Namfun
  | [] => []
  | Namfun.enum _ :: rest => rest
  | Namfun.other id :: rest => Namfun.other id :: nv_disc_pop rest

/-- Modelled from the spec: `nv_hasdisc(tp, &ENUM_disc)`, which is not among the sources:
the descriptor of the enum discipline the type carries, if it carries one. -/
def nv_hasdisc : List Namfun → Option Enum
  | [] => none
  | Namfun.enum ep :: _ => some ep
  | Namfun.other _ :: rest => nv_hasdisc rest

/-! ## The discipline functions -/

/-- The value `put_enum` receives: `val == NULL` with or without `NV_INTEGER` in `flags`,
a pointer to a number with `NV_INTEGER`, or a pointer to a string without. -/
inductive PutArg
  | null (integer : Bool)
  | number (n : Int)
  | string (s : List Nat)

/-- The loop `for (int i = 0; i < ep->nelem; i++)` of `put_enum` (lines 175-192) and of
`create_enum` (lines 226-241): the first index `i`, counted from `i0`, whose value `v`
gives `n == 0`, `none` when the loop runs to its end. -/
def scanValues (iflag : Bool) (name : List Nat) : List (List Nat) → Nat → Option Nat
  | [], _ => none
  | v :: vs, i =>
    if (if iflag then strcasecmp v name else strcmp v name) = 0 then some i
    else scanValues iflag name vs (i + 1)

/-- What `put_enum` leaves: the variable, and whether `free_enum(ep)` was called. -/
structure PutResult where
  np : Namval_t
  freed : Bool
  deriving DecidableEq

/-- `put_enum` (lines 160-194).  Every call of `error` in it ends the command, so a result
`Except.ok` is a return on which no error was reported. -/
def put_enum (np : Namval_t) (val : PutArg) (ep : Enum) : Except EnumError PutResult :=
  match val with
  | PutArg.null false =>
    let np1 := nv_putv np none
    Except.ok { np := { np1 with nvfun := nv_disc_pop np1.nvfun }, freed := !ep.nofree }
  | PutArg.null true => Except.ok { np := nv_putv np none, freed := false }
  | PutArg.number n => Except.ok { np := nv_putv np (some n), freed := false }
  | PutArg.string s =>
    match scanValues ep.iflag s ep.values 0 with
    | some i => Except.ok { np := nv_putv np (some ((i % 65536 : Nat) : Int)), freed := false }
    | none =>
      if np.nofree then Except.error EnumError.invalidValue
      else Except.ok { np := np, freed := false }

/-- `get_enum` (lines 196-207).  `buff` holds 5 characters and the NUL. -/
def get_enum (np : Namval_t) (ep : Enum) : List Nat :=
  if np.notset then []
  else if nv_getn np < ep.values.length then ep.values.getD (nv_getn np) []
  else (decimal (nv_getn np)).take 5

/-- `get_nenum` (line 209). -/
def get_nenum (np : Namval_t) : Nat := nv_getn np

/-- The synthetic variable `mp` that `create_enum` returns: its name, its value (the node
carries `NV_UINT16`, so the 16 bits stored through `i16` read as unsigned), the variable
`nvenv` it belongs to, and `fp->last` as an offset into `name`. -/
structure EnumConst where
  nvname : List Nat
  nvalue : Nat
  nvenv : List Nat
  last : Nat
  deriving DecidableEq

/-- `create_enum` (lines 219-245). -/
def create_enum (np : Namval_t) (name : List Nat) (ep : Enum) : Except EnumError EnumConst :=
  match scanValues ep.iflag name ep.values 0 with
  | some i =>
    Except.ok { nvname := ep.values.getD i [], nvalue := i % 65536, nvenv := np.nvname,
                last := strlen name }
  | none => Except.error EnumError.invalidConstant

/-! ## `sh_outenum` -/

/-- The three `sfprintf` of lines 271-273 for the type `tp` with the descriptor `ep`. -/
def outenumText (tp : Namval_t) (ep : Enum) : List Nat :=
  Cut.bytes "enum " ++ (if ep.iflag then Cut.bytes "-i " else []) ++ cstr tp.nvname ++
    Cut.bytes "=(\n" ++ ep.values.flatMap (fun v => 9 :: cstr v ++ [10]) ++ Cut.bytes ")\n"

/-- The loop `while (tp)` of `sh_outenum` (lines 266-276).  `cur` is `tp` followed by the
types `dtnext` gives after it (`[]` is `tp == NULL`), `dict` is `dp != NULL`.  A
`continue` leaves `tp` as it is.  `none` when the loop has not ended within `fuel`
rounds. -/
def outenumLoop (dict : Bool) : Nat → List Namval_t → List Nat → Option (List Nat)
  | 0, _, _ => none
  | _ + 1, [], iop => some iop
  | fuel + 1, tp :: rest, iop =>
    if tp.nvfun = [] then outenumLoop dict fuel (tp :: rest) iop
    else
      match nv_hasdisc tp.nvfun with
      | none => outenumLoop dict fuel (tp :: rest) iop
      | some ep =>
        if dict = false then some (iop ++ outenumText tp ep)
        else outenumLoop dict fuel rest (iop ++ outenumText tp ep)

/-- `sh_outenum` (lines 254-278): the value returned and what `iop` holds then.  `types`
is the type namespace as `nv_open(NV_CLASS, ...)` and `nv_dict` give it, in the order of
`dtfirst` and `dtnext`, `none` when `nv_open` returns null. -/
def sh_outenum (fuel : Nat) (types : Option (List Namval_t)) (iop : List Nat)
    (tp : Option Namval_t) : Option (Int × List Nat) :=
  match tp with
  | some t => (outenumLoop false fuel [t] iop).map (fun o => (0, o))
  | none =>
    match types with
    | none => some (0, iop)
    | some dp => (outenumLoop true fuel dp iop).map (fun o => (0, o))

/-! ## `b_enum` -/

/-- What `optget` returns for one option of `enum`: `'p'`, `'i'`, `':'` or `'?'`. -/
inductive OptCode
  | p
  | i
  | colon
  | question
  deriving DecidableEq

/-- A variable of `var_tree` as `b_enum` sees it through `nv_open` and `nv_arrayptr`: its
name, whether it is an array (`ap != NULL`), whether the array has a discipline of its
own (`ap->fun`), and its elements in index order (`ap->nelem` is their number). -/
structure ArrayVar where
  nvname : List Nat
  isArray : Bool
  hasFun : Bool
  elems : List (List Nat)
  deriving DecidableEq

/-- The part of the shell `b_enum` works on: the variables, the type namespace, what has
been written to `sfstdout`, and `error_info.errors`. -/
structure Shell where
  vars : List ArrayVar
  types : List Namval_t
  out : List Nat
  errors : Nat
  deriving DecidableEq

/-- The loop `while ((n = optget(argv, enum_usage)))` (lines 296-315): `pflag`, `iflag`
and the number of errors reported, or the exit of `'?'`. -/
def enumOptions : List OptCode → Bool → Bool → Nat → Except EnumError (Bool × Bool × Nat)
  | [], pflag, iflag, errors => Except.ok (pflag, iflag, errors)
  | OptCode.p :: rest, _, iflag, errors => enumOptions rest true iflag errors
  | OptCode.i :: rest, pflag, _, errors => enumOptions rest pflag true errors
  | OptCode.colon :: rest, pflag, iflag, errors => enumOptions rest pflag iflag (errors + 1)
  | OptCode.question :: _, _, _, _ => Except.error EnumError.usage

/-- Modelled from the spec: `nv_open(".sh.type.NAME", shp->var_tree, NV_VARNAME)`, which is
not among the sources: the type of that name in the type namespace, added to it, without
a discipline, when it is not there. -/
def openType (types : List Namval_t) (name : List Nat) : Namval_t × List Namval_t :=
  match types.find? (fun t => decide (t.nvname = name)) with
  | some tp => (tp, types)
  | none =>
    let tp : Namval_t :=
      { nvname := name, nvalue := 0, notset := true, nofree := false, nvfun := [] }
    (tp, types ++ [tp])

/-- Lines 336-375 for the type `tp`: the slot is set to 0 and a discipline with a new
descriptor that holds copies of the elements of the array is put first on its stack. -/
def installEnum (iflag : Bool) (elems : List (List Nat)) (tp : Namval_t) : Namval_t :=
  { tp with nvalue := 0, notset := false,
            nvfun := Namfun.enum { nofree := false, iflag := iflag, values := elems.map cstr }
                      :: tp.nvfun }

/-- The loop `while ((cp = *argv++))` of `b_enum` (lines 324-376) over the operands. -/
def enumOperands (fuel : Nat) (pflag iflag : Bool) :
    List (List Nat) → Shell → Option (Except EnumError Shell)
  | [], sh => some (Except.ok sh)
  | cp :: rest, sh =>
    match sh.vars.find? (fun v => decide (v.nvname = cstr cp)) with
    | none => some (Except.error EnumError.notAnArray)
    | some v =>
      if v.isArray = false ∨ v.hasFun = true ∨ v.elems.length < 2 then
        some (Except.error EnumError.notAnArray)
      else
        let r := openType sh.types v.nvname
        if pflag then
          match sh_outenum fuel (some r.2) sh.out (some r.1) with
          | none => none
          | some o => enumOperands fuel pflag iflag rest { sh with types := r.2, out := o.2 }
        else
          enumOperands fuel pflag iflag rest
            { sh with types := r.2.map (fun t =>
                if t.nvname = v.nvname then installEnum iflag v.elems t else t) }

/-- `b_enum` (lines 280-379): the value returned and the shell then.  `opts` is what
`optget` returns for the options of `argv`, `operands` is `argv` from `opt_info.index`
on; `cmdinit` returns 0.  `none` when `sh_outenum` does not end within `fuel` rounds. -/
def b_enum (fuel : Nat) (opts : List OptCode) (operands : List (List Nat)) (sh : Shell) :
    Option (Except EnumError (Int × Shell)) :=
  match enumOptions opts false false sh.errors with
  | Except.error e => some (Except.error e)
  | Except.ok (pflag, iflag, errors) =>
    if errors ≠ 0 ∨ operands.length ≠ 1 then
      some (Except.ok (1, { sh with errors := errors + 1 }))
    else
      match enumOperands fuel pflag iflag operands { sh with errors := errors } with
      | none => none
      | some (Except.error e) => some (Except.error e)
      | some (Except.ok sh1) => some (Except.ok (if sh1.errors ≠ 0 then 1 else 0, sh1))

/-! ## The words of the specification about enumerations -/

/-- The value `v` matches the string `s` under the comparison the descriptor is
configured with: equal as C strings, after ASCII case folding of both when the type is
case-insensitive. -/
def Matches (iflag : Bool) (v s : List Nat) : Prop :=
  if iflag then (cstr v).map tolower = (cstr s).map tolower else cstr v = cstr s

instance (iflag : Bool) (v s : List Nat) : Decidable (Matches iflag v s) :=
  inferInstanceAs
    (Decidable (if iflag then (cstr v).map tolower = (cstr s).map tolower else cstr v = cstr s))

/-- The index `j` is that of the first value that matches `s`. -/
def FirstMatch (iflag : Bool) (values : List (List Nat)) (s : List Nat) (j : Nat) : Prop :=
  (∃ v, values[j]? = some v ∧ Matches iflag v s) ∧
    ∀ i, i < j → ∀ u, values[i]? = some u → ¬ Matches iflag u s

/-- The invariant of a variable bound to the descriptor: it is unset, or its stored
ordinal is less than the number of values. -/
def SlotInv (np : Namval_t) (ep : Enum) : Prop :=
  np.notset = true ∨ np.nvalue < ep.values.length

instance (np : Namval_t) (ep : Enum) : Decidable (SlotInv np ep) :=
  inferInstanceAs (Decidable (np.notset = true ∨ np.nvalue < ep.values.length))

/-- The type `Color` with the values `red green blue`, case-sensitive. -/
def colorEnum : Enum :=
  { nofree := false, iflag := false,
    values := [Cut.bytes "red", Cut.bytes "green", Cut.bytes "blue"] }

/-- The type `M` with the values `On Off`, case-insensitive. -/
def onOffEnum : Enum :=
  { nofree := false, iflag := true, values := [Cut.bytes "On", Cut.bytes "Off"] }

/-- A variable `c` of an enumeration type with the slot `n`; `nofree` is its attribute
`NV_NOFREE`. -/
def enumVar (ep : Enum) (n : Nat) (nofree : Bool) : Namval_t :=
  { nvname := Cut.bytes "c", nvalue := n, notset := false, nofree := nofree,
    nvfun := [Namfun.enum ep] }

/-- A descriptor with 65537 values: `a0`, `a1`, ... up to `a65535`, then `b`. -/
def bigEnum (iflag : Bool) : Enum :=
  { nofree := false, iflag := iflag,
    values := (List.range 65536).map (fun i => 97 :: decimal i) ++ [Cut.bytes "b"] }

/-- The descriptor of a type `T` whose first value holds a newline and a tab: the values
are `a\n\tb` and `c`. -/
def rawEnum : Enum :=
  { nofree := false, iflag := false, values := [[97, 10, 9, 98], Cut.bytes "c"] }

/-- The descriptor of a type `T` with the values `a b c`. -/
def abcEnum : Enum :=
  { nofree := false, iflag := false,
    values := [Cut.bytes "a", Cut.bytes "b", Cut.bytes "c"] }

/-- A shell with an array `arr=(a b)`, the type `Color=(red green blue)` in the type
namespace, nothing written and no error counted. -/
def colorShell : Shell :=
  { vars := [{ nvname := Cut.bytes "arr", isArray := true, hasFun := false,
               elems := [Cut.bytes "a", Cut.bytes "b"] }],
    types := [{ nvname := Cut.bytes "Color", nvalue := 0, notset := false, nofree := false,
                nvfun := [Namfun.enum colorEnum] }],
    out := [], errors := 0 }

/-- A type of the type namespace with the given name and disciplines. -/
def typeNode (name : List Nat) (nvfun : List Namfun) : Namval_t :=
  { nvname := name, nvalue := 0, notset := false, nofree := false, nvfun := nvfun }

end Ksh

namespace Cut

/-! ## `mblen` in a UTF-8 locale -/

/-- A continuation byte of UTF-8: `10xxxxxx`. -/
def isCont (b : Nat) : Bool := decide (128 ≤ b) && decide (b ≤ 191)

/-- The number of bytes of the UTF-8 character that the lead byte `b` starts, 0 when `b`
cannot start one. -/
def utf8Width (b : Nat) : Nat :=
  if b < 128 then 1
  else if 194 ≤ b ∧ b ≤ 223 then 2
  else if 224 ≤ b ∧ b ≤ 239 then 3
  else if 240 ≤ b ∧ b ≤ 244 then 4
  else 0

/-- `mblen(s, n)` of the C library in a UTF-8 locale, on the bytes from `s` on: the number
of bytes of the character at `s` when it is complete within `n` bytes (0 for the NUL
character), -1 when the bytes are not a character or the character needs more than `n`
bytes. -/
def mblenUtf8 (s : List Nat) (n : Int) : Int :=
  match s with
  | [] => -1
  | b :: rest =>
    if n ≤ 0 then -1
    else if b = 0 then 0
    else if utf8Width b = 0 then -1
    else if (utf8Width b : Int) ≤ n ∧ utf8Width b - 1 ≤ rest.length ∧
        (rest.take (utf8Width b - 1)).all isCont then (utf8Width b : Int)
    else -1

/-! ## `b_cut` -/

/-- What `optget` returns for one option of `cut`, with the `opt_info.arg` or
`opt_info.num` that comes with it: `'b'` (from `-b` or from `-c`, told apart by
`opt_info.option[1]`), `'f'`, `'d'`, `'D'`, `'n'`, `'N'`, `'R'`, `'s'`, `':'`, `'?'`. -/
inductive CutOpt
  | b (arg : List Nat)
  | c (arg : List Nat)
  | f (arg : List Nat)
  | d (arg : List Nat)
  | D (arg : List Nat)
  | n
  | N
  | R (num : Int)
  | s
  | colon
  | question

/-- The ways `b_cut` ends without cutting: the usage error (`ERROR_usage(2)`, lines 604,
610 and 615), the two fatal errors of lines 618 and 619, and a fatal error of
`cutinit`. -/
inductive CutExit
  | usage
  | emptyList
  | suppressNeedsFields
  | init (e : CutError)
  deriving DecidableEq

/-- The locals of `b_cut` that the option loop sets (lines 523-531), with
`error_info.errors`. -/
structure CutArgs where
  cp : Option (List Nat)
  mode : Nat
  wdelim : Delim_t
  ldelim : Delim_t
  reclen : Int
  errors : Nat

/-- The first byte of an option argument, `*(unsigned char *)opt_info.arg`; 0 for the
empty string. -/
def firstByte (arg : List Nat) : Nat := arg.headD 0

/-- The loop `while ((n = optget(argv, usage)))` of `b_cut` (lines 537-607) in a
single-byte locale (`mbwide()` is 0): the locals after it, or the exit of `'?'`. -/
def cutOptions : List CutOpt → CutArgs → Except CutExit CutArgs
  | [], a => Except.ok a
  | CutOpt.b arg :: rest, a =>
    if a.mode &&& C_FIELDS ≠ 0 then cutOptions rest { a with errors := a.errors + 1 }
    else cutOptions rest { a with cp := some arg, mode := a.mode ||| C_BYTES }
  | CutOpt.c arg :: rest, a =>
    if a.mode &&& C_FIELDS ≠ 0 then cutOptions rest { a with errors := a.errors + 1 }
    else cutOptions rest { a with cp := some arg, mode := a.mode ||| C_CHARS }
  | CutOpt.D arg :: rest, a =>
    cutOptions rest { a with ldelim := { str := arg, len := 1, chr := firstByte arg } }
  | CutOpt.d arg :: rest, a =>
    cutOptions rest { a with wdelim := { str := arg, len := 1, chr := firstByte arg } }
  | CutOpt.f arg :: rest, a =>
    if a.mode &&& (C_CHARS ||| C_BYTES) ≠ 0 then
      cutOptions rest { a with errors := a.errors + 1 }
    else cutOptions rest { a with cp := some arg, mode := a.mode ||| C_FIELDS }
  | CutOpt.n :: rest, a => cutOptions rest { a with mode := a.mode ||| C_NOSPLIT }
  | CutOpt.N :: rest, a => cutOptions rest { a with mode := a.mode ||| C_NONEWLINE }
  | CutOpt.R num :: rest, a =>
    cutOptions rest (if num > 0 then { a with reclen := num } else a)
  | CutOpt.s :: rest, a => cutOptions rest { a with mode := a.mode ||| C_SUPRESS }
  | CutOpt.colon :: rest, a => cutOptions rest { a with errors := a.errors + 1 }
  | CutOpt.question :: _, _ => Except.error CutExit.usage

/-- An input of `cut` as the two extractors obtain it: the records `sfgetr` and
`sfreserve(fdin, len, -1)` give `cutcols`, and the buffers `sfreserve(fdin, SF_UNBOUND,
-1)` gives `cutfields`. -/
structure Input where
  records : List (List Nat)
  buffers : List (List Nat)

/-- The loop over the inputs of `b_cut` (lines 633-647), every one of which can be
opened: what the extractors write to `sfstdout`, in order; `none` for undefined
behaviour in an extractor. -/
def cutInputs (cut : Cut_t) (mode : Nat) : List Input → Option (List Nat)
  | [] => some []
  | i :: rest =>
    match
      (if mode &&& C_FIELDS ≠ 0 then cutfields cut i.buffers
       else cutcols cut (fun _ _ => 1) i.records) with
    | none => none
    | some o => (cutInputs cut mode rest).map (fun os => o ++ os)

/-- `b_cut` (lines 522-650) in a single-byte locale: `opts` is what `optget` returns for
the options of `argv`, `inputs` the inputs named by the operands (standard input when
there is none), every one of which can be opened; writes succeed.  The result is the
value returned and what has been written to `sfstdout`, or the way the command ends
before that. -/
def b_cut (opts : List CutOpt) (inputs : List Input) :
    Except CutExit (Option (Int × List Nat)) :=
  match cutOptions opts
      { cp := none, mode := 0, wdelim := { str := [], len := 1, chr := 9 },
        ldelim := { str := [], len := 1, chr := 10 }, reclen := 0, errors := 0 } with
  | Except.error e => Except.error e
  | Except.ok a =>
    if a.errors ≠ 0 then Except.error CutExit.usage
    else
      match a.cp with
      | none => Except.error CutExit.usage
      | some cp =>
        if firstByte cp = 0 then Except.error CutExit.emptyList
        else if a.mode &&& (C_FIELDS ||| C_SUPRESS) = C_SUPRESS then
          Except.error CutExit.suppressNeedsFields
        else
          match cutinit false a.mode cp a.wdelim a.ldelim a.reclen with
          | Except.error e => Except.error (CutExit.init e)
          | Except.ok cut => Except.ok ((cutInputs cut a.mode inputs).map (fun o => (0, o)))

/-! ## Lines 186-215 on their own, and the stores of the parsing loop -/

/-- Lines 186-215 of `cutinit` on the pairs as `qsort` left them: the overlap merge and
the conversion into gaps, up to and including the `HUGE` stored by `*dp = HUGE`. -/
def mergeGaps (sorted : List (Int × Int)) : Except CutError (List Int) :=
  (mergeLoop sorted (-2) none).map (fun rs => flatten (gaps 0 rs) ++ [HUGE])

/-- The number of `int`s the loop of lines 160-231 has stored through `lp` when it ends:
two for every item whose end is reached without an error (lines 174-175 and 177-178), and
the `HUGE` of line 182 when the end of the list is reached.  A fatal error ends the loop
with what has been stored before it. -/
def parseStores : Bool → Int → Int → List Nat → Nat
  | _, n, range, [] =>
    match endItem n range with
    | Except.ok _ => 3
    | Except.error _ => 0
  | blanks, n, range, c :: cs =>
    if c = 0 then
      match endItem n range with
      | Except.ok _ => 3
      | Except.error _ => 0
    else if c = 32 ∨ c = 9 then
      if blanks then parseStores true n range cs
      else
        match endItem n range with
        | Except.ok _ => 2 + parseStores true 0 0 cs
        | Except.error _ => 0
    else if c = 44 then
      match endItem n range with
      | Except.ok _ => 2 + parseStores false 0 0 cs
      | Except.error _ => 0
    else if c = 45 then
      if range ≠ 0 then 0 else parseStores false 0 (if n ≠ 0 then n else 1) cs
    else if isdigit c then
      parseStores false (wrap32 (wrap32 (10 * n) + ((c : Int) - 48))) range cs
    else 0

/-- The number of `int`s of `cut->list` inside the block allocated at line 139,
`sizeof(Cut_t) + strlen(cp) * sizeof(int)`: the two of the last member `list[2]` (line
107) and `strlen(cp)` more. -/
def listCapacity (str : List Nat) : Nat := 2 + Ksh.strlen str

/-! ## The words of the specification about gap lists and list strings -/

/-- A gap list read as the specification describes it: pass over `skip` units, then
write `take` units, alternating, up to the `HUGE` in the place of a skip.  The result is
the units of `rec` that are written. -/
def takeRuns : List Int → List Nat → List Nat
  | skip :: take :: rest, rec =>
    if skip = HUGE then []
    else
      (rec.drop skip.toNat).take take.toNat ++
        takeRuns rest (rec.drop (skip.toNat + take.toNat))
  | _, _ => []

/-- A gap list from a skip entry after the first on: every skip is at least 1 and is not
the sentinel, every take is at least 1, and the list ends with the `HUGE` sentinel. -/
def CanonTail : List Int → Prop
  | [] => False
  | [h] => h = HUGE
  | skip :: take :: rest => 1 ≤ skip ∧ skip < HUGE ∧ 1 ≤ take ∧ CanonTail rest

/-- A gap list in canonical form: the first skip is at least 0, every later skip is at
least 1, every take is at least 1, and the list ends with the `HUGE` sentinel. -/
def Canonical : List Int → Prop
  | [] => False
  | [h] => h = HUGE
  | skip :: take :: rest => 0 ≤ skip ∧ skip < HUGE ∧ 1 ≤ take ∧ CanonTail rest

instance (q : Int × Int) : Decidable (ValidPair q) :=
  inferInstanceAs (Decidable (0 ≤ q.1 ∧ 1 ≤ q.2 ∧ q.1 + q.2 ≤ HUGE))

/-- The calls `cutinit(mode, cp, &wdelim, &ldelim, reclen)` and `cutcols(cut, fp,
sfstdout)` of `b_cut` (lines 630 and 643) for one input in a UTF-8 locale, with the
default delimiters and no record length. -/
def cutColsUtf8 (mode : Nat) (str : List Nat) (records : List (List Nat)) :
    Except CutError (Option (List Nat)) :=
  (cutinit true mode str (delim1 9) (delim1 10) 0).map
    (fun cut => cutcols cut mblenUtf8 records)

/-- An item of a list string that is not empty and holds no separator and no NUL. -/
def rawItem (i : List Nat) : Prop := i ≠ [] ∧ ∀ c ∈ i, isSep c = false ∧ c ≠ 0

instance (i : List Nat) : Decidable (rawItem i) :=
  inferInstanceAs (Decidable (i ≠ [] ∧ ∀ c ∈ i, isSep c = false ∧ c ≠ 0))

/-- The list string made of a first item and further items, each after a separator; the
items are any strings. -/
def rawText (first : List Nat) : List (Sep × List Nat) → List Nat
  | [] => first
  | (s, i) :: rest => first ++ (s.text ++ rawText i rest)

/-- One input that arrives as the single record or buffer `s`. -/
def oneInput (s : List Nat) : Input := { records := [s], buffers := [s] }

end Cut

namespace Cut

/-! ## Theorems -/

/-! ### Arithmetic -/

theorem wrap32_id (x : Int) (h1 : -2147483648 ≤ x) (h2 : x ≤ 2147483647) : wrap32 x = x := by
  unfold wrap32
  omega

theorem HUGE_eq : HUGE = 2147483647 := rfl

theorem digit_step (a c : Nat) (n : Int) (hn : n = wrap32 a) (hc : 48 ≤ c) :
    wrap32 (wrap32 (10 * n) + ((c : Int) - 48)) = wrap32 ((10 * a + (c - 48) : Nat) : Int) := by
  rw [hn]
  have : ((10 * a + (c - 48) : Nat) : Int) = 10 * (a : Int) + ((c : Int) - 48) := by
    push_cast [Nat.cast_sub hc]
    ring
  rw [this]
  unfold wrap32
  omega

/-! ### Facts about the selector `cutinit` returns -/

theorem compile_shape (ps : List (Int × Int)) (l : List Int) (h : compile ps = Except.ok l) :
    ∃ a rest, l = a :: rest ∧ (a = 0 → rest ≠ []) := by
  unfold compile at h
  cases hm : mergeLoop (qsort ps) (-2) none with
  | error e => rw [hm] at h; cases h
  | ok rs =>
    rw [hm] at h
    simp only [Except.map] at h
    injection h with h
    subst h
    cases rs with
    | nil => exact ⟨HUGE, [], rfl, by decide⟩
    | cons p rs =>
      obtain ⟨s, t⟩ := p
      exact ⟨wrap32 (s - 0), t :: (flatten (gaps (wrap32 (s + t)) rs) ++ [HUGE]), rfl, by simp⟩

theorem cutinitList_shape (str : List Nat) (l : List Int) (h : cutinitList str = Except.ok l) :
    ∃ a rest, l = a :: rest ∧ (a = 0 → rest ≠ []) := by
  unfold cutinitList at h
  cases hp : parseList false 0 0 str with
  | error e => rw [hp] at h; cases h
  | ok ps =>
    rw [hp] at h
    exact compile_shape ps l h

theorem cutinit_fields (mbwide : Bool) (mode : Nat) (str : List Nat) (wdelim ldelim : Delim_t)
    (reclen : Int) (cut : Cut_t)
    (h : cutinit mbwide mode str wdelim ldelim reclen = Except.ok cut) :
    cutinitList str = Except.ok cut.list ∧ cut.mb = mbwide ∧
      cut.eob = (if ldelim.len = 1 then ldelim.chr else 0) ∧
      cut.space = spaceTable mbwide wdelim (if ldelim.len = 1 then ldelim.chr else 0) ∧
      cut.ldelim = ldelim ∧ cut.wdelim = wdelim ∧
      cut.sflag = decide (mode &&& C_SUPRESS ≠ 0) ∧
      cut.nlflag = decide (mode &&& C_NONEWLINE ≠ 0) ∧ cut.reclen = reclen := by
  unfold cutinit at h
  cases hl : cutinitList str with
  | error e => rw [hl] at h; cases h
  | ok l =>
    rw [hl] at h
    simp only [Except.map] at h
    injection h with h
    subst h
    simp

/-- The list of the selector `cutinit` returns is `cutinitList`. -/
theorem cutinit_list (mbwide : Bool) (mode : Nat) (str : List Nat) (wdelim ldelim : Delim_t)
    (reclen : Int) :
    (cutinit mbwide mode str wdelim ldelim reclen).map Cut_t.list = cutinitList str := by
  unfold cutinit
  cases cutinitList str <;> rfl

/-- `cutinit` ends with a fatal error exactly when `cutinitList` does, and with the same
one. -/
theorem cutinit_error_iff (mbwide : Bool) (mode : Nat) (str : List Nat)
    (wdelim ldelim : Delim_t) (reclen : Int) (e : CutError) :
    cutinit mbwide mode str wdelim ldelim reclen = Except.error e ↔
      cutinitList str = Except.error e := by
  unfold cutinit
  cases cutinitList str <;> simp [Except.map]

/-! ### `cutfields` on a record without a word delimiter -/

theorem scanWord_undelimited (sp : Nat → Nat) (x : List Nat) (t : Nat) (post : List Nat)
    (i : Nat) (hx : ∀ b ∈ x, sp b = 0) (ht : sp t ≠ 0) :
    scanWord sp (x ++ t :: post) i = some (i + x.length, sp t) := by
  induction x generalizing i with
  | nil => simp [scanWord, ht]
  | cons b x ih =>
    have hb : sp b = 0 := hx b (List.mem_cons_self _ _)
    have := ih (i + 1) (fun c hc => hx c (List.mem_cons_of_mem _ hc))
    simp [scanWord, hb, this]
    omega

theorem between_mid (pre x post : List Nat) :
    between (pre ++ x ++ post) pre.length (pre.length + x.length) = x := by
  simp [between]

theorem fieldLoop_undelimited (cut : Cut_t) (lastchar ep : Nat) (st : FieldState)
    (pre x post : List Nat) (t : Nat) (fuel : Nat)
    (hx : ∀ b ∈ x, cut.space b = 0) (ht : cut.space t = SP_LINE)
    (hbuf : st.buf = pre ++ x ++ t :: post) (hcp : st.cp = pre.length)
    (hend : pre.length + x.length + 1 ≤ ep ∨ (lastchar : Int) = cut.ldelim.chr) :
    fieldLoop cut lastchar ep (fuel + 1) st
      = some { st with cp := pre.length + x.length + 1 } := by
  have hs : scanWord cut.space (st.buf.drop st.cp) st.cp
      = some (pre.length + x.length, SP_LINE) := by
    rw [hbuf, hcp, List.append_assoc, List.drop_left, ← ht]
    exact scanWord_undelimited cut.space x t post pre.length hx (by rw [ht]; decide)
  unfold fieldLoop
  rw [hs]
  simp only [true_and]
  rw [if_pos hend]

theorem fieldLine_undelimited (cut : Cut_t) (lastchar ep : Nat) (st : FieldState)
    (pre x post : List Nat) (t : Nat)
    (hlist : ∃ a rest, cut.list = a :: rest ∧ (a = 0 → rest ≠ []))
    (hx : ∀ b ∈ x, cut.space b = 0) (ht : cut.space t = SP_LINE)
    (hbuf : st.buf = pre ++ x ++ t :: post) (hcp : st.cp = pre.length)
    (hin : st.inword = false) (htmp : st.tmp = [])
    (hend : pre.length + x.length + 1 ≤ ep ∨ (lastchar : Int) = cut.ldelim.chr) :
    ∃ st1, fieldLine cut lastchar ep st = some st1 ∧
      st1.out = st.out ++ (if cut.sflag = true then [] else x ++ [t]) ∧
      st1.cp = pre.length + x.length + 1 ∧ st1.inword = false ∧ st1.tmp = [] ∧
      st1.buf = st.buf := by
  obtain ⟨a, rest, hl, hrest⟩ := hlist
  have hbw : between (pre ++ (x ++ t :: post)) pre.length (pre.length + x.length + 1)
      = x ++ [t] := by
    have := between_mid pre (x ++ [t]) post
    simpa [Nat.add_assoc] using this
  have hlt : pre.length < pre.length + x.length + 1 := by omega
  by_cases ha : a = 0
  · obtain ⟨a1, rest1, hr1⟩ := List.exists_cons_of_ne_nil (hrest ha)
    have hstart : lineStart cut st = some
        { st with first := st.cp, nodelim := true, empty := true, copy := some st.cp, lp := 1,
                  nfields := a1, inword := false } := by
      simp [lineStart, hin, hl, ha, hr1]
    unfold fieldLine
    rw [hstart]
    simp only
    rw [fieldLoop_undelimited cut lastchar ep
      (FieldState.mk st.buf st.cp st.cp 1 a1 (some st.cp) true true false st.out st.tmp)
      pre x post t st.buf.length hx ht hbuf hcp hend]
    cases hs : cut.sflag <;>
      simp [lineEnd, hs, hcp, hbuf, hbw, htmp, hlt]
  · have hstart : lineStart cut st = some
        { st with first := st.cp, nodelim := true, empty := true, copy := none, lp := 0,
                  nfields := a, inword := false } := by
      simp [lineStart, hin, hl, ha]
    unfold fieldLine
    rw [hstart]
    simp only
    rw [fieldLoop_undelimited cut lastchar ep
      (FieldState.mk st.buf st.cp st.cp 0 a none true true false st.out st.tmp)
      pre x post t st.buf.length hx ht hbuf hcp hend]
    cases hs : cut.sflag <;>
      simp [lineEnd, hs, hcp, hbuf, hbw, htmp, hlt]

theorem fieldLines_undelimited (cut : Cut_t) (x : List Nat) (t : Nat) (st : FieldState)
    (hlist : ∃ a rest, cut.list = a :: rest ∧ (a = 0 → rest ≠ []))
    (hx : ∀ b ∈ x, cut.space b = 0) (ht : cut.space t = SP_LINE)
    (hldelim : (t : Int) = cut.ldelim.chr)
    (hbuf : st.buf = x ++ [t]) (hcp : st.cp = 0) (hin : st.inword = false)
    (htmp : st.tmp = []) (fuel : Nat) :
    ∃ st1, fieldLines cut t x.length (fuel + 2) st = some st1 ∧
      st1.out = st.out ++ (if cut.sflag = true then [] else x ++ [t]) ∧
      st1.inword = false := by
  obtain ⟨st1, h1, hout, hcp1, hin1, -, -⟩ :=
    fieldLine_undelimited cut t x.length st [] x [] t hlist hx ht (by simpa using hbuf)
      (by simpa using hcp) hin htmp (Or.inr hldelim)
  refine ⟨st1, ?_, hout, hin1⟩
  have h0 : st.cp ≤ x.length := by omega
  have h2 : ¬ st1.cp ≤ x.length := by simp at hcp1; omega
  simp [fieldLines, h0, h1, h2]

theorem fieldBuffer_undelimited (cut : Cut_t) (x : List Nat) (t b : Nat) (bs : List Nat)
    (hb : b :: bs = x ++ [t])
    (hlist : ∃ a rest, cut.list = a :: rest ∧ (a = 0 → rest ≠ []))
    (hx : ∀ b ∈ x, cut.space b = 0) (ht : cut.space t = SP_LINE)
    (hldelim : (t : Int) = cut.ldelim.chr) (heob : (t : Int) = cut.eob) :
    ∃ st1, fieldBuffer cut fieldInit b bs = some st1 ∧
      st1.out = (if cut.sflag = true then [] else x ++ [t]) := by
  have hlast : (b :: bs).getLast (List.cons_ne_nil b bs) = t := by
    simp [hb]
  have hlen : (b :: bs).length = x.length + 1 := by rw [hb]; simp
  obtain ⟨st1, h1, hout, hin1⟩ :=
    fieldLines_undelimited cut x t
      (FieldState.mk (x ++ [t]) 0 0 0 0 none false false false [] [])
      hlist hx ht hldelim rfl rfl rfl rfl x.length
  refine ⟨st1, ?_, by simpa using hout⟩
  unfold fieldBuffer
  simp only [hlast, hlen, heob, ne_eq, not_true_eq_false, if_false, Nat.add_sub_cancel]
  rw [hb]
  simp only [fieldInit]
  rw [h1]
  simp [hin1]

/-- C2: for every list `str` that `cutinit` accepts (single-byte locale, one-byte line
delimiter) and every record made of bytes `x` that are neither the word nor the line
delimiter, followed by the line delimiter `t`: `cutfields`, given the record as its one
input buffer, writes the record verbatim with its terminator when `-s` is not set and
nothing when `-s` is set.  The same holds for the record inside any buffer: the round of
`while (cp <= ep)` that starts at the record (not in the middle of a record carried over
from an earlier buffer) appends exactly that to the output and ends behind the record. -/
theorem cutfields_undelimited_record (mode : Nat) (str : List Nat) (wdelim ldelim : Delim_t)
    (reclen : Int) (cut : Cut_t) (x : List Nat) (t : Nat)
    (hinit : cutinit false mode str wdelim ldelim reclen = Except.ok cut)
    (hlen : ldelim.len = 1) (ht : (t : Int) = ldelim.chr)
    (hx : ∀ b ∈ x, (b : Int) ≠ ldelim.chr ∧ (b : Int) ≠ wdelim.chr) :
    cutfields cut [x ++ [t]] = some (if cut.sflag = true then [] else x ++ [t]) ∧
    ∀ (pre post : List Nat) (lastchar ep : Nat) (st : FieldState),
      st.buf = pre ++ x ++ t :: post → st.cp = pre.length → st.inword = false →
      st.tmp = [] →
      (pre.length + x.length + 1 ≤ ep ∨ (lastchar : Int) = cut.ldelim.chr) →
      ∃ st1, fieldLine cut lastchar ep st = some st1 ∧
        st1.out = st.out ++ (if cut.sflag = true then [] else x ++ [t]) ∧
        st1.cp = pre.length + x.length + 1 ∧ st1.inword = false ∧ st1.tmp = [] ∧
        st1.buf = st.buf := by
  obtain ⟨hl, hmb, heob, hsp, hld, hwd, -, -, -⟩ :=
    cutinit_fields false mode str wdelim ldelim reclen cut hinit
  have hlist := cutinitList_shape str cut.list hl
  rw [if_pos hlen] at heob hsp
  have hxs : ∀ b ∈ x, cut.space b = 0 := by
    intro b hb
    rw [hsp]
    simp [spaceTable, (hx b hb).1, (hx b hb).2]
  have hts : cut.space t = SP_LINE := by
    rw [hsp]
    simp [spaceTable, ht]
  constructor
  · have hne : x ++ [t] ≠ [] := by simp
    obtain ⟨b, bs, hb⟩ := List.exists_cons_of_ne_nil hne
    obtain ⟨st1, h1, hout⟩ := fieldBuffer_undelimited cut x t b bs hb.symm hlist hxs hts
      (by rw [hld]; exact ht) (by rw [heob]; exact ht)
    unfold cutfields
    rw [hb]
    simp [hmb, fieldBuffers, h1, hout]
    rw [hb]
  · intro pre post lastchar ep st hbuf hcp hin htmp hend
    exact fieldLine_undelimited cut lastchar ep st pre x post t hlist hxs hts hbuf hcp hin htmp
      hend

/-- Witness of C2: `cut -d: -f2` on the input `abc\n`. -/
theorem cutfields_undelimited_record_witness :
    cutinit false C_FIELDS (bytes "2") (delim1 58) (delim1 10) 0 = Except.ok fieldTwo ∧
    (delim1 10).len = 1 ∧ ((10 : Nat) : Int) = (delim1 10).chr ∧
    (∀ b ∈ bytes "abc", (b : Int) ≠ (delim1 10).chr ∧ (b : Int) ≠ (delim1 58).chr) ∧
    cutfields fieldTwo [bytes "abc" ++ [10]]
      = some (if fieldTwo.sflag = true then [] else bytes "abc" ++ [10]) :=
  ⟨rfl, rfl, rfl, by decide,
    (cutfields_undelimited_record C_FIELDS (bytes "2") (delim1 58) (delim1 10) 0 fieldTwo
      (bytes "abc") 10 rfl rfl rfl (by decide)).1⟩

/-! ### Lists that `cutinit` rejects -/

theorem endItem_cases (n range : Int) :
    (∃ p, endItem n range = Except.ok p) ∨
      endItem n range = Except.error CutError.invalidRange := by
  simp only [endItem]
  split_ifs
  all_goals first | exact Or.inr rfl | exact Or.inl ⟨_, rfl⟩

theorem fails_bind_map (n range : Int) (r : Except CutError (List (Int × Int)))
    (h : Fails r) : Fails ((endItem n range).bind (fun p => r.map (fun ps => p :: ps))) := by
  rcases endItem_cases n range with ⟨p, hp⟩ | hp
  · rw [hp]
    rcases h with h | h <;> subst h
    · exact Or.inl rfl
    · exact Or.inr rfl
  · rw [hp]
    exact Or.inr rfl

theorem parse_fails_cons (c : Nat) (cs : List Nat)
    (h : ∀ b n r, Fails (parseList b n r cs)) (hc : c ≠ 0) :
    ∀ b n r, Fails (parseList b n r (c :: cs)) := by
  intro b n r
  unfold parseList
  rw [if_neg hc]
  split_ifs
  all_goals first
    | exact h _ _ _
    | exact fails_bind_map _ _ _ (h _ _ _)
    | exact Or.inl rfl

theorem parse_fails_bad (c : Nat) (cs : List Nat) (hc : c ≠ 0) (hbad : listChar c = false) :
    ∀ b n r, Fails (parseList b n r (c :: cs)) := by
  intro b n r
  simp only [listChar, Bool.or_eq_false_iff, decide_eq_false_iff_not] at hbad
  obtain ⟨⟨⟨⟨hd, h45⟩, h44⟩, h32⟩, h9⟩ := hbad
  unfold parseList
  simp [hc, h45, h44, h32, h9, hd]
  exact Or.inl rfl

theorem parse_fails_append (pre cs : List Nat) (hpre : ∀ c ∈ pre, c ≠ 0)
    (h : ∀ b n r, Fails (parseList b n r cs)) :
    ∀ b n r, Fails (parseList b n r (pre ++ cs)) := by
  induction pre with
  | nil => simpa using h
  | cons c pre ih =>
    exact parse_fails_cons c (pre ++ cs)
      (ih (fun d hd => hpre d (List.mem_cons_of_mem _ hd))) (hpre c (List.mem_cons_self _ _))

theorem parse_fails_in_range (mid post : List Nat) (hmid : ∀ c ∈ mid, c ≠ 0 ∧ isSep c = false) :
    ∀ b n r, r ≠ 0 → Fails (parseList b n r (mid ++ 45 :: post)) := by
  induction mid with
  | nil =>
    intro b n r hr
    simp [parseList, hr]
    exact Or.inl rfl
  | cons c mid ih =>
    intro b n r hr
    have hc := hmid c (List.mem_cons_self _ _)
    have hs := hc.2
    simp only [isSep, Bool.or_eq_false_iff, decide_eq_false_iff_not] at hs
    obtain ⟨⟨h44, h32⟩, h9⟩ := hs
    have ih' := ih (fun d hd => hmid d (List.mem_cons_of_mem _ hd))
    simp only [List.cons_append]
    unfold parseList
    simp only [hc.1, h44, h32, h9, if_false, or_self, hr, ne_eq, not_false_eq_true, if_true]
    split_ifs
    · exact Or.inl rfl
    · exact ih' _ _ _ hr
    · exact Or.inl rfl

theorem parse_fails_two_dashes (mid post : List Nat)
    (hmid : ∀ c ∈ mid, c ≠ 0 ∧ isSep c = false) :
    ∀ b n r, Fails (parseList b n r (45 :: (mid ++ 45 :: post))) := by
  intro b n r
  unfold parseList
  simp only [show (45 : Nat) ≠ 0 by decide, if_false, show ¬ ((45 : Nat) = 32 ∨ (45 : Nat) = 9) by decide,
    show (45 : Nat) ≠ 44 by decide, if_true]
  split_ifs
  all_goals first
    | exact Or.inl rfl
    | exact parse_fails_in_range mid post hmid _ _ _ (by assumption)
    | exact parse_fails_in_range mid post hmid _ _ _ (by decide)

theorem cutinitList_of_parse_fails (s : List Nat) (h : Fails (parseList false 0 0 s)) :
    cutinitList s = Except.error CutError.badList ∨
      cutinitList s = Except.error CutError.invalidRange := by
  unfold cutinitList
  rcases h with h | h <;> rw [h]
  · exact Or.inl rfl
  · exact Or.inr rfl

/-- C7, as stated, fails: the list `3-1,x` holds the character `x`, yet `cutinit` ends
with the invalid-range error of the item `3-1`, which it meets first, not with the bad-list
error. -/
theorem cutinit_invalid_range_before_bad_char :
    (∃ c ∈ bytes "3-1,x", listChar c = false) ∧
    cutinitList (bytes "3-1,x") = Except.error CutError.invalidRange ∧
    cutinitList (bytes "3-1,x") ≠ Except.error CutError.badList := by
  decide

/-- C7, amended: for every list string (no NUL inside) that holds a character other than
a decimal digit, `-`, `,`, space or tab, or that holds an item with two `-`, `cutinit`
ends with a fatal error and returns no selector: the bad-list error, or the invalid-range
error when a range item before the offending place is rejected first. -/
theorem cutinit_malformed_list (s : List Nat) (hnul : ∀ c ∈ s, c ≠ 0)
    (hbad : (∃ c ∈ s, listChar c = false) ∨ twoDashes s) :
    cutinitList s = Except.error CutError.badList ∨
      cutinitList s = Except.error CutError.invalidRange := by
  apply cutinitList_of_parse_fails
  rcases hbad with ⟨c, hc, hbad⟩ | ⟨pre, mid, post, hs, hmid⟩
  · obtain ⟨pre, post, hs⟩ := List.append_of_mem hc
    subst hs
    apply parse_fails_append pre (c :: post) (fun d hd => hnul d (by simp [hd]))
    exact parse_fails_bad c post (hnul c (by simp)) hbad
  · subst hs
    apply parse_fails_append pre _ (fun d hd => hnul d (by simp [hd]))
    apply parse_fails_two_dashes
    intro c hc
    exact ⟨hnul c (by simp [hc]), hmid c hc⟩

/-- Witness of C7, amended: the list `1--2`. -/
theorem cutinit_malformed_list_witness :
    (∀ c ∈ bytes "1--2", c ≠ 0) ∧ twoDashes (bytes "1--2") ∧
    (cutinitList (bytes "1--2") = Except.error CutError.badList ∨
      cutinitList (bytes "1--2") = Except.error CutError.invalidRange) :=
  ⟨by decide, ⟨[49], [], [50], by decide, by simp⟩,
    cutinit_malformed_list (bytes "1--2") (by decide)
      (Or.inr ⟨[49], [], [50], by decide, by simp⟩)⟩

theorem bind_map_ne_badList (n range : Int) (r : Except CutError (List (Int × Int)))
    (h : r ≠ Except.error CutError.badList) :
    (endItem n range).bind (fun p => r.map (fun ps => p :: ps))
      ≠ Except.error CutError.badList := by
  rcases endItem_cases n range with ⟨p, hp⟩ | hp
  · rw [hp]
    cases r with
    | error e =>
      intro hc
      apply h
      simp only [Except.bind, Except.map] at hc
      injection hc with hc
      rw [hc]
    | ok ps => simp [Except.bind, Except.map]
  · rw [hp]
    simp [Except.bind]

theorem endItem_map_ne_badList (n range : Int) :
    (endItem n range).map (fun p => [p]) ≠ Except.error CutError.badList := by
  rcases endItem_cases n range with ⟨p, hp⟩ | hp <;> rw [hp] <;> simp [Except.map]

theorem twoDashes_cons (c : Nat) (cs : List Nat) (h : twoDashes cs) : twoDashes (c :: cs) := by
  obtain ⟨pre, mid, post, hs, hmid⟩ := h
  exact ⟨c :: pre, mid, post, by rw [hs]; rfl, hmid⟩

theorem parseList_ne_badList (s : List Nat) :
    ∀ (blanks : Bool) (n range : Int), (∀ c ∈ s, listChar c = true) →
      (blanks = true → range = 0) →
      (range ≠ 0 → ∀ mid post, s = mid ++ 45 :: post → ∃ c ∈ mid, isSep c = true) →
      ¬ twoDashes s → parseList blanks n range s ≠ Except.error CutError.badList := by
  induction s with
  | nil =>
    intro blanks n range _ _ _ _
    simp only [parseList]
    exact endItem_map_ne_badList n range
  | cons c cs ih =>
    intro blanks n range hch hbl hrg htd
    have hch' : ∀ d ∈ cs, listChar d = true := fun d hd => hch d (List.mem_cons_of_mem _ hd)
    have htd' : ¬ twoDashes cs := fun h => htd (twoDashes_cons c cs h)
    have hc := hch c (List.mem_cons_self _ _)
    unfold parseList
    by_cases h0 : c = 0
    · rw [if_pos h0]
      exact endItem_map_ne_badList n range
    rw [if_neg h0]
    by_cases hb : c = 32 ∨ c = 9
    · rw [if_pos hb]
      cases blanks with
      | true =>
        simp only [if_true]
        have hr0 : range = 0 := hbl rfl
        exact ih true n range hch' (fun _ => hr0) (fun h => absurd hr0 h) htd'
      | false =>
        simp only [Bool.false_eq_true, if_false]
        exact bind_map_ne_badList n range _
          (ih true 0 0 hch' (fun _ => rfl) (fun h => absurd rfl h) htd')
    rw [if_neg hb]
    by_cases h44 : c = 44
    · rw [if_pos h44]
      exact bind_map_ne_badList n range _
        (ih false 0 0 hch' (fun h => by cases h) (fun h => absurd rfl h) htd')
    rw [if_neg h44]
    by_cases h45 : c = 45
    · rw [if_pos h45]
      by_cases hr : range ≠ 0
      · exfalso
        obtain ⟨d, hd, _⟩ := hrg hr [] cs (by rw [h45]; rfl)
        cases hd
      · rw [if_neg hr]
        apply ih false 0 _ hch' (fun h => by cases h) _ htd'
        intro _ mid post hs
        by_contra hcon
        apply htd
        refine ⟨[], mid, post, by rw [h45, hs]; rfl, ?_⟩
        intro d hd
        cases hsd : isSep d with
        | false => rfl
        | true => exact absurd ⟨d, hd, hsd⟩ hcon
    rw [if_neg h45]
    have hdig : isdigit c = true := by
      simp only [listChar, Bool.or_eq_true, decide_eq_true_eq] at hc
      rcases hc with (((h | h) | h) | h) | h
      · exact h
      · exact absurd h h45
      · exact absurd h h44
      · exact absurd (Or.inl h) hb
      · exact absurd (Or.inr h) hb
    rw [if_pos hdig]
    apply ih false _ range hch' (fun h => by cases h) _ htd'
    intro hr mid post hs
    obtain ⟨d, hd, hsd⟩ := hrg hr (c :: mid) post (by rw [hs]; rfl)
    rcases List.mem_cons.mp hd with hdc | hdm
    · exfalso
      rw [hdc] at hsd
      simp only [isSep, Bool.or_eq_true, decide_eq_true_eq] at hsd
      rcases hsd with (h | h) | h
      · exact h44 h
      · exact hb (Or.inl h)
      · exact hb (Or.inr h)
    · exact ⟨d, hdm, hsd⟩

theorem except_map_error {α β : Type} (f : α → β) (r : Except CutError α) (e : CutError)
    (h : r.map f = Except.error e) : r = Except.error e := by
  cases r with
  | error e' => simpa [Except.map] using h
  | ok a => simp [Except.map] at h

theorem mergeLoop_error (l : List (Int × Int)) :
    ∀ (range : Int) (cur : Option (Int × Int)) (e : CutError),
      mergeLoop l range cur = Except.error e → e = CutError.outOfBounds := by
  induction l with
  | nil => intro range cur e h; simp [mergeLoop] at h
  | cons p rest ih =>
    intro range cur e h
    obtain ⟨s, l⟩ := p
    cases cur with
    | none =>
      simp only [mergeLoop] at h
      split_ifs at h
      all_goals first
        | exact ih _ _ _ (except_map_error _ _ _ h)
        | exact ih _ _ _ h
        | (injection h with h; exact h.symm)
    | some q =>
      obtain ⟨cs, ct⟩ := q
      simp only [mergeLoop] at h
      split_ifs at h
      all_goals first
        | exact ih _ _ _ (except_map_error _ _ _ h)
        | exact ih _ _ _ h

theorem compile_ne_badList (ps : List (Int × Int)) :
    compile ps ≠ Except.error CutError.badList := by
  unfold compile
  cases hm : mergeLoop (qsort ps) (-2) none with
  | error e =>
    have := mergeLoop_error _ _ _ _ hm
    subst this
    simp [Except.map]
  | ok rs => simp [Except.map]

theorem cutinitList_ne_badList (s : List Nat) (hch : ∀ c ∈ s, listChar c = true)
    (htd : ¬ twoDashes s) : cutinitList s ≠ Except.error CutError.badList := by
  unfold cutinitList
  cases hp : parseList false 0 0 s with
  | error e =>
    intro h
    simp only [Except.bind] at h
    injection h with h
    subst h
    exact parseList_ne_badList s false 0 0 hch (fun h => by cases h) (fun h => absurd rfl h) htd hp
  | ok ps =>
    simp only [Except.bind]
    exact compile_ne_badList ps

theorem parseList_digits (ds : List Nat) :
    ∀ (a : Nat) (n : Int) (b : Bool), n = wrap32 a → (∀ c ∈ ds, isdigit c = true) →
      parseList b n 0 ds = Except.ok
        [(wrap32 (wrap32 ((ds.foldl (fun a c => 10 * a + (c - 48)) a : Nat) : Int) - 1), 1)] := by
  induction ds with
  | nil =>
    intro a n b hn _
    simp [parseList, endItem, Except.map, hn]
  | cons c ds ih =>
    intro a n b hn hd
    have hc := hd c (List.mem_cons_self _ _)
    simp only [isdigit, Bool.and_eq_true, decide_eq_true_eq] at hc
    obtain ⟨h48, h57⟩ := hc
    have hd' : ∀ d ∈ ds, isdigit d = true := fun d h => hd d (List.mem_cons_of_mem _ h)
    have hdc : isdigit c = true := hd c (List.mem_cons_self _ _)
    unfold parseList
    rw [if_neg (by omega), if_neg (by omega), if_neg (by omega), if_neg (by omega), if_pos hdc]
    rw [List.foldl_cons]
    exact ih (10 * a + (c - 48)) _ false (digit_step a c n hn h48) hd'

theorem cutinitList_number (ds : List Nat) (hd : ∀ c ∈ ds, isdigit c = true) :
    cutinitList ds = compile [(wrap32 (wrap32 (numVal ds) - 1), 1)] := by
  have h0 : (0 : Int) = wrap32 ((0 : Nat) : Int) := by simp [wrap32]
  have hp := parseList_digits ds 0 0 false h0 hd
  simp only [cutinitList, numVal, hp, Except.bind]

theorem twoDashes_mem (s : List Nat) (h : twoDashes s) : 45 ∈ s := by
  obtain ⟨pre, mid, post, hs, _⟩ := h
  rw [hs]
  simp

set_option maxRecDepth 100000 in
/-- C9, as stated, fails: the number 4294967297 exceeds `INT_MAX`, yet `cutinit` returns
the selector of the list `1`, the value the digits wrap to. -/
theorem cutinit_wrapped_number :
    numVal (bytes "4294967297") > 2147483647 ∧
    cutinitList (bytes "4294967297") = Except.ok [0, 1, HUGE] ∧
    cutinitList (bytes "4294967297") = cutinitList (bytes "1") := by
  decide

/-- C9, amended: `cutinit` has no overflow check.  For every list made of decimal digits,
`-`, `,`, space and tab in which no item has two `-`, however large its numbers,
`cutinit` does not end with the bad-list error; and a list that is one number is compiled
from the pair `(v - 1, 1)` where `v` is the number wrapped to 32 bits. -/
theorem cutinit_no_overflow_check (s : List Nat) (hch : ∀ c ∈ s, listChar c = true)
    (htd : ¬ twoDashes s) :
    cutinitList s ≠ Except.error CutError.badList ∧
    ((∀ c ∈ s, isdigit c = true) →
      cutinitList s = compile [(wrap32 (wrap32 (numVal s) - 1), 1)]) :=
  ⟨cutinitList_ne_badList s hch htd, cutinitList_number s⟩

/-- Witness of C9, amended: the list `4294967297`. -/
theorem cutinit_no_overflow_check_witness :
    (∀ c ∈ bytes "4294967297", listChar c = true) ∧ ¬ twoDashes (bytes "4294967297") ∧
    cutinitList (bytes "4294967297") ≠ Except.error CutError.badList :=
  ⟨by decide, fun h => absurd (twoDashes_mem _ h) (by decide),
    (cutinit_no_overflow_check (bytes "4294967297") (by decide)
      (fun h => absurd (twoDashes_mem _ h) (by decide))).1⟩

/-! ### Lists of closed items: sorting, merging, gaps -/

theorem pairLe_iff (a b : Int × Int) : pairLe a b ↔ a.1 ≤ b.1 := by
  unfold pairLe mycomp
  split_ifs <;> omega

theorem Runs_mono (rs : List (Int × Int)) (a b : Int) (hab : b ≤ a) (h : Runs a rs) :
    Runs b rs := by
  cases rs with
  | nil => trivial
  | cons q rs =>
    obtain ⟨s, t⟩ := q
    obtain ⟨h1, h2, h3, h4⟩ := h
    exact ⟨le_trans hab h1, h2, h3, h4⟩

theorem Runs_covers_ge (rs : List (Int × Int)) :
    ∀ (lo p : Int), Runs lo rs → Covers rs p → lo ≤ p := by
  induction rs with
  | nil => intro lo p _ h; obtain ⟨q, hq, _⟩ := h; cases hq
  | cons q rs ih =>
    intro lo p hr hc
    obtain ⟨s, t⟩ := q
    obtain ⟨h1, h2, h3, h4⟩ := hr
    obtain ⟨q, hq, hq1, hq2⟩ := hc
    rcases List.mem_cons.mp hq with hq | hq
    · subst hq; simp at hq1; omega
    · have := ih (s + t + 1) p h4 ⟨q, hq, hq1, hq2⟩
      omega

theorem Covers_cons (q : Int × Int) (ps : List (Int × Int)) (p : Int) :
    Covers (q :: ps) p ↔ (q.1 ≤ p ∧ p < q.1 + q.2) ∨ Covers ps p := by
  simp [Covers]

theorem Covers_nil (p : Int) : ¬ Covers [] p := by
  simp [Covers]

theorem mergeLoop_run (l : List (Int × Int)) :
    ∀ (cs ct : Int), ValidPair (cs, ct) → (∀ q ∈ l, ValidPair q) → (∀ q ∈ l, cs ≤ q.1) →
      l.Pairwise (fun a b => a.1 ≤ b.1) →
      ∃ rs, mergeLoop l (cs + ct) (some (cs, ct)) = Except.ok rs ∧ Runs cs rs ∧
        ∀ p, Covers rs p ↔ ((cs ≤ p ∧ p < cs + ct) ∨ Covers l p) := by
  induction l with
  | nil =>
    intro cs ct hv _ _ _
    refine ⟨[(cs, ct)], rfl, ?_, ?_⟩
    · obtain ⟨h1, h2, h3⟩ := hv
      exact ⟨le_refl _, h2, h3, trivial⟩
    · intro p
      simp [Covers]
  | cons q rest ih =>
    intro cs ct hv hvl hlo hsort
    obtain ⟨s, l⟩ := q
    have hq : ValidPair (s, l) := hvl _ (List.mem_cons_self _ _)
    have hvr : ∀ q ∈ rest, ValidPair q := fun q h => hvl q (List.mem_cons_of_mem _ h)
    have hcs : cs ≤ s := hlo _ (List.mem_cons_self _ _)
    have hlr : ∀ q ∈ rest, cs ≤ q.1 := fun q h => hlo q (List.mem_cons_of_mem _ h)
    rw [List.pairwise_cons] at hsort
    obtain ⟨hhead, hsr⟩ := hsort
    simp only [ValidPair, HUGE_eq] at hv hq
    obtain ⟨hv1, hv2, hv3⟩ := hv
    obtain ⟨hq1, hq2, hq3⟩ := hq
    have hs : s ≠ HUGE := by rw [HUGE_eq]; omega
    rw [mergeLoop]
    rw [if_neg hs]
    by_cases hle : s ≤ cs + ct
    · rw [if_pos hle]
      simp only
      by_cases hl : l = HUGE
      · rw [if_pos hl]
        rw [HUGE_eq] at hl
        refine ⟨[(cs, HUGE)], rfl, ?_, ?_⟩
        · refine ⟨le_refl _, ?_, ?_, trivial⟩ <;> rw [HUGE_eq] <;> omega
        · intro p
          rw [Covers_cons, Covers_cons]
          simp only [Covers_nil, or_false, HUGE_eq]
          constructor
          · intro h
            right; left
            constructor <;> omega
          · rintro (h | h | ⟨q, hq, h1, h2⟩)
            · omega
            · omega
            · have := hvr q hq
              simp only [ValidPair, HUGE_eq] at this
              omega
      · rw [if_neg hl]
        have hw : wrap32 (wrap32 (s + l) - (cs + ct)) = s + l - (cs + ct) := by
          rw [wrap32_id (s + l) (by omega) (by omega)]
          exact wrap32_id _ (by omega) (by omega)
        rw [hw]
        by_cases hc : s + l - (cs + ct) > 0
        · rw [if_pos hc]
          have e1 : wrap32 (cs + ct + (s + l - (cs + ct))) = cs + (s + l - cs) := by
            rw [wrap32_id _ (by omega) (by omega)]; omega
          have e2 : wrap32 (ct + (s + l - (cs + ct))) = s + l - cs := by
            rw [wrap32_id _ (by omega) (by omega)]; omega
          rw [e1, e2]
          obtain ⟨rs, hrs, hruns, hcov⟩ := ih cs (s + l - cs)
            (by simp only [ValidPair, HUGE_eq]; omega) hvr hlr hsr
          refine ⟨rs, hrs, hruns, ?_⟩
          intro p
          rw [hcov, Covers_cons]
          simp only
          constructor
          · rintro (h | h)
            · by_cases hp : p < cs + ct
              · left; omega
              · right; left; omega
            · right; right; exact h
          · rintro (h | h | h)
            · left; omega
            · left; omega
            · right; exact h
        · rw [if_neg hc]
          obtain ⟨rs, hrs, hruns, hcov⟩ := ih cs ct
            (by simp only [ValidPair, HUGE_eq]; omega) hvr hlr hsr
          refine ⟨rs, hrs, hruns, ?_⟩
          intro p
          rw [hcov, Covers_cons]
          simp only
          constructor
          · rintro (h | h)
            · left; exact h
            · right; right; exact h
          · rintro (h | h | h)
            · left; exact h
            · left; omega
            · right; exact h
    · rw [if_neg hle]
      have hl : l ≠ HUGE := by rw [HUGE_eq]; omega
      rw [if_neg hl]
      rw [wrap32_id (s + l) (by omega) (by omega)]
      obtain ⟨rs, hrs, hruns, hcov⟩ := ih s l
        (by simp only [ValidPair, HUGE_eq]; omega) hvr (fun q h => hhead q h) hsr
      rw [hrs]
      refine ⟨(cs, ct) :: rs, rfl, ?_, ?_⟩
      · refine ⟨le_refl _, hv2, by rw [HUGE_eq]; omega, ?_⟩
        exact Runs_mono rs s _ (by omega) hruns
      · intro p
        rw [Covers_cons, hcov, Covers_cons]

theorem mergeLoop_sorted (l : List (Int × Int)) (hvl : ∀ q ∈ l, ValidPair q)
    (hsort : l.Pairwise (fun a b => a.1 ≤ b.1)) :
    ∃ rs, mergeLoop l (-2) none = Except.ok rs ∧ Runs 0 rs ∧
      ∀ p, Covers rs p ↔ Covers l p := by
  cases l with
  | nil => exact ⟨[], rfl, trivial, fun p => Iff.rfl⟩
  | cons q rest =>
    obtain ⟨s, l⟩ := q
    have hq : ValidPair (s, l) := hvl _ (List.mem_cons_self _ _)
    have hvr : ∀ q ∈ rest, ValidPair q := fun q h => hvl q (List.mem_cons_of_mem _ h)
    rw [List.pairwise_cons] at hsort
    obtain ⟨hhead, hsr⟩ := hsort
    have hq' := hq
    simp only [ValidPair, HUGE_eq] at hq
    obtain ⟨hq1, hq2, hq3⟩ := hq
    have hs : s ≠ HUGE := by rw [HUGE_eq]; omega
    rw [mergeLoop, if_neg hs, if_neg (by omega)]
    by_cases hl : l = HUGE
    · rw [if_pos hl]
      rw [HUGE_eq] at hl
      refine ⟨[(s, HUGE)], rfl, ?_, ?_⟩
      · refine ⟨hq1, ?_, ?_, trivial⟩ <;> rw [HUGE_eq] <;> omega
      · intro p
        rw [Covers_cons, Covers_cons]
        simp only [Covers_nil, or_false, HUGE_eq]
        constructor
        · intro h
          left
          constructor <;> omega
        · rintro (h | ⟨q, hq, h1, h2⟩)
          · omega
          · have := hvr q hq
            simp only [ValidPair, HUGE_eq] at this
            omega
    · rw [if_neg hl]
      rw [wrap32_id (s + l) (by omega) (by omega)]
      obtain ⟨rs, hrs, hruns, hcov⟩ := mergeLoop_run rest s l hq' hvr (fun q h => hhead q h) hsr
      rw [hrs]
      refine ⟨rs, rfl, Runs_mono rs s 0 hq1 hruns, ?_⟩
      intro p
      rw [hcov, Covers_cons]

theorem qsort_sorted (ps : List (Int × Int)) :
    (qsort ps).Pairwise (fun a b => a.1 ≤ b.1) := by
  have h : List.Sorted pairLe (qsort ps) := List.sorted_insertionSort pairLe ps
  exact List.Pairwise.imp (fun {a b} hab => (pairLe_iff a b).mp hab) h

theorem mem_qsort (ps : List (Int × Int)) (q : Int × Int) : q ∈ qsort ps ↔ q ∈ ps :=
  List.mem_insertionSort pairLe

theorem Covers_congr (ps qs : List (Int × Int)) (h : ∀ q, q ∈ ps ↔ q ∈ qs) (p : Int) :
    Covers ps p ↔ Covers qs p := by
  unfold Covers
  constructor
  · rintro ⟨q, hq, h1⟩; exact ⟨q, (h q).mp hq, h1⟩
  · rintro ⟨q, hq, h1⟩; exact ⟨q, (h q).mpr hq, h1⟩

/-- Sorting and merging valid pairs gives runs in canonical form that cover the same
positions. -/
theorem merge_qsort (ps : List (Int × Int)) (hv : ∀ q ∈ ps, ValidPair q) :
    ∃ rs, mergeLoop (qsort ps) (-2) none = Except.ok rs ∧ Runs 0 rs ∧
      ∀ p, Covers rs p ↔ Covers ps p := by
  obtain ⟨rs, h1, h2, h3⟩ := mergeLoop_sorted (qsort ps)
    (fun q hq => hv q ((mem_qsort ps q).mp hq)) (qsort_sorted ps)
  exact ⟨rs, h1, h2, fun p => (h3 p).trans (Covers_congr _ _ (mem_qsort ps) p)⟩

theorem selects_gaps (rs : List (Int × Int)) :
    ∀ (n p : Int), 0 ≤ n → n ≤ HUGE → Runs n rs →
      (selects (flatten (gaps n rs) ++ [HUGE]) n p = true ↔ Covers rs p) := by
  induction rs with
  | nil =>
    intro n p _ _ _
    simp [gaps, flatten, selects, Covers]
  | cons q rs ih =>
    intro n p hn0 hn1 hr
    obtain ⟨s, t⟩ := q
    obtain ⟨h1, h2, h3, h4⟩ := hr
    rw [HUGE_eq] at hn1 h3
    have e1 : wrap32 (s - n) = s - n := wrap32_id _ (by omega) (by omega)
    have e2 : wrap32 (s + t) = s + t := wrap32_id _ (by omega) (by omega)
    have hne : s - n ≠ HUGE := by rw [HUGE_eq]; omega
    have hpos : n + (s - n) + t = s + t := by omega
    have hpos1 : n + (s - n) = s := by omega
    simp only [gaps, flatten, List.cons_append, selects, e1, e2, if_neg hne, hpos, hpos1,
      List.append_eq]
    rw [Bool.or_eq_true, decide_eq_true_eq,
      ih (s + t) p (by omega) (by rw [HUGE_eq]; omega) (Runs_mono rs _ _ (by omega) h4),
      Covers_cons]

theorem Runs_unique (ps : List (Int × Int)) :
    ∀ (qs : List (Int × Int)) (a b : Int), Runs a ps → Runs b qs →
      (∀ p, Covers ps p ↔ Covers qs p) → ps = qs := by
  induction ps with
  | nil =>
    intro qs a b _ hq h
    cases qs with
    | nil => rfl
    | cons q qs =>
      obtain ⟨s, t⟩ := q
      obtain ⟨_, h2, _, _⟩ := hq
      exact absurd ((h s).mpr ((Covers_cons _ _ _).mpr (Or.inl ⟨le_refl _, by simp; omega⟩)))
        (Covers_nil s)
  | cons x ps ih =>
    intro qs a b hp hq h
    obtain ⟨s, t⟩ := x
    obtain ⟨hp1, hp2, hp3, hp4⟩ := hp
    cases qs with
    | nil =>
      exact absurd ((h s).mp ((Covers_cons _ _ _).mpr (Or.inl ⟨le_refl _, by simp; omega⟩)))
        (Covers_nil s)
    | cons y qs =>
      obtain ⟨s', t'⟩ := y
      obtain ⟨hq1, hq2, hq3, hq4⟩ := hq
      -- the first starts agree
      have hs1 : s' ≤ s := by
        have := (h s).mp ((Covers_cons _ _ _).mpr (Or.inl ⟨le_refl _, by simp; omega⟩))
        rcases (Covers_cons _ _ _).mp this with h1 | h1
        · exact h1.1
        · have := Runs_covers_ge qs _ _ hq4 h1; omega
      have hs2 : s ≤ s' := by
        have := (h s').mpr ((Covers_cons _ _ _).mpr (Or.inl ⟨le_refl _, by simp; omega⟩))
        rcases (Covers_cons _ _ _).mp this with h1 | h1
        · exact h1.1
        · have := Runs_covers_ge ps _ _ hp4 h1; omega
      have hs : s = s' := le_antisymm hs2 hs1
      subst hs
      -- the first ends agree
      have ht1 : t ≤ t' := by
        by_contra hcon
        have hin : Covers ((s, t) :: ps) (s + t') :=
          (Covers_cons _ _ _).mpr (Or.inl ⟨by simp; omega, by simp; omega⟩)
        rcases (Covers_cons _ _ _).mp ((h _).mp hin) with h1 | h1
        · simp at h1
        · have := Runs_covers_ge qs _ _ hq4 h1; omega
      have ht2 : t' ≤ t := by
        by_contra hcon
        have hin : Covers ((s, t') :: qs) (s + t) :=
          (Covers_cons _ _ _).mpr (Or.inl ⟨by simp; omega, by simp; omega⟩)
        rcases (Covers_cons _ _ _).mp ((h _).mpr hin) with h1 | h1
        · simp at h1
        · have := Runs_covers_ge ps _ _ hp4 h1; omega
      have ht : t = t' := le_antisymm ht1 ht2
      subst ht
      have htail : ∀ p, Covers ps p ↔ Covers qs p := by
        intro p
        constructor
        · intro hc
          have hge := Runs_covers_ge ps _ _ hp4 hc
          rcases (Covers_cons _ _ _).mp ((h p).mp ((Covers_cons _ _ _).mpr (Or.inr hc)))
            with h1 | h1
          · simp at h1; omega
          · exact h1
        · intro hc
          have hge := Runs_covers_ge qs _ _ hq4 hc
          rcases (Covers_cons _ _ _).mp ((h p).mpr ((Covers_cons _ _ _).mpr (Or.inr hc)))
            with h1 | h1
          · simp at h1; omega
          · exact h1
      rw [ih qs _ _ hp4 hq4 htail]

theorem parseList_digit (c : Nat) (cs : List Nat) (b : Bool) (n range : Int)
    (hc : isdigit c = true) :
    parseList b n range (c :: cs)
      = parseList false (wrap32 (wrap32 (10 * n) + ((c : Int) - 48))) range cs := by
  have h := hc
  simp only [isdigit, Bool.and_eq_true, decide_eq_true_eq] at h
  rw [parseList, if_neg (by omega), if_neg (by omega), if_neg (by omega), if_neg (by omega),
    if_pos hc]

/-- Reading the digits of a numeral: `n` goes from `wrap32 a` to the wrapped value of the
digits appended to `a`. -/
theorem parseList_numeral (ds : List Nat) :
    ∀ (c : Nat) (a : Nat) (n : Int) (b : Bool) (range : Int) (tail : List Nat),
      n = wrap32 a → isdigit c = true → (∀ d ∈ ds, isdigit d = true) →
      parseList b n range (c :: ds ++ tail)
        = parseList false
            (wrap32 (((c :: ds).foldl (fun a c => 10 * a + (c - 48)) a : Nat) : Int)) range
            tail := by
  induction ds with
  | nil =>
    intro c a n b range tail hn hc _
    have h := hc
    simp only [isdigit, Bool.and_eq_true, decide_eq_true_eq] at h
    rw [List.cons_append, List.nil_append, parseList_digit c tail b n range hc,
      digit_step a c n hn h.1]
    rfl
  | cons d ds ih =>
    intro c a n b range tail hn hc hds
    have h := hc
    simp only [isdigit, Bool.and_eq_true, decide_eq_true_eq] at h
    rw [List.cons_append, parseList_digit c _ b n range hc]
    rw [ih d (10 * a + (c - 48)) _ false range tail (digit_step a c n hn h.1)
      (hds d (List.mem_cons_self _ _)) (fun e he => hds e (List.mem_cons_of_mem _ he))]
    rfl

theorem numVal_parse (ds : List Nat) (hn : isNumeral ds) (hv : numVal ds ≤ 2147483647)
    (b : Bool) (range : Int) (tail : List Nat) :
    parseList b 0 range (ds ++ tail) = parseList false (numVal ds : Int) range tail := by
  obtain ⟨hne, hd⟩ := hn
  cases ds with
  | nil => exact absurd rfl hne
  | cons c ds =>
    rw [parseList_numeral ds c 0 0 b range tail (by simp [wrap32])
      (hd c (List.mem_cons_self _ _)) (fun d h => hd d (List.mem_cons_of_mem _ h))]
    have : wrap32 ((numVal (c :: ds) : Nat) : Int) = (numVal (c :: ds) : Int) :=
      wrap32_id _ (by omega) (by omega)
    unfold numVal at this hv ⊢
    rw [this]

theorem parseList_dash (cs : List Nat) (b : Bool) (n : Int) :
    parseList b n 0 (45 :: cs) = parseList false 0 (if n ≠ 0 then n else 1) cs := by
  rw [parseList, if_neg (by decide), if_neg (by decide), if_neg (by decide), if_pos rfl,
    if_neg (by simp)]

/-- Reading an item of the grammar from the state `n = range = 0`: the loop reaches the
end of the item in a state from which the code at the item's end stores its pair. -/
theorem item_parse (i : Item) (hw : i.wf) (b : Bool) (tail : List Nat) :
    ∃ n range, parseList b 0 0 (i.text ++ tail) = parseList false n range tail ∧
      endItem n range = Except.ok i.pair := by
  obtain ⟨hnum, h1, h2, h3⟩ := hw
  cases i with
  | single ds =>
    simp only [Item.low, Item.high, Item.numerals] at h1 h2 h3 hnum
    refine ⟨(numVal ds : Int), 0, numVal_parse ds hnum h3 b 0 tail, ?_⟩
    simp only [endItem, Item.pair, Item.low, Item.high, ne_eq, not_true_eq_false, if_false]
    rw [wrap32_id _ (by omega) (by omega)]
    congr 2
    omega
  | upto ds =>
    simp only [Item.low, Item.high, Item.numerals] at h1 h2 h3 hnum
    refine ⟨(numVal ds : Int), 1, ?_, ?_⟩
    · simp only [Item.text, List.cons_append]
      rw [parseList_dash]
      simp only [ne_eq, not_true_eq_false, if_false]
      exact numVal_parse ds hnum h3 false 1 tail
    · have hn : (numVal ds : Int) ≠ 0 := by omega
      have e1 : wrap32 ((1 : Int) - 1) = 0 := by simp [wrap32]
      simp only [endItem, Item.pair, Item.low, Item.high, ne_eq, one_ne_zero, not_false_eq_true,
        if_true, hn, e1]
      rw [wrap32_id _ (by omega) (by omega), if_neg (by omega)]
      congr 2
      simp
  | range lo hi =>
    simp only [Item.low, Item.high, Item.numerals] at h1 h2 h3 hnum
    refine ⟨(numVal hi : Int), (numVal lo : Int), ?_, ?_⟩
    · simp only [Item.text, List.append_assoc, List.cons_append]
      rw [numVal_parse lo hnum.1 (by omega) b 0 _, parseList_dash]
      have hn : (numVal lo : Int) ≠ 0 := by omega
      rw [if_pos hn]
      exact numVal_parse hi hnum.2 h3 false _ tail
    · have hn : (numVal lo : Int) ≠ 0 := by omega
      have hn2 : (numVal hi : Int) ≠ 0 := by omega
      simp only [endItem, Item.pair, Item.low, Item.high, ne_eq, hn, hn2, not_false_eq_true,
        if_true]
      rw [wrap32_id ((numVal lo : Int) - 1) (by omega) (by omega),
        wrap32_id _ (by omega) (by omega), if_neg (by omega)]
      congr 2
      omega

theorem parseList_skip_blanks (bs : List Nat) (hb : ∀ c ∈ bs, c = 32 ∨ c = 9) (n range : Int)
    (tail : List Nat) : parseList true n range (bs ++ tail) = parseList true n range tail := by
  induction bs with
  | nil => rfl
  | cons c bs ih =>
    have hc := hb c (List.mem_cons_self _ _)
    rw [List.cons_append, parseList, if_neg (by omega), if_pos hc]
    simp only [if_true]
    exact ih (fun d hd => hb d (List.mem_cons_of_mem _ hd))

theorem parseList_sep (s : Sep) (hs : s.wf) (n range : Int) (p : Int × Int)
    (hp : endItem n range = Except.ok p) (more : List Nat) :
    ∃ b, parseList false n range (s.text ++ more)
      = (parseList b 0 0 more).map (fun ps => p :: ps) := by
  cases s with
  | comma =>
    refine ⟨false, ?_⟩
    simp only [Sep.text, List.cons_append, List.nil_append]
    rw [parseList, if_neg (by decide), if_neg (by decide), if_pos rfl, hp]
    rfl
  | blanks bs =>
    obtain ⟨hne, hb⟩ := hs
    cases bs with
    | nil => exact absurd rfl hne
    | cons c bs =>
      refine ⟨true, ?_⟩
      have hc := hb c (List.mem_cons_self _ _)
      simp only [Sep.text, List.cons_append]
      rw [parseList, if_neg (by omega), if_pos hc]
      simp only [Bool.false_eq_true, if_false]
      rw [hp, parseList_skip_blanks bs (fun d hd => hb d (List.mem_cons_of_mem _ hd))]
      rfl

/-- The parsing loop stores the pairs of the items of a list of the grammar, in order. -/
theorem parseList_listText (rest : List (Sep × Item)) :
    ∀ (first : Item) (b : Bool), (∀ i ∈ listItems first rest, i.wf) →
      (∀ s ∈ rest.map Prod.fst, s.wf) →
      parseList b 0 0 (listText first rest)
        = Except.ok ((listItems first rest).map Item.pair) := by
  induction rest with
  | nil =>
    intro first b hi _
    obtain ⟨n, range, h1, h2⟩ := item_parse first (hi first (List.mem_cons_self _ _)) b []
    rw [List.append_nil] at h1
    simp only [listText, listItems, List.map_nil, List.map_cons]
    rw [h1, parseList, h2]
    rfl
  | cons x rest ih =>
    intro first b hi hs
    obtain ⟨s, i⟩ := x
    obtain ⟨n, range, h1, h2⟩ := item_parse first (hi first (List.mem_cons_self _ _)) b
      (s.text ++ listText i rest)
    obtain ⟨b', h3⟩ := parseList_sep s (hs s (by simp)) n range _ h2 (listText i rest)
    have hi' : ∀ j ∈ listItems i rest, j.wf := by
      intro j hj
      apply hi
      simp only [listItems, List.map_cons, List.mem_cons] at hj ⊢
      right; exact hj
    have hs' : ∀ t ∈ rest.map Prod.fst, t.wf := by
      intro t ht
      apply hs
      simp only [List.map_cons, List.mem_cons]
      right; exact ht
    simp only [listText]
    rw [h1, h3, ih i b' hi' hs']
    rfl

theorem Item_pair_valid (i : Item) (hw : i.wf) : ValidPair i.pair := by
  obtain ⟨_, h1, h2, h3⟩ := hw
  simp only [ValidPair, Item.pair, HUGE_eq]
  omega

theorem Covers_pairs (items : List Item) (p : Nat) :
    Covers (items.map Item.pair) p ↔ ∃ i ∈ items, i.low ≤ p + 1 ∧ p + 1 ≤ i.high := by
  unfold Covers
  constructor
  · rintro ⟨q, hq, h1, h2⟩
    obtain ⟨i, hi, rfl⟩ := List.mem_map.mp hq
    simp only [Item.pair] at h1 h2
    exact ⟨i, hi, by omega, by omega⟩
  · rintro ⟨i, hi, h1, h2⟩
    refine ⟨i.pair, List.mem_map_of_mem _ hi, ?_, ?_⟩ <;> simp only [Item.pair] <;> omega

theorem cutinit_of_list (mbwide : Bool) (mode : Nat) (str : List Nat) (wdelim ldelim : Delim_t)
    (reclen : Int) (l : List Int) (h : cutinitList str = Except.ok l) :
    ∃ cut, cutinit mbwide mode str wdelim ldelim reclen = Except.ok cut ∧ cut.list = l := by
  unfold cutinit
  rw [h]
  exact ⟨_, rfl, rfl⟩

/-- The runs `cutinit` computes for a list of the grammar. -/
theorem cutinitList_runs (first : Item) (rest : List (Sep × Item))
    (hi : ∀ i ∈ listItems first rest, i.wf) (hs : ∀ s ∈ rest.map Prod.fst, s.wf) :
    ∃ rs, cutinitList (listText first rest) = Except.ok (flatten (gaps 0 rs) ++ [HUGE]) ∧
      Runs 0 rs ∧ ∀ p, Covers rs p ↔ Covers ((listItems first rest).map Item.pair) p := by
  have hv : ∀ q ∈ (listItems first rest).map Item.pair, ValidPair q := by
    intro q hq
    obtain ⟨i, hiq, rfl⟩ := List.mem_map.mp hq
    exact Item_pair_valid i (hi i hiq)
  obtain ⟨rs, h1, h2, h3⟩ := merge_qsort _ hv
  refine ⟨rs, ?_, h2, h3⟩
  simp only [cutinitList, parseList_listText rest first false hi hs, Except.bind, compile, h1,
    Except.map]

/-- C5: for every list made of items `N`, `-N` and `N-M` with `1 ≤ N ≤ M ≤ INT_MAX`,
separated by a single comma or a run of blanks, `cutinit` succeeds, and the compiled gap
list, read from position 0 as alternating skip and take run lengths up to the `HUGE`
sentinel, selects the 0-based position `p` if and only if `p + 1` lies in the range of at
least one item. -/
theorem cutinit_selects_items (first : Item) (rest : List (Sep × Item))
    (hi : ∀ i ∈ listItems first rest, i.wf) (hs : ∀ s ∈ rest.map Prod.fst, s.wf) :
    ∃ l, cutinitList (listText first rest) = Except.ok l ∧
      (∀ (mbwide : Bool) (mode : Nat) (wdelim ldelim : Delim_t) (reclen : Int),
        ∃ cut, cutinit mbwide mode (listText first rest) wdelim ldelim reclen = Except.ok cut ∧
          cut.list = l) ∧
      ∀ p : Nat, selects l 0 p = true ↔
        ∃ i ∈ listItems first rest, i.low ≤ p + 1 ∧ p + 1 ≤ i.high := by
  obtain ⟨rs, h1, h2, h3⟩ := cutinitList_runs first rest hi hs
  refine ⟨_, h1, fun mbwide mode wdelim ldelim reclen =>
    cutinit_of_list mbwide mode _ wdelim ldelim reclen _ h1, ?_⟩
  intro p
  rw [selects_gaps rs 0 p (le_refl _) (by decide) h2, h3, Covers_pairs]

/-- Witness of C5: the list `2-3,5`. -/
theorem cutinit_selects_items_witness :
    (∀ i ∈ listItems (Item.range (bytes "2") (bytes "3"))
        [(Sep.comma, Item.single (bytes "5"))], i.wf) ∧
    (∀ s ∈ [(Sep.comma, Item.single (bytes "5"))].map Prod.fst, s.wf) ∧
    listText (Item.range (bytes "2") (bytes "3")) [(Sep.comma, Item.single (bytes "5"))]
      = bytes "2-3,5" ∧
    ∃ l, cutinitList (bytes "2-3,5") = Except.ok l ∧
      ∀ p : Nat, selects l 0 p = true ↔
        ∃ i ∈ listItems (Item.range (bytes "2") (bytes "3"))
          [(Sep.comma, Item.single (bytes "5"))], i.low ≤ p + 1 ∧ p + 1 ≤ i.high := by
  refine ⟨by decide, by decide, by decide, ?_⟩
  obtain ⟨l, h1, _, h3⟩ := cutinit_selects_items (Item.range (bytes "2") (bytes "3"))
    [(Sep.comma, Item.single (bytes "5"))] (by decide) (by decide)
  exact ⟨l, h1, h3⟩

/-- Two lists of the grammar whose items cover the same positions compile to the same
gap list. -/
theorem cutinitList_same_cover (first1 first2 : Item) (rest1 rest2 : List (Sep × Item))
    (hi1 : ∀ i ∈ listItems first1 rest1, i.wf) (hs1 : ∀ s ∈ rest1.map Prod.fst, s.wf)
    (hi2 : ∀ i ∈ listItems first2 rest2, i.wf) (hs2 : ∀ s ∈ rest2.map Prod.fst, s.wf)
    (hcov : ∀ p, Covers ((listItems first1 rest1).map Item.pair) p ↔
      Covers ((listItems first2 rest2).map Item.pair) p) :
    ∃ l, cutinitList (listText first1 rest1) = Except.ok l ∧
      cutinitList (listText first2 rest2) = Except.ok l := by
  obtain ⟨rs1, h1, hr1, hc1⟩ := cutinitList_runs first1 rest1 hi1 hs1
  obtain ⟨rs2, h2, hr2, hc2⟩ := cutinitList_runs first2 rest2 hi2 hs2
  have heq : rs1 = rs2 :=
    Runs_unique rs1 rs2 0 0 hr1 hr2 (fun p => (hc1 p).trans ((hcov p).trans (hc2 p).symm))
  subst heq
  exact ⟨_, h1, h2⟩

/-- C6: two lists of items `N`, `-N` and `N-M` with `1 ≤ N ≤ M ≤ INT_MAX` that hold the
same items, in any order and any number of times, compile to the same gap list. -/
theorem cutinit_same_items (first1 first2 : Item) (rest1 rest2 : List (Sep × Item))
    (hi1 : ∀ i ∈ listItems first1 rest1, i.wf) (hs1 : ∀ s ∈ rest1.map Prod.fst, s.wf)
    (hi2 : ∀ i ∈ listItems first2 rest2, i.wf) (hs2 : ∀ s ∈ rest2.map Prod.fst, s.wf)
    (hsame : ∀ i, i ∈ listItems first1 rest1 ↔ i ∈ listItems first2 rest2) :
    ∃ l, cutinitList (listText first1 rest1) = Except.ok l ∧
      cutinitList (listText first2 rest2) = Except.ok l ∧
      ∀ (mbwide : Bool) (mode : Nat) (wdelim ldelim : Delim_t) (reclen : Int),
        ∃ cut1 cut2,
          cutinit mbwide mode (listText first1 rest1) wdelim ldelim reclen = Except.ok cut1 ∧
          cutinit mbwide mode (listText first2 rest2) wdelim ldelim reclen = Except.ok cut2 ∧
          cut1.list = l ∧ cut2.list = l := by
  have hcov : ∀ p, Covers ((listItems first1 rest1).map Item.pair) p ↔
      Covers ((listItems first2 rest2).map Item.pair) p := by
    intro p
    apply Covers_congr
    intro q
    simp only [List.mem_map]
    constructor
    · rintro ⟨i, hi, rfl⟩; exact ⟨i, (hsame i).mp hi, rfl⟩
    · rintro ⟨i, hi, rfl⟩; exact ⟨i, (hsame i).mpr hi, rfl⟩
  obtain ⟨l, h1, h2⟩ :=
    cutinitList_same_cover first1 first2 rest1 rest2 hi1 hs1 hi2 hs2 hcov
  refine ⟨l, h1, h2, ?_⟩
  intro mbwide mode wdelim ldelim reclen
  obtain ⟨c1, hc1, hl1⟩ := cutinit_of_list mbwide mode _ wdelim ldelim reclen _ h1
  obtain ⟨c2, hc2, hl2⟩ := cutinit_of_list mbwide mode _ wdelim ldelim reclen _ h2
  exact ⟨c1, c2, hc1, hc2, hl1, hl2⟩

/-- Witness of C6: the lists `2-3,5` and `5 2-3,5`. -/
theorem cutinit_same_items_witness :
    listText (Item.range (bytes "2") (bytes "3")) [(Sep.comma, Item.single (bytes "5"))]
      = bytes "2-3,5" ∧
    listText (Item.single (bytes "5"))
        [(Sep.blanks [32], Item.range (bytes "2") (bytes "3")),
         (Sep.comma, Item.single (bytes "5"))]
      = bytes "5 2-3,5" ∧
    ∃ l, cutinitList (bytes "2-3,5") = Except.ok l ∧
      cutinitList (bytes "5 2-3,5") = Except.ok l := by
  refine ⟨by decide, by decide, ?_⟩
  obtain ⟨l, h1, h2, _⟩ := cutinit_same_items (Item.range (bytes "2") (bytes "3"))
    (Item.single (bytes "5")) [(Sep.comma, Item.single (bytes "5"))]
    [(Sep.blanks [32], Item.range (bytes "2") (bytes "3")),
     (Sep.comma, Item.single (bytes "5"))]
    (by decide) (by decide) (by decide) (by decide)
    (by intro i; simp only [listItems, List.map_cons, List.map_nil, List.mem_cons,
          List.mem_singleton, List.not_mem_nil, or_false]; tauto)
  exact ⟨l, h1, h2⟩

/-! ### The code at the inputs where it departs from the specification -/

set_option maxRecDepth 100000 in
/-- C1: `cut -d: -f1-5,4-` selects every field, as `cut -d: -f1-` does, yet for the record
`a:b:c\n` `cutfields` writes `a\n`: merging the open range `4-` into `1-5` overflows the
run length in `cutinit`, which leaves the gap list `0, -2147483647, HUGE`. -/
theorem cutfields_open_range_after_overlap :
    cutinitList (bytes "1-5,4-") = Except.ok [0, -2147483647, HUGE] ∧
    cutFieldsOutput C_FIELDS (bytes "1-5,4-") (delim1 58) (delim1 10) [bytes "a:b:c\n"]
      = Except.ok (some (bytes "a\n")) ∧
    cutFieldsOutput C_FIELDS (bytes "1-") (delim1 58) (delim1 10) [bytes "a:b:c\n"]
      = Except.ok (some (bytes "a:b:c\n")) := by
  decide

set_option maxRecDepth 100000 in
/-- C3: `cut -b2,3-` selects the bytes from the second on, as `cut -b2-` does, yet for the
record `abcdef\n` `cutcols` writes only the line delimiter: merging `3-` into `2` gives
the run length `HUGE`, which the loop of `cutcols` takes for the end of the list. -/
theorem cutcols_open_range_after_item :
    cutinitList (bytes "2,3-") = Except.ok [1, HUGE, HUGE] ∧
    cutColsOutput C_BYTES (bytes "2,3-") (delim1 9) (delim1 10) 0 [bytes "abcdef\n"]
      = Except.ok (some (bytes "\n")) ∧
    cutColsOutput C_BYTES (bytes "2-") (delim1 9) (delim1 10) 0 [bytes "abcdef\n"]
      = Except.ok (some (bytes "bcdef\n")) := by
  decide

set_option maxRecDepth 100000 in
/-- C4: for `cut -b1,4` and the record `ab\n` `cutcols` writes `a` and no line delimiter:
the skip before byte 4 ends exactly at the end of the record, after something has been
written.  For `cut -b1,5`, where the skip goes beyond the record, the delimiter is
written. -/
theorem cutcols_no_terminator :
    cutinitList (bytes "1,4") = Except.ok [0, 1, 2, 1, HUGE] ∧
    cutColsOutput C_BYTES (bytes "1,4") (delim1 9) (delim1 10) 0 [bytes "ab\n"]
      = Except.ok (some (bytes "a")) ∧
    cutColsOutput C_BYTES (bytes "1,4") (delim1 9) (delim1 10) 0 [bytes "ab\n", bytes "cd\n"]
      = Except.ok (some (bytes "ac")) ∧
    cutColsOutput C_BYTES (bytes "1,5") (delim1 9) (delim1 10) 0 [bytes "ab\n"]
      = Except.ok (some (bytes "a\n")) := by
  decide

set_option maxRecDepth 100000 in
/-- C8: the range `3-2`, whose start is greater than its end, is accepted: `cutinit`
returns the gap list `2, 0, HUGE`, with which `cutfields` writes field 3 and `cutcols`
writes no byte.  The range `4-2` is rejected. -/
theorem cutinit_accepts_reversed_range :
    cutinitList (bytes "3-2") = Except.ok [2, 0, HUGE] ∧
    cutFieldsOutput C_FIELDS (bytes "3-2") (delim1 58) (delim1 10) [bytes "a:b:c:d\n"]
      = Except.ok (some (bytes "c\n")) ∧
    cutColsOutput C_BYTES (bytes "3-2") (delim1 9) (delim1 10) 0 [bytes "abcd\n"]
      = Except.ok (some (bytes "\n")) ∧
    cutinitList (bytes "4-2") = Except.error CutError.invalidRange := by
  decide

set_option maxRecDepth 100000 in
/-- C10: for the list `3-,5` the compiled gap list holds the entries `-2147483644, 1`
after the open run: the end of the open run overflows, so item `5` is not absorbed.  For
the list `2-,5`, where it does not overflow, item `5` is absorbed. -/
theorem cutinit_open_range_not_absorbing :
    cutinitList (bytes "3-,5") = Except.ok [2, 2147483646, -2147483644, 1, HUGE] ∧
    cutinitList (bytes "2-,5") = Except.ok [1, 2147483646, HUGE] := by
  decide

end Cut

/-! ## Theorems about the enumeration discipline of `enum.c` -/

namespace Ksh

/-! ### C strings -/

theorem cstr_nil : cstr [] = [] := rfl

theorem cstr_cons_zero (as : List Nat) : cstr (0 :: as) = [] := by
  simp [cstr]

theorem cstr_cons_ne (a : Nat) (as : List Nat) (h : a ≠ 0) : cstr (a :: as) = a :: cstr as := by
  simp [cstr, h]

theorem cstr_of_not_mem (s : List Nat) (h : 0 ∉ s) : cstr s = s := by
  induction s with
  | nil => rfl
  | cons a as ih =>
    have ha : a ≠ 0 := fun h0 => h (by simp [h0])
    rw [cstr_cons_ne a as ha, ih (fun h0 => h (List.mem_cons_of_mem _ h0))]

/-- `strcmp` gives 0 exactly for equal C strings. -/
theorem strcmp_eq_zero_iff (a : List Nat) : ∀ b, strcmp a b = 0 ↔ cstr a = cstr b := by
  induction a with
  | nil =>
    intro b
    cases b with
    | nil => simp [strcmp]
    | cons b bs =>
      by_cases hb : b = 0
      · subst hb; simp [strcmp, cstr]
      · simp [strcmp, cstr_nil, cstr_cons_ne b bs hb]
        omega
  | cons a as ih =>
    intro b
    cases b with
    | nil =>
      by_cases ha : a = 0
      · subst ha; simp [strcmp, cstr]
      · simp [strcmp, cstr_nil, cstr_cons_ne a as ha]
        omega
    | cons b bs =>
      by_cases hab : a = b
      · subst hab
        by_cases ha : a = 0
        · subst ha; simp [strcmp, cstr]
        · simp [strcmp, ha, cstr_cons_ne a _ ha, ih bs]
      · by_cases ha : a = 0
        · subst ha
          have hb : b ≠ 0 := fun h => hab h.symm
          simp [strcmp, hab, cstr_cons_zero, cstr_cons_ne b bs hb]
          omega
        · by_cases hb : b = 0
          · subst hb
            simp [strcmp, hab, cstr_cons_zero, cstr_cons_ne a as ha]
          · simp [strcmp, hab, cstr_cons_ne a as ha, cstr_cons_ne b bs hb]
            omega

theorem tolower_eq_zero (c : Nat) : tolower c = 0 ↔ c = 0 := by
  unfold tolower
  by_cases hc : 65 ≤ c ∧ c ≤ 90
  · rw [if_pos hc]
    constructor
    · intro h; omega
    · intro h; omega
  · rw [if_neg hc]

/-- `strcasecmp` gives 0 exactly for C strings that are equal after ASCII case folding. -/
theorem strcasecmp_eq_zero_iff (a : List Nat) :
    ∀ b, strcasecmp a b = 0 ↔ (cstr a).map tolower = (cstr b).map tolower := by
  induction a with
  | nil =>
    intro b
    cases b with
    | nil => simp [strcasecmp]
    | cons b bs =>
      by_cases hb : b = 0
      · subst hb; simp [strcasecmp, cstr, tolower]
      · have := (tolower_eq_zero b).not.mpr hb
        simp [strcasecmp, cstr_nil, cstr_cons_ne b bs hb]
        omega
  | cons a as ih =>
    intro b
    cases b with
    | nil =>
      by_cases ha : a = 0
      · subst ha; simp [strcasecmp, cstr, tolower]
      · have := (tolower_eq_zero a).not.mpr ha
        simp [strcasecmp, cstr_nil, cstr_cons_ne a as ha]
        omega
    | cons b bs =>
      by_cases ha : a = 0
      · subst ha
        by_cases hb : b = 0
        · subst hb; simp [strcasecmp, cstr]
        · have h1 := (tolower_eq_zero b).not.mpr hb
          have h2 : tolower 0 = 0 := rfl
          simp [strcasecmp, cstr_cons_zero, cstr_cons_ne b bs hb, h2]
          omega
      · by_cases hb : b = 0
        · subst hb
          have h1 := (tolower_eq_zero a).not.mpr ha
          have h2 : tolower 0 = 0 := rfl
          simp [strcasecmp, cstr_cons_zero, cstr_cons_ne a as ha, h2]
          omega
        · by_cases hab : tolower a = tolower b
          · simp [strcasecmp, hab, ha, cstr_cons_ne a as ha, cstr_cons_ne b bs hb, ih bs]
          · simp [strcasecmp, hab, cstr_cons_ne a as ha, cstr_cons_ne b bs hb]
            omega

/-! ### The scan of the values -/

theorem cmp_zero_iff (iflag : Bool) (v s : List Nat) :
    (if iflag = true then strcasecmp v s else strcmp v s) = 0 ↔ Matches iflag v s := by
  unfold Matches
  cases iflag with
  | true => simpa using strcasecmp_eq_zero_iff v s
  | false => simpa using strcmp_eq_zero_iff v s

theorem scanValues_first (iflag : Bool) (s : List Nat) (vs : List (List Nat)) :
    ∀ (j i0 : Nat), FirstMatch iflag vs s j → scanValues iflag s vs i0 = some (i0 + j) := by
  induction vs with
  | nil =>
    intro j i0 h
    obtain ⟨⟨v, hv, _⟩, _⟩ := h
    simp at hv
  | cons v vs ih =>
    intro j i0 h
    obtain ⟨⟨w, hw, hm⟩, hfirst⟩ := h
    cases j with
    | zero =>
      simp only [List.getElem?_cons_zero, Option.some.injEq] at hw
      subst hw
      simp [scanValues, (cmp_zero_iff iflag v s).mpr hm]
    | succ j =>
      have hv : ¬ Matches iflag v s := hfirst 0 (Nat.succ_pos j) v (by simp)
      have hrest : FirstMatch iflag vs s j := by
        refine ⟨⟨w, by simpa using hw, hm⟩, ?_⟩
        intro i hi u hu
        exact hfirst (i + 1) (by omega) u (by simpa using hu)
      have hne : ¬ (if iflag = true then strcasecmp v s else strcmp v s) = 0 :=
        fun h0 => hv ((cmp_zero_iff iflag v s).mp h0)
      rw [scanValues, if_neg hne, ih j (i0 + 1) hrest]
      congr 1
      omega

theorem scanValues_none_iff (iflag : Bool) (s : List Nat) (vs : List (List Nat)) :
    ∀ i0, scanValues iflag s vs i0 = none ↔ ∀ v ∈ vs, ¬ Matches iflag v s := by
  induction vs with
  | nil => intro i0; simp [scanValues]
  | cons v vs ih =>
    intro i0
    by_cases hm : Matches iflag v s
    · simp [scanValues, (cmp_zero_iff iflag v s).mpr hm, hm]
    · have hne : ¬ (if iflag = true then strcasecmp v s else strcmp v s) = 0 :=
        fun h0 => hm ((cmp_zero_iff iflag v s).mp h0)
      rw [scanValues, if_neg hne, ih (i0 + 1)]
      simp [hm]

theorem scanValues_lt (iflag : Bool) (s : List Nat) (vs : List (List Nat)) :
    ∀ i0 k, scanValues iflag s vs i0 = some k → k < i0 + vs.length := by
  induction vs with
  | nil => intro i0 k h; simp [scanValues] at h
  | cons v vs ih =>
    intro i0 k h
    rw [scanValues] at h
    by_cases hc : (if iflag = true then strcasecmp v s else strcmp v s) = 0
    · rw [if_pos hc] at h
      injection h with h
      simp only [List.length_cons]
      omega
    · rw [if_neg hc] at h
      have := ih (i0 + 1) k h
      simp only [List.length_cons]
      omega

theorem slot_small (i : Nat) (h : i < 65536) :
    ((((i % 65536 : Nat) : Int) % 65536).toNat) = i := by
  omega

theorem slot_le (i : Nat) : ((((i % 65536 : Nat) : Int) % 65536).toNat) ≤ i := by
  omega

/-! ### `put_enum`, `get_enum`, `create_enum` -/

theorem getElem?_lt {α : Type} (l : List α) (i : Nat) (v : α) (h : l[i]? = some v) :
    i < l.length := by
  by_contra hc
  rw [List.getElem?_eq_none (by omega)] at h
  cases h

theorem put_enum_match (np : Namval_t) (ep : Enum) (s : List Nat) (j : Nat)
    (h : FirstMatch ep.iflag ep.values s j) :
    put_enum np (PutArg.string s) ep
      = Except.ok { np := nv_putv np (some ((j % 65536 : Nat) : Int)), freed := false } := by
  have := scanValues_first ep.iflag s ep.values j 0 h
  simp only [Nat.zero_add] at this
  simp only [put_enum, this]

theorem put_enum_nomatch (np : Namval_t) (ep : Enum) (s : List Nat)
    (h : ∀ v ∈ ep.values, ¬ Matches ep.iflag v s) :
    put_enum np (PutArg.string s) ep
      = if np.nofree = true then Except.error EnumError.invalidValue
        else Except.ok { np := np, freed := false } := by
  have := (scanValues_none_iff ep.iflag s ep.values 0).mpr h
  simp only [put_enum, this]

theorem get_enum_after_put (np : Namval_t) (ep : Enum) (j : Nat) (v : List Nat)
    (hv : ep.values[j]? = some v) (hlen : ep.values.length ≤ 65536) :
    get_enum (nv_putv np (some ((j % 65536 : Nat) : Int))) ep = v ∧
      get_nenum (nv_putv np (some ((j % 65536 : Nat) : Int))) = j ∧
      (nv_putv np (some ((j % 65536 : Nat) : Int))).nvalue = j := by
  have hj : j < ep.values.length := getElem?_lt _ _ _ hv
  have hs : ((((j % 65536 : Nat) : Int) % 65536).toNat) = j := slot_small j (by omega)
  simp only [get_enum, get_nenum, nv_getn, nv_putv, hs, hj, if_true, Bool.false_eq_true,
    if_false, List.getD_eq_getElem?_getD, hv, Option.getD_some, and_self]

/-- C11: for every case-sensitive descriptor whose values are pairwise distinct (as C
strings) and number at most 65535, every variable `np` and every index `i` of a value
`v`: `put_enum` with the string `v` returns, and on the variable it leaves `get_enum`
returns `v` and `get_nenum` returns `i`. -/
theorem put_get_enum_roundtrip (ep : Enum) (np : Namval_t) (i : Nat) (v : List Nat)
    (hcase : ep.iflag = false) (hdistinct : (ep.values.map cstr).Nodup)
    (hlen : ep.values.length ≤ 65535) (hi : ep.values[i]? = some v) :
    ∃ r, put_enum np (PutArg.string v) ep = Except.ok r ∧ get_enum r.np ep = v ∧
      get_nenum r.np = i := by
  have hil : i < ep.values.length := getElem?_lt _ _ _ hi
  have hfirst : FirstMatch ep.iflag ep.values v i := by
    refine ⟨⟨v, hi, by simp [Matches, hcase]⟩, ?_⟩
    intro k hk u hu hm
    simp only [Matches, hcase, Bool.false_eq_true, if_false] at hm
    have hne := (List.nodup_iff_getElem?_ne_getElem?.mp hdistinct) k i hk (by simpa using hil)
    apply hne
    simp [List.getElem?_map, hu, hi, hm]
  obtain ⟨h1, h2, _⟩ := get_enum_after_put np ep i v hi (by omega)
  exact ⟨_, put_enum_match np ep v i hfirst, h1, h2⟩

/-- Witness of C11: the value `green` of `Color=(red green blue)`. -/
theorem put_get_enum_roundtrip_witness :
    colorEnum.iflag = false ∧ (colorEnum.values.map cstr).Nodup ∧
    colorEnum.values.length ≤ 65535 ∧ colorEnum.values[1]? = some (Cut.bytes "green") ∧
    ∃ r, put_enum (enumVar colorEnum 0 false) (PutArg.string (Cut.bytes "green")) colorEnum
        = Except.ok r ∧
      get_enum r.np colorEnum = Cut.bytes "green" ∧ get_nenum r.np = 1 :=
  ⟨rfl, by decide, by decide, by decide,
    put_get_enum_roundtrip colorEnum (enumVar colorEnum 0 false) 1 (Cut.bytes "green") rfl
      (by decide) (by decide) (by decide)⟩

/-- C12, amended: for every case-insensitive descriptor with at most 65536 values (every
index then fits the 16-bit slot), every variable and every string `s`: when `v` is the first value that
equals `s` after ASCII case folding, `put_enum` with `s` returns and `get_enum` then
returns `v`, the declared spelling. -/
theorem put_get_enum_ignorecase (ep : Enum) (np : Namval_t) (s : List Nat) (j : Nat)
    (v : List Nat) (hcase : ep.iflag = true) (hlen : ep.values.length ≤ 65536)
    (hv : ep.values[j]? = some v)
    (hm : (cstr v).map tolower = (cstr s).map tolower)
    (hfirst : ∀ i, i < j → ∀ u, ep.values[i]? = some u →
      (cstr u).map tolower ≠ (cstr s).map tolower) :
    ∃ r, put_enum np (PutArg.string s) ep = Except.ok r ∧ get_enum r.np ep = v := by
  have hf : FirstMatch ep.iflag ep.values s j := by
    refine ⟨⟨v, hv, by simpa [Matches, hcase] using hm⟩, ?_⟩
    intro i hi u hu hmu
    simp only [Matches, hcase, if_true] at hmu
    exact hfirst i hi u hu hmu
  obtain ⟨h1, _, _⟩ := get_enum_after_put np ep j v hv hlen
  exact ⟨_, put_enum_match np ep s j hf, h1⟩

/-- Witness of C12, amended: writing `off` to a variable of `M=(On Off)`, case-insensitive. -/
theorem put_get_enum_ignorecase_witness :
    onOffEnum.iflag = true ∧ onOffEnum.values.length ≤ 65536 ∧
    onOffEnum.values[1]? = some (Cut.bytes "Off") ∧
    (cstr (Cut.bytes "Off")).map tolower = (cstr (Cut.bytes "off")).map tolower ∧
    ∃ r, put_enum (enumVar onOffEnum 0 false) (PutArg.string (Cut.bytes "off")) onOffEnum
        = Except.ok r ∧ get_enum r.np onOffEnum = Cut.bytes "Off" :=
  ⟨rfl, by decide, by decide, by decide,
    put_get_enum_ignorecase onOffEnum (enumVar onOffEnum 0 false) (Cut.bytes "off") 1
      (Cut.bytes "Off") rfl (by decide) (by decide) (by decide)
      (by
        intro i hi u hu
        have h0 : i = 0 := by omega
        subst h0
        have hu' : u = Cut.bytes "On" := by
          have : onOffEnum.values[0]? = some (Cut.bytes "On") := by decide
          rw [this] at hu
          exact (Option.some.inj hu).symm
        subst hu'
        decide)⟩

/-- C13, amended: for every descriptor with at most 65536 values (every index then fits
the 16-bit slot), every variable and every string `s`: when `j` is the index of the first value that matches
`s` under the configured comparison, `put_enum` returns and the slot is `j`; when no value
matches and `put_enum` returns, the slot is what it was. -/
theorem put_enum_slot (ep : Enum) (np : Namval_t) (s : List Nat)
    (hlen : ep.values.length ≤ 65536) :
    (∀ j, FirstMatch ep.iflag ep.values s j →
      ∃ r, put_enum np (PutArg.string s) ep = Except.ok r ∧ r.np.nvalue = j) ∧
    ((∀ v ∈ ep.values, ¬ Matches ep.iflag v s) →
      ∀ r, put_enum np (PutArg.string s) ep = Except.ok r → r.np.nvalue = np.nvalue) := by
  constructor
  · intro j hj
    obtain ⟨v, hv, _⟩ := hj.1
    obtain ⟨_, _, h3⟩ := get_enum_after_put np ep j v hv hlen
    exact ⟨_, put_enum_match np ep s j hj, h3⟩
  · intro hno r hr
    rw [put_enum_nomatch np ep s hno] at hr
    by_cases hn : np.nofree = true
    · rw [if_pos hn] at hr
      cases hr
    · rw [if_neg hn] at hr
      injection hr with hr
      rw [← hr]

/-- Witness of C13, amended: writing `blue` and writing `pink` to a variable of
`Color=(red green blue)` whose slot is 1. -/
theorem put_enum_slot_witness :
    colorEnum.values.length ≤ 65536 ∧
    FirstMatch colorEnum.iflag colorEnum.values (Cut.bytes "blue") 2 ∧
    (∃ r, put_enum (enumVar colorEnum 1 false) (PutArg.string (Cut.bytes "blue")) colorEnum
      = Except.ok r ∧ r.np.nvalue = 2) ∧
    (∀ r, put_enum (enumVar colorEnum 1 false) (PutArg.string (Cut.bytes "pink")) colorEnum
      = Except.ok r → r.np.nvalue = 1) := by
  have hfirst : FirstMatch colorEnum.iflag colorEnum.values (Cut.bytes "blue") 2 := by
    refine ⟨⟨Cut.bytes "blue", by decide, by decide⟩, ?_⟩
    intro i hi u hu
    have hi' : i = 0 ∨ i = 1 := by omega
    rcases hi' with h | h <;> subst h
    · have : colorEnum.values[0]? = some (Cut.bytes "red") := by decide
      rw [this] at hu
      rw [← Option.some.inj hu]
      decide
    · have : colorEnum.values[1]? = some (Cut.bytes "green") := by decide
      rw [this] at hu
      rw [← Option.some.inj hu]
      decide
  have hno : ∀ v ∈ colorEnum.values, ¬ Matches colorEnum.iflag v (Cut.bytes "pink") := by
    decide
  exact ⟨by decide, hfirst,
    (put_enum_slot colorEnum (enumVar colorEnum 1 false) (Cut.bytes "blue") (by decide)).1 2
      hfirst,
    (put_enum_slot colorEnum (enumVar colorEnum 1 false) (Cut.bytes "pink") (by decide)).2
      hno⟩

/-- C14, as stated, fails: `pink` matches no value of `Color=(red green blue)`, the
variable does not carry `NV_NOFREE`, and `put_enum` returns with the variable as it was:
no error is reported. -/
theorem put_enum_silent :
    (∀ v ∈ colorEnum.values, ¬ Matches colorEnum.iflag v (Cut.bytes "pink")) ∧
    (enumVar colorEnum 1 false).nofree = false ∧
    (put_enum (enumVar colorEnum 1 false) (PutArg.string (Cut.bytes "pink")) colorEnum).toOption
      = some { np := enumVar colorEnum 1 false, freed := false } := by
  refine ⟨by decide, rfl, ?_⟩
  rfl

/-- C14, amended: for every string `s` that matches no value of the descriptor, `put_enum`
ends with the fatal invalid-value error when the variable carries `NV_NOFREE`; when it
does not, `put_enum` returns, reports no error and leaves the variable as it was. -/
theorem put_enum_invalid_value (ep : Enum) (np : Namval_t) (s : List Nat)
    (hno : ∀ v ∈ ep.values, ¬ Matches ep.iflag v s) :
    (np.nofree = true →
      put_enum np (PutArg.string s) ep = Except.error EnumError.invalidValue) ∧
    (np.nofree = false →
      put_enum np (PutArg.string s) ep = Except.ok { np := np, freed := false }) := by
  rw [put_enum_nomatch np ep s hno]
  constructor
  · intro h; rw [if_pos h]
  · intro h; rw [if_neg (by simp [h])]

/-- Witness of C14, amended: writing `pink` to a variable of `Color=(red green blue)`
that carries `NV_NOFREE`. -/
theorem put_enum_invalid_value_witness :
    (∀ v ∈ colorEnum.values, ¬ Matches colorEnum.iflag v (Cut.bytes "pink")) ∧
    put_enum (enumVar colorEnum 1 true) (PutArg.string (Cut.bytes "pink")) colorEnum
      = Except.error EnumError.invalidValue :=
  ⟨by decide,
    (put_enum_invalid_value colorEnum (enumVar colorEnum 1 true) (Cut.bytes "pink")
      (by decide)).1 rfl⟩

/-- C15, amended: for every descriptor and every child name: when `j` is the index of the
first value `v` that matches the name, `create_enum` returns a synthetic variable whose
name is `v` and whose value is `j` modulo 65536, which is `j` itself when the descriptor
has at most 65536 values; and, for every descriptor, it ends with the
invalid-enum-constant error if and only if no value matches. -/
theorem create_enum_constant (ep : Enum) (np : Namval_t) (name : List Nat) :
    (∀ j v, FirstMatch ep.iflag ep.values name j → ep.values[j]? = some v →
      ∃ c, create_enum np name ep = Except.ok c ∧ c.nvname = v ∧ c.nvalue = j % 65536 ∧
        (ep.values.length ≤ 65536 → c.nvalue = j)) ∧
    (create_enum np name ep = Except.error EnumError.invalidConstant ↔
      ∀ v ∈ ep.values, ¬ Matches ep.iflag v name) := by
  constructor
  · intro j v hj hv
    have hs := scanValues_first ep.iflag name ep.values j 0 hj
    simp only [Nat.zero_add] at hs
    have hjl : j < ep.values.length := getElem?_lt _ _ _ hv
    refine ⟨_, by simp only [create_enum, hs]; rfl, ?_, rfl, ?_⟩
    · simp [List.getD_eq_getElem?_getD, hv]
    · intro hlen
      exact Nat.mod_eq_of_lt (by omega)
  · rw [← scanValues_none_iff ep.iflag name ep.values 0]
    unfold create_enum
    cases scanValues ep.iflag name ep.values 0 <;> simp

/-- Witness of C15, amended: the children `blue` and `pink` of a variable of
`Color=(red green blue)`. -/
theorem create_enum_constant_witness :
    colorEnum.values.length ≤ 65536 ∧
    create_enum (enumVar colorEnum 0 false) (Cut.bytes "blue") colorEnum
      = Except.ok { nvname := Cut.bytes "blue", nvalue := 2, nvenv := Cut.bytes "c", last := 4 } ∧
    (create_enum (enumVar colorEnum 0 false) (Cut.bytes "pink") colorEnum
        = Except.error EnumError.invalidConstant ↔
      ∀ v ∈ colorEnum.values, ¬ Matches colorEnum.iflag v (Cut.bytes "pink")) :=
  ⟨by decide, by decide,
    (create_enum_constant colorEnum (enumVar colorEnum 0 false) (Cut.bytes "pink")).2⟩

/-- C16, as stated, fails: an integer write of 7 to a variable of
`Color=(red green blue)` whose slot is 0 leaves the slot 7, which is neither unset nor
less than 3. -/
theorem put_enum_integer_out_of_range :
    SlotInv (enumVar colorEnum 0 false) colorEnum ∧
    (put_enum (enumVar colorEnum 0 false) (PutArg.number 7) colorEnum).toOption
      = some { np := enumVar colorEnum 7 false, freed := false } ∧
    ¬ SlotInv (enumVar colorEnum 7 false) colorEnum := by
  refine ⟨by decide, rfl, by decide⟩

theorem decimal_take (m : Nat) (h : m < 65536) : (decimal m).take 5 = decimal m := by
  apply List.take_of_length_le
  unfold decimal
  rw [List.length_map]
  exact Nat.toDigitsCore_length 10 (by decide) (m + 1) m 5 (by omega) (by decide)

/-- C16, amended: starting from a variable that is unset or whose stored ordinal is less
than the number of values, after a string write or an unset through `put_enum` the
variable is again unset or its stored ordinal is less than the number of values; an
integer write stores the written number as 16 bits, whether or not it is less than the
number of values, and `get_enum` then returns the value declared at that index when the
stored number is less than the number of values, and the stored number in decimal when
it is not. -/
theorem put_enum_slot_invariant (ep : Enum) (np : Namval_t) (hinv : SlotInv np ep) :
    (∀ s r, put_enum np (PutArg.string s) ep = Except.ok r → SlotInv r.np ep) ∧
    (∀ b r, put_enum np (PutArg.null b) ep = Except.ok r → r.np.notset = true) ∧
    (∀ n r, put_enum np (PutArg.number n) ep = Except.ok r →
      r.np.notset = false ∧ r.np.nvalue = (n % 65536).toNat ∧
      get_enum r.np ep =
        if (n % 65536).toNat < ep.values.length then ep.values.getD (n % 65536).toNat []
        else decimal (n % 65536).toNat) := by
  refine ⟨?_, ?_, ?_⟩
  · intro s r hput
    simp only [put_enum] at hput
    cases hs : scanValues ep.iflag s ep.values 0 with
    | none =>
      rw [hs] at hput
      simp only at hput
      by_cases hn : np.nofree = true
      · rw [if_pos hn] at hput
        cases hput
      · rw [if_neg hn] at hput
        injection hput with hput
        rw [← hput]
        exact hinv
    | some i =>
      rw [hs] at hput
      simp only at hput
      injection hput with hput
      rw [← hput]
      right
      have h1 := scanValues_lt ep.iflag s ep.values 0 i hs
      have h2 := slot_le i
      simp only [nv_putv]
      omega
  · intro b r hput
    cases b <;>
      (simp only [put_enum] at hput; injection hput with hput; rw [← hput]; rfl)
  · intro n r hput
    simp only [put_enum] at hput
    injection hput with hput
    rw [← hput]
    refine ⟨rfl, rfl, ?_⟩
    have hlt : (n % 65536).toNat < 65536 := by omega
    simp only [get_enum, nv_getn, nv_putv, Bool.false_eq_true, if_false,
      decimal_take _ hlt]

/-- Witness of C16, amended: writing `blue`, and writing the integers 1 and 7, to a
variable of `Color=(red green blue)` whose slot is 0. -/
theorem put_enum_slot_invariant_witness :
    SlotInv (enumVar colorEnum 0 false) colorEnum ∧
    put_enum (enumVar colorEnum 0 false) (PutArg.string (Cut.bytes "blue")) colorEnum
      = Except.ok { np := enumVar colorEnum 2 false, freed := false } ∧
    SlotInv (enumVar colorEnum 2 false) colorEnum ∧
    get_enum (enumVar colorEnum 1 false) colorEnum = Cut.bytes "green" ∧
    get_enum (enumVar colorEnum 7 false) colorEnum = Cut.bytes "7" :=
  ⟨by decide, rfl,
    (put_enum_slot_invariant colorEnum (enumVar colorEnum 0 false) (by decide)).1
      (Cut.bytes "blue") { np := enumVar colorEnum 2 false, freed := false } rfl,
    ((put_enum_slot_invariant colorEnum (enumVar colorEnum 0 false) (by decide)).2.2 1
      { np := enumVar colorEnum 1 false, freed := false } rfl).2.2.trans (by decide),
    ((put_enum_slot_invariant colorEnum (enumVar colorEnum 0 false) (by decide)).2.2 7
      { np := enumVar colorEnum 7 false, freed := false } rfl).2.2.trans (by decide)⟩

theorem outenumLoop_single (fuel : Nat) (tp : Namval_t) (ep : Enum) (iop : List Nat)
    (hdisc : nv_hasdisc tp.nvfun = some ep) :
    outenumLoop false (fuel + 1) [tp] iop = some (iop ++ outenumText tp ep) := by
  have hne : tp.nvfun ≠ [] := by
    intro h
    rw [h] at hdisc
    cases hdisc
  simp only [outenumLoop, if_neg hne, hdisc, if_true]

theorem outenumLoop_stuck (dict : Bool) (tp : Namval_t) (rest : List Namval_t)
    (hdisc : nv_hasdisc tp.nvfun = none) :
    ∀ (fuel : Nat) (iop : List Nat), outenumLoop dict fuel (tp :: rest) iop = none := by
  intro fuel
  induction fuel with
  | zero => intro iop; rfl
  | succ fuel ih =>
    intro iop
    by_cases hnil : tp.nvfun = []
    · simp only [outenumLoop, if_pos hnil]
      exact ih iop
    · simp only [outenumLoop, if_neg hnil, hdisc]
      exact ih iop

theorem outenumLoop_stuck_later (tp : Namval_t) (rest : List Namval_t)
    (hdisc : nv_hasdisc tp.nvfun = none) :
    ∀ (fuel : Nat) (pre : List Namval_t) (iop : List Nat),
      outenumLoop true fuel (pre ++ tp :: rest) iop = none := by
  intro fuel
  induction fuel with
  | zero => intro pre iop; rfl
  | succ fuel ih =>
    intro pre iop
    cases pre with
    | nil => exact outenumLoop_stuck true tp rest hdisc (fuel + 1) iop
    | cons t pre =>
      by_cases hnil : t.nvfun = []
      · simp only [List.cons_append, outenumLoop, if_pos hnil]
        exact ih (t :: pre) iop
      · cases ht : nv_hasdisc t.nvfun with
        | none =>
          simp only [List.cons_append, outenumLoop, if_neg hnil, ht]
          exact ih (t :: pre) iop
        | some ep =>
          simp only [List.cons_append, outenumLoop, if_neg hnil, ht]
          exact ih pre _

/-- C17: for every type `tp` that carries the enum discipline with the descriptor `ep`,
`sh_outenum` called with that type returns 0 and has appended to the stream exactly
`enum `, then `-i ` when the case flag is set, then the name of the type, then `=(` and a
newline, then for each value in order a tab, the value and a newline, then `)` and a
newline. -/
theorem sh_outenum_text (fuel : Nat) (types : Option (List Namval_t)) (iop : List Nat)
    (tp : Namval_t) (ep : Enum) (hdisc : nv_hasdisc tp.nvfun = some ep) :
    sh_outenum (fuel + 1) types iop (some tp) =
      some (0, iop ++ (Cut.bytes "enum " ++ (if ep.iflag then Cut.bytes "-i " else []) ++
        cstr tp.nvname ++ [61, 40, 10] ++
        (ep.values.map (fun v => [9] ++ cstr v ++ [10])).flatten ++ [41, 10])) := by
  simp only [sh_outenum, outenumLoop_single fuel tp ep iop hdisc, Option.map_some']
  rfl

/-- Witness of C17: the type `Color=(red green blue)`. -/
theorem sh_outenum_text_witness :
    nv_hasdisc (typeNode (Cut.bytes "Color") [Namfun.enum colorEnum]).nvfun = some colorEnum ∧
    sh_outenum 1 none [] (some (typeNode (Cut.bytes "Color") [Namfun.enum colorEnum])) =
      some (0, Cut.bytes "enum Color=(\n\tred\n\tgreen\n\tblue\n)\n") :=
  ⟨rfl, (sh_outenum_text 0 none [] (typeNode (Cut.bytes "Color") [Namfun.enum colorEnum])
    colorEnum rfl).trans (by decide)⟩

theorem shifted_copy_absurd (p : List Nat) (c : Nat) (hp : p ≠ []) (hc : c ∉ p) :
    ∀ (n : Nat) (N R1 R2 : List Nat), N.length = n → p ++ N ++ R1 = N ++ c :: R2 → False := by
  intro n
  induction n using Nat.strong_induction_on with
  | _ n ih =>
    intro N R1 R2 hn h
    by_cases hlt : N.length < p.length
    · have h1 : (p ++ N ++ R1)[N.length]? = (N ++ c :: R2)[N.length]? := by rw [h]
      rw [List.append_assoc, List.getElem?_append_left hlt,
        List.getElem?_append_right (Nat.le_refl _)] at h1
      simp only [Nat.sub_self, List.getElem?_cons_zero] at h1
      exact hc (List.mem_iff_getElem?.mpr ⟨_, h1⟩)
    · have hle : p.length ≤ N.length := Nat.le_of_not_lt hlt
      have htake : p = N.take p.length := by
        have h2 := congrArg (List.take p.length) h
        rw [List.append_assoc, List.take_left, List.take_append_of_le_length hle] at h2
        exact h2
      have hN : N = p ++ N.drop p.length := by
        conv_lhs => rw [← List.take_append_drop p.length N]
        rw [← htake]
      have hpl : 0 < p.length := List.length_pos.mpr hp
      have hdl : (N.drop p.length).length < n := by
        rw [List.length_drop]
        omega
      have h3 : p ++ (p ++ N.drop p.length) ++ R1 = p ++ N.drop p.length ++ c :: R2 := by
        rw [← hN]
        exact h
      rw [List.append_assoc, List.append_assoc p (N.drop p.length) (c :: R2)] at h3
      have h4 := List.append_cancel_left h3
      exact ih _ hdl (N.drop p.length) R1 R2 rfl h4

theorem flag_shift_absurd (N R1 R2 : List Nat)
    (h : [45, 105, 32] ++ (N ++ R1) = N ++ 61 :: R2) : False :=
  shifted_copy_absurd [45, 105, 32] 61 (by decide) (by decide) N.length N R1 R2 rfl
    (by rw [List.append_assoc]; exact h)

theorem split_at_first (c : Nat) :
    ∀ (a b x y : List Nat), c ∉ a → c ∉ b → a ++ c :: x = b ++ c :: y → a = b ∧ x = y := by
  intro a
  induction a with
  | nil =>
    intro b x y _ hb h
    cases b with
    | nil =>
      simp only [List.nil_append, List.cons.injEq, true_and] at h
      exact ⟨rfl, h⟩
    | cons d b =>
      simp only [List.nil_append, List.cons_append, List.cons.injEq] at h
      exact absurd (h.1 ▸ List.mem_cons_self d b) hb
  | cons e a ih =>
    intro b x y ha hb h
    cases b with
    | nil =>
      simp only [List.nil_append, List.cons_append, List.cons.injEq] at h
      exact absurd (h.1 ▸ List.mem_cons_self e a) ha
    | cons d b =>
      simp only [List.cons_append, List.cons.injEq] at h
      have ha' : c ∉ a := fun hm => ha (List.mem_cons_of_mem _ hm)
      have hb' : c ∉ b := fun hm => hb (List.mem_cons_of_mem _ hm)
      obtain ⟨h1, h2⟩ := ih b x y ha' hb' h.2
      exact ⟨by rw [h.1, h1], h2⟩

theorem outenum_values_inj :
    ∀ (vs ws : List (List Nat)), (∀ v ∈ vs, 10 ∉ v ∧ 0 ∉ v) → (∀ v ∈ ws, 10 ∉ v ∧ 0 ∉ v) →
      vs.flatMap (fun v => 9 :: cstr v ++ [10]) = ws.flatMap (fun v => 9 :: cstr v ++ [10]) →
      vs = ws := by
  intro vs
  induction vs with
  | nil =>
    intro ws _ _ h
    cases ws with
    | nil => rfl
    | cons w ws => simp at h
  | cons v vs ih =>
    intro ws hv hw h
    cases ws with
    | nil => simp at h
    | cons w ws =>
      have hv0 := hv v (List.mem_cons_self _ _)
      have hw0 := hw w (List.mem_cons_self _ _)
      simp only [List.flatMap_cons, List.cons_append, List.cons.injEq, true_and,
        cstr_of_not_mem v hv0.2, cstr_of_not_mem w hw0.2, List.append_assoc,
        List.singleton_append] at h
      obtain ⟨h1, h2⟩ := split_at_first 10 v w _ _ hv0.1 hw0.1 h
      have h3 := ih ws (fun u hu => hv u (List.mem_cons_of_mem _ hu))
        (fun u hu => hw u (List.mem_cons_of_mem _ hu)) h2
      rw [h1, h3]

/-- C18, as stated, fails: the descriptors of two types `T`, one with the two values
`a\n\tb` and `c`, one with the three values `a`, `b` and `c`, have the same case flag and
`sh_outenum` writes the same text for both, and their value lists differ. -/
theorem sh_outenum_text_ambiguous :
    nv_hasdisc (typeNode (Cut.bytes "T") [Namfun.enum rawEnum]).nvfun = some rawEnum ∧
    nv_hasdisc (typeNode (Cut.bytes "T") [Namfun.enum abcEnum]).nvfun = some abcEnum ∧
    sh_outenum 1 none [] (some (typeNode (Cut.bytes "T") [Namfun.enum rawEnum])) =
      some (0, Cut.bytes "enum T=(\n\ta\n\tb\n\tc\n)\n") ∧
    sh_outenum 1 none [] (some (typeNode (Cut.bytes "T") [Namfun.enum abcEnum])) =
      some (0, Cut.bytes "enum T=(\n\ta\n\tb\n\tc\n)\n") ∧
    rawEnum.values ≠ abcEnum.values ∧
    rawEnum.values.length ≠ abcEnum.values.length := by
  refine ⟨rfl, rfl, by decide, by decide, by decide, by decide⟩

/-- C18, amended: for every two types with the same name that carry the enum discipline
and whose values hold no newline (and, being C strings, no NUL): if `sh_outenum` writes
the same text for both, then their case flags are equal and their value lists are
equal. -/
theorem sh_outenum_text_injective (fuel : Nat) (types1 types2 : Option (List Namval_t))
    (iop : List Nat) (tp1 tp2 : Namval_t) (ep1 ep2 : Enum)
    (h1 : nv_hasdisc tp1.nvfun = some ep1) (h2 : nv_hasdisc tp2.nvfun = some ep2)
    (hname : cstr tp1.nvname = cstr tp2.nvname)
    (hv1 : ∀ v ∈ ep1.values, 10 ∉ v ∧ 0 ∉ v) (hv2 : ∀ v ∈ ep2.values, 10 ∉ v ∧ 0 ∉ v)
    (htext : sh_outenum (fuel + 1) types1 iop (some tp1)
      = sh_outenum (fuel + 1) types2 iop (some tp2)) :
    ep1.iflag = ep2.iflag ∧ ep1.values = ep2.values := by
  simp only [sh_outenum, outenumLoop_single fuel tp1 ep1 iop h1,
    outenumLoop_single fuel tp2 ep2 iop h2, Option.map_some', Option.some.injEq,
    Prod.mk.injEq, true_and] at htext
  have ht := List.append_cancel_left htext
  simp only [outenumText, hname, List.append_assoc] at ht
  have ht1 := List.append_cancel_left ht
  have e1 : Cut.bytes "=(\n" = 61 :: [40, 10] := by decide
  have e2 : Cut.bytes "-i " = [45, 105, 32] := by decide
  have hflag : ep1.iflag = ep2.iflag := by
    cases hf1 : ep1.iflag <;> cases hf2 : ep2.iflag
    · rfl
    · exfalso
      rw [hf1, hf2, e1, e2] at ht1
      simp only [if_true, Bool.false_eq_true, if_false, List.nil_append] at ht1
      exact flag_shift_absurd _ _ _ ht1.symm
    · exfalso
      rw [hf1, hf2, e1, e2] at ht1
      simp only [if_true, Bool.false_eq_true, if_false, List.nil_append] at ht1
      exact flag_shift_absurd _ _ _ ht1
    · rfl
  refine ⟨hflag, ?_⟩
  rw [hflag] at ht1
  have ht2 := List.append_cancel_left (List.append_cancel_left (List.append_cancel_left ht1))
  have ht3 := List.append_cancel_right ht2
  exact outenum_values_inj _ _ hv1 hv2 ht3

/-- Witness of C18, amended: two types `Color=(red green blue)`, the descriptor of the
second marked `nofree`. -/
theorem sh_outenum_text_injective_witness :
    nv_hasdisc (typeNode (Cut.bytes "Color") [Namfun.enum colorEnum]).nvfun = some colorEnum ∧
    (∀ v ∈ colorEnum.values, 10 ∉ v ∧ 0 ∉ v) ∧
    colorEnum.iflag = ({ colorEnum with nofree := true } : Enum).iflag ∧
    colorEnum.values = ({ colorEnum with nofree := true } : Enum).values :=
  ⟨rfl, by decide,
    sh_outenum_text_injective 0 none none []
      (typeNode (Cut.bytes "Color") [Namfun.enum colorEnum])
      (typeNode (Cut.bytes "Color") [Namfun.other 1, Namfun.enum { colorEnum with nofree := true }])
      colorEnum { colorEnum with nofree := true } rfl rfl rfl (by decide) (by decide) rfl⟩

/-- C19 fails in the code: for every type `tp` that does not carry the enum discipline,
`sh_outenum` called with `tp` does not return, whatever the number of rounds of its loop,
and neither does `sh_outenum` iterating a type namespace that holds `tp`; through
`b_enum`, `enum -p arr` for an array `arr` that no type is named after does not return
either. -/
theorem sh_outenum_not_enum_type (tp : Namval_t) (hdisc : nv_hasdisc tp.nvfun = none) :
    (∀ fuel types iop, sh_outenum fuel types iop (some tp) = none) ∧
    (∀ fuel pre rest iop, sh_outenum fuel (some (pre ++ tp :: rest)) iop none = none) ∧
    (∀ fuel, b_enum fuel [OptCode.p] [Cut.bytes "arr"] colorShell = none) := by
  refine ⟨?_, ?_, ?_⟩
  · intro fuel types iop
    simp only [sh_outenum, outenumLoop_stuck false tp [] hdisc fuel iop, Option.map_none']
  · intro fuel pre rest iop
    simp only [sh_outenum, outenumLoop_stuck_later tp rest hdisc fuel pre iop,
      Option.map_none']
  · intro fuel
    have hs : sh_outenum fuel
        (some (openType colorShell.types (Cut.bytes "arr")).2) colorShell.out
        (some (openType colorShell.types (Cut.bytes "arr")).1) = none := by
      simp only [sh_outenum,
        outenumLoop_stuck false (openType colorShell.types (Cut.bytes "arr")).1 [] rfl fuel
          colorShell.out, Option.map_none']
    have hfind : colorShell.vars.find? (fun v => decide (v.nvname = cstr (Cut.bytes "arr")))
        = some { nvname := Cut.bytes "arr", isArray := true, hasFun := false,
                 elems := [Cut.bytes "a", Cut.bytes "b"] } := by decide
    have hopts : enumOptions [OptCode.p] false false colorShell.errors
        = Except.ok (true, false, 0) := rfl
    unfold b_enum
    rw [hopts]
    simp only [ne_eq, not_true_eq_false, List.length_singleton, or_self, if_false]
    have hsh : ({ colorShell with errors := 0 } : Shell) = colorShell := rfl
    rw [hsh]
    simp only [enumOperands, hfind]
    simp only [Bool.true_eq_false, Bool.false_eq_true, List.length_cons, List.length_nil,
      Nat.reduceAdd, Nat.lt_irrefl, or_self, if_false, if_true]
    rw [hs]

/-- Witness of C19: a type `T` of the type namespace with no discipline at all. -/
theorem sh_outenum_not_enum_type_witness :
    nv_hasdisc (typeNode (Cut.bytes "T") []).nvfun = none ∧
    sh_outenum 1000 none [] (some (typeNode (Cut.bytes "T") [])) = none ∧
    sh_outenum 1000
      (some [typeNode (Cut.bytes "Color") [Namfun.enum colorEnum], typeNode (Cut.bytes "T") []])
      [] none = none :=
  ⟨rfl, (sh_outenum_not_enum_type (typeNode (Cut.bytes "T") []) rfl).1 1000 none [],
    (sh_outenum_not_enum_type (typeNode (Cut.bytes "T") []) rfl).2.1 1000
      [typeNode (Cut.bytes "Color") [Namfun.enum colorEnum]] [] []⟩

/-- C20 fails in the code: `enum -p` with no operand, in every shell, returns 1 after the
usage error is counted, and writes nothing to standard output: the type namespace and
what standard output holds are as they were. -/
theorem b_enum_print_all (fuel : Nat) (sh : Shell) :
    b_enum fuel [OptCode.p] [] sh = some (Except.ok (1, { sh with errors := sh.errors + 1 })) ∧
    b_enum fuel [OptCode.p] [] colorShell
      = some (Except.ok (1, { colorShell with errors := 1 })) := by
  constructor
  · simp [b_enum, enumOptions]
  · simp [b_enum, enumOptions]
    rfl

theorem bigEnum_last (iflag : Bool) :
    (bigEnum iflag).values[65536]? = some (Cut.bytes "b") := by
  simp only [bigEnum]
  rw [List.getElem?_append_right (by simp)]
  simp

theorem bigEnum_before (iflag : Bool) (i : Nat) (hi : i < 65536) (u : List Nat)
    (hu : (bigEnum iflag).values[i]? = some u) : u = 97 :: decimal i := by
  simp only [bigEnum] at hu
  rw [List.getElem?_append_left (by simpa using hi)] at hu
  simp only [List.getElem?_map, List.getElem?_range hi, Option.map_some',
    Option.some.injEq] at hu
  exact hu.symm

theorem bigEnum_first (iflag : Bool) (s : List Nat) (hs : Matches iflag (Cut.bytes "b") s)
    (hns : ∀ t, ¬ Matches iflag (97 :: t) s) :
    FirstMatch iflag (bigEnum iflag).values s 65536 := by
  refine ⟨⟨_, bigEnum_last iflag, hs⟩, ?_⟩
  intro i hi u hu
  rw [bigEnum_before iflag i hi u hu]
  exact hns _

theorem not_matches_a_b (t : List Nat) : ¬ Matches false (97 :: t) (Cut.bytes "b") := by
  intro h
  simp only [Matches, Bool.false_eq_true, if_false] at h
  rw [cstr_cons_ne 97 t (by decide)] at h
  have hb : cstr (Cut.bytes "b") = [98] := by decide
  rw [hb] at h
  injection h with h1 _
  exact absurd h1 (by decide)

theorem not_matches_a_B (t : List Nat) : ¬ Matches true (97 :: t) (Cut.bytes "B") := by
  intro h
  simp only [Matches, if_true] at h
  rw [cstr_cons_ne 97 t (by decide)] at h
  have hb : (cstr (Cut.bytes "B")).map tolower = [98] := by decide
  rw [hb, List.map_cons] at h
  injection h with h1 _
  exact absurd h1 (by decide)

theorem bigEnum_first_value (iflag : Bool) :
    (bigEnum iflag).values.getD 0 [] = Cut.bytes "a0" := by
  simp only [bigEnum, List.getD_eq_getElem?_getD]
  rw [List.getElem?_append_left (by simp)]
  simp only [List.getElem?_map, List.getElem?_range (by decide : 0 < 65536), Option.map_some',
    Option.getD_some]
  decide

theorem bigEnum_length (iflag : Bool) : (bigEnum iflag).values.length = 65537 := by
  unfold bigEnum
  rw [List.length_append, List.length_map, List.length_range, List.length_singleton]

/-- C12, as stated, fails: in the case-insensitive descriptor with the 65537 values `a0`
to `a65535` and `b`, the first value that equals `B` under ASCII case folding is `b`, at
index 65536; `put_enum` stores the index in 16 bits, and `get_enum` then returns `a0`. -/
theorem put_get_enum_ignorecase_large :
    (bigEnum true).iflag = true ∧
    (bigEnum true).values[65536]? = some (Cut.bytes "b") ∧
    (cstr (Cut.bytes "b")).map tolower = (cstr (Cut.bytes "B")).map tolower ∧
    (∀ i, i < 65536 → ∀ u, (bigEnum true).values[i]? = some u →
      (cstr u).map tolower ≠ (cstr (Cut.bytes "B")).map tolower) ∧
    ∃ r, put_enum (enumVar (bigEnum true) 5 false) (PutArg.string (Cut.bytes "B"))
        (bigEnum true) = Except.ok r ∧
      get_enum r.np (bigEnum true) = Cut.bytes "a0" ∧ Cut.bytes "a0" ≠ Cut.bytes "b" := by
  have hf := bigEnum_first true (Cut.bytes "B") (by decide) not_matches_a_B
  refine ⟨rfl, bigEnum_last true, by decide, ?_, _,
    put_enum_match (enumVar (bigEnum true) 5 false) (bigEnum true) (Cut.bytes "B") 65536 hf,
    ?_, by decide⟩
  · intro i hi u hu
    have := hf.2 i hi u hu
    simpa only [Matches, if_true] using this
  · have h0 : (nv_putv (enumVar (bigEnum true) 5 false)
        (some ((65536 % 65536 : Nat) : Int))).nvalue = 0 := by
      simp [nv_putv]
    have hns : (nv_putv (enumVar (bigEnum true) 5 false)
        (some ((65536 % 65536 : Nat) : Int))).notset = false := rfl
    simp only [get_enum, nv_getn, h0, hns, bigEnum_length, bigEnum_first_value,
      Bool.false_eq_true, if_false, Nat.lt_add_one, Nat.ofNat_pos, if_true]

/-- C13, as stated, fails: in the descriptor with the 65537 values `a0` to `a65535` and
`b`, the first value that matches `b` is at index 65536; `put_enum` with `b` returns and
the slot is 0. -/
theorem put_enum_slot_large :
    FirstMatch (bigEnum false).iflag (bigEnum false).values (Cut.bytes "b") 65536 ∧
    ∃ r, put_enum (enumVar (bigEnum false) 5 false) (PutArg.string (Cut.bytes "b"))
        (bigEnum false) = Except.ok r ∧ r.np.nvalue = 0 := by
  have hf := bigEnum_first false (Cut.bytes "b") (by decide) not_matches_a_b
  refine ⟨hf, _,
    put_enum_match (enumVar (bigEnum false) 5 false) (bigEnum false) (Cut.bytes "b") 65536 hf,
    ?_⟩
  simp [nv_putv]

theorem create_enum_match (np : Namval_t) (ep : Enum) (name : List Nat) (j : Nat)
    (h : FirstMatch ep.iflag ep.values name j) :
    create_enum np name ep
      = Except.ok { nvname := ep.values.getD j [], nvalue := j % 65536, nvenv := np.nvname,
                    last := strlen name } := by
  have := scanValues_first ep.iflag name ep.values j 0 h
  simp only [Nat.zero_add] at this
  simp only [create_enum, this]

/-- C15, as stated, fails: in the descriptor with the 65537 values `a0` to `a65535` and
`b`, the first value that matches the child name `b` is at index 65536; `create_enum`
returns a synthetic variable whose name is `b` and whose integer value is 0. -/
theorem create_enum_constant_large :
    FirstMatch (bigEnum false).iflag (bigEnum false).values (Cut.bytes "b") 65536 ∧
    create_enum (enumVar (bigEnum false) 5 false) (Cut.bytes "b") (bigEnum false)
      = Except.ok { nvname := Cut.bytes "b", nvalue := 0, nvenv := Cut.bytes "c", last := 1 } := by
  have hf : FirstMatch (bigEnum false).iflag (bigEnum false).values (Cut.bytes "b") 65536 :=
    bigEnum_first false (Cut.bytes "b") (by decide) not_matches_a_b
  have hv : (bigEnum false).values.getD 65536 [] = Cut.bytes "b" := by
    simp only [List.getD_eq_getElem?_getD, bigEnum_last, Option.getD_some]
  have hl : strlen (Cut.bytes "b") = 1 := by decide
  refine ⟨hf, ?_⟩
  rw [create_enum_match _ _ _ 65536 hf, hv, hl, Nat.mod_self]
  rfl

end Ksh

/-! ## Theorems about `b_cut`, the extractors and the compiled list, continued -/

namespace Cut

/-! ### The options of `b_cut` -/

/-- Whatever their lists, `-b` together with `-c`, in either order, does not end `b_cut`
with the usage error. -/
theorem b_cut_bytes_chars_no_usage (a1 a2 : List Nat) (inputs : List Input) :
    b_cut [CutOpt.b a1, CutOpt.c a2] inputs ≠ Except.error CutExit.usage ∧
    b_cut [CutOpt.c a1, CutOpt.b a2] inputs ≠ Except.error CutExit.usage := by
  constructor
  · unfold b_cut
    simp only [cutOptions]
    have h1 : (0 : Nat) &&& C_FIELDS = 0 := by decide
    have h2 : (0 ||| C_BYTES) &&& C_FIELDS = 0 := by decide
    simp only [h1, h2, ne_eq, not_true_eq_false, if_false]
    split_ifs
    · simp
    · simp
    · cases cutinit false (0 ||| C_BYTES ||| C_CHARS) a2 _ _ 0 <;> simp
  · unfold b_cut
    simp only [cutOptions]
    have h1 : (0 : Nat) &&& C_FIELDS = 0 := by decide
    have h2 : (0 ||| C_CHARS) &&& C_FIELDS = 0 := by decide
    simp only [h1, h2, ne_eq, not_true_eq_false, if_false]
    split_ifs
    · simp
    · simp
    · cases cutinit false (0 ||| C_CHARS ||| C_BYTES) a2 _ _ 0 <;> simp

set_option maxRecDepth 100000 in
/-- C21: `-b` together with `-c`, in either order and whatever their lists, does not end
`b_cut` with the usage error; `cut -b1 -c2` and `cut -c1 -b2` cut the input `abc\n` with
the list of the later option and return 0.  With `-f` among the options (`-b1 -f2`,
`-f1 -b2`, `-f1 -c2`) `b_cut` ends with the usage error. -/
theorem b_cut_bytes_and_chars (a1 a2 : List Nat) (inputs : List Input) :
    b_cut [CutOpt.b a1, CutOpt.c a2] inputs ≠ Except.error CutExit.usage ∧
    b_cut [CutOpt.c a1, CutOpt.b a2] inputs ≠ Except.error CutExit.usage ∧
    b_cut [CutOpt.b (bytes "1"), CutOpt.c (bytes "2")] [oneInput (bytes "abc\n")]
      = Except.ok (some (0, bytes "b\n")) ∧
    b_cut [CutOpt.c (bytes "1"), CutOpt.b (bytes "2")] [oneInput (bytes "abc\n")]
      = Except.ok (some (0, bytes "b\n")) ∧
    b_cut [CutOpt.b (bytes "1"), CutOpt.f (bytes "2")] [oneInput (bytes "abc\n")]
      = Except.error CutExit.usage ∧
    b_cut [CutOpt.f (bytes "1"), CutOpt.b (bytes "2")] [oneInput (bytes "abc\n")]
      = Except.error CutExit.usage ∧
    b_cut [CutOpt.f (bytes "1"), CutOpt.c (bytes "2")] [oneInput (bytes "abc\n")]
      = Except.error CutExit.usage := by
  refine ⟨(b_cut_bytes_chars_no_usage a1 a2 inputs).1,
    (b_cut_bytes_chars_no_usage a1 a2 inputs).2, by decide, by decide, by decide, by decide,
    by decide⟩

set_option maxRecDepth 100000 in
/-- C23: in a UTF-8 locale `cut -c2,3-` selects the characters from the second on, as
`cut -c2-` does, yet for the record `αβγ\n` `cutcols` writes only the line delimiter: the
gap list `cutinit` returns for `2,3-` is `1, HUGE, HUGE`.  For `cut -c2-` it writes
`βγ\n`, and for `cut -c4-5` on `abcαβγ\n` it writes `αβ\n`. -/
theorem cutcols_chars_open_range_after_item :
    (cutinit true C_CHARS (bytes "2,3-") (delim1 9) (delim1 10) 0).map Cut_t.list
      = Except.ok [1, HUGE, HUGE] ∧
    cutColsUtf8 C_CHARS (bytes "2,3-") [[206, 177, 206, 178, 206, 179, 10]]
      = Except.ok (some [10]) ∧
    cutColsUtf8 C_CHARS (bytes "2-") [[206, 177, 206, 178, 206, 179, 10]]
      = Except.ok (some [206, 178, 206, 179, 10]) ∧
    cutColsUtf8 C_CHARS (bytes "4-5") [[97, 98, 99, 206, 177, 206, 178, 206, 179, 10]]
      = Except.ok (some [206, 177, 206, 178, 10]) := by
  refine ⟨by decide, by decide, by decide, by decide⟩

set_option maxRecDepth 100000 in
/-- C24: in a UTF-8 locale `cut -b1-2,5 -n` on the record `aαbc\n` (bytes `a`, `α` in two
bytes, `b`, `c`, newline) writes `ab\n`: the character `b` is byte 4, which the list does
not select, and `c`, which is byte 5, is not written. -/
theorem cutcols_nosplit_drift :
    (cutinit true (C_BYTES ||| C_NOSPLIT) (bytes "1-2,5") (delim1 9) (delim1 10) 0).map
        Cut_t.list = Except.ok [0, 2, 2, 1, HUGE] ∧
    selects [0, 2, 2, 1, HUGE] 0 3 = false ∧ selects [0, 2, 2, 1, HUGE] 0 4 = true ∧
    cutColsUtf8 (C_BYTES ||| C_NOSPLIT) (bytes "1-2,5") [[97, 206, 177, 98, 99, 10]]
      = Except.ok (some (bytes "ab\n")) := by
  refine ⟨by decide, by decide, by decide, by decide⟩

set_option maxRecDepth 100000 in
/-- C25: `cut -d: -s -f1` on the input `abc:d\n` writes `abc\n` when the input arrives in
one buffer and `c\n` when it arrives in the two buffers `ab` and `c:d\n`. -/
theorem cutfields_split_buffer :
    cutFieldsOutput (C_FIELDS ||| C_SUPRESS) (bytes "1") (delim1 58) (delim1 10)
        [bytes "abc:d\n"] = Except.ok (some (bytes "abc\n")) ∧
    cutFieldsOutput (C_FIELDS ||| C_SUPRESS) (bytes "1") (delim1 58) (delim1 10)
        [bytes "ab", bytes "c:d\n"] = Except.ok (some (bytes "c\n")) ∧
    bytes "ab" ++ bytes "c:d\n" = bytes "abc:d\n" := by
  refine ⟨by decide, by decide, by decide⟩

set_option maxRecDepth 100000 in
/-- C26: `cut -d: -D';' -f1` on the record `a:b;` writes `a` and a newline, not `a;`: the
last field is not selected and the record is closed with a literal newline.  With `-f2`,
where the last field is selected, it writes `b;`. -/
theorem cutfields_newline_for_line_delimiter :
    cutFieldsOutput C_FIELDS (bytes "1") (delim1 58) (delim1 59) [bytes "a:b;"]
      = Except.ok (some (bytes "a\n")) ∧
    cutFieldsOutput C_FIELDS (bytes "2") (delim1 58) (delim1 59) [bytes "a:b;"]
      = Except.ok (some (bytes "b;")) := by
  refine ⟨by decide, by decide⟩

/-- C27, as stated, fails: `cutinit` succeeds on the list `0` and the first skip entry of
the compiled gap list is -1. -/
theorem cutinit_zero_item :
    (cutinit false C_FIELDS (bytes "0") (delim1 9) (delim1 10) 0).map Cut_t.list
      = Except.ok [-1, 1, HUGE] := by
  decide

/-! ### `cutcols` in byte mode on a canonical gap list -/

theorem takeRuns_nil_aux (g : List Int) :
    takeRuns g [] = [] ∧ ∀ x, takeRuns (x :: g) [] = [] := by
  induction g with
  | nil => exact ⟨rfl, fun _ => rfl⟩
  | cons y g ih =>
    refine ⟨ih.2 y, fun x => ?_⟩
    simp only [takeRuns, List.drop_nil, List.take_nil, List.nil_append, ih.1, ite_self]

theorem takeRuns_nil (g : List Int) : takeRuns g [] = [] := (takeRuns_nil_aux g).1

theorem takeRuns_sentinel (rec : List Nat) : takeRuns [HUGE] rec = [] := rfl

theorem slice_eq (rec : List Nat) (b : Nat) (c : Int) (hc : 0 ≤ c)
    (h : (b : Int) + c ≤ rec.length) :
    slice rec b c = some ((rec.drop b).take c.toNat) := by
  unfold slice
  rw [if_pos ⟨Int.natCast_nonneg b, hc, h⟩]
  simp

/-- One round of the loop in byte mode when the run does not reach the end of the
record, or is a skip that ends exactly there. -/
theorem colStep_inside (cut : Cut_t) (mblen : List Nat → Int → Int) (rec : List Nat)
    (hns : cut.nosplit = false) (hcf : cut.cflag = false)
    (b : Nat) (len k : Int) (skip must : Bool) (xx : Option Int) (out : List Nat)
    (hk : 0 ≤ k) (hfit : (b : Int) + k ≤ rec.length)
    (hin : k < len ∨ (k = len ∧ skip = true)) :
    colStep cut mblen rec
        { bp := b, len := len, ncol := k, skip := skip, must := must, xx := xx, out := out }
      = some (k,
          { bp := (b : Int) + k, len := len, ncol := 0, skip := skip,
            must := if skip = false ∧ k ≠ 0 then false else must, xx := xx,
            out := if skip = false ∧ k ≠ 0 then out ++ (rec.drop b).take k.toNat else out }) := by
  have h1 : ¬ k > len := by rcases hin with h | h <;> omega
  have h2 : ¬ (k = len ∧ skip = false) := by
    rcases hin with h | h
    · intro h'; omega
    · intro h'; rw [h.2] at h'; exact absurd h'.2 (by decide)
  have hw : wrap32 (k - k) = 0 := by simp [wrap32]
  simp only [colStep, hns, hcf, Bool.false_eq_true, if_false, gt_iff_lt]
  rw [if_neg (by simpa using h1), if_neg h2, hw]
  by_cases hc : skip = false ∧ k ≠ 0
  · simp only [if_pos hc, slice_eq rec b k hk hfit, Option.map_some']
  · simp only [if_neg hc]

/-- One round of the loop in byte mode when the run reaches the end of the record: the
loop ends with it. -/
theorem colStep_last (cut : Cut_t) (mblen : List Nat → Int → Int) (rec : List Nat)
    (hns : cut.nosplit = false) (hcf : cut.cflag = false)
    (b : Nat) (k : Int) (skip must : Bool) (xx : Option Int) (out : List Nat)
    (hb : b ≤ rec.length) (hlen : (rec.length : Int) < HUGE) (hkH : k ≤ HUGE)
    (hout : k > (rec.length : Int) - b ∨ (k = (rec.length : Int) - b ∧ skip = false)) :
    ∃ c st1, colStep cut mblen rec
        { bp := b, len := (rec.length : Int) - b, ncol := k, skip := skip, must := must,
          xx := xx, out := out } = some (c, st1) ∧ st1.ncol ≠ 0 ∧
      st1.out = if skip = false then out ++ rec.drop b else out := by
  have hbi : (b : Int) ≤ rec.length := by exact_mod_cast hb
  rw [HUGE_eq] at hlen hkH
  have hsl : slice rec b ((rec.length : Int) - b) = some (rec.drop b) := by
    rw [slice_eq rec b _ (by omega) (by omega)]
    congr 1
    apply List.take_of_length_le
    rw [List.length_drop]
    omega
  rcases hout with h | ⟨h, hs⟩
  · have hw : wrap32 (k - ((rec.length : Int) - b)) = k - ((rec.length : Int) - b) :=
      wrap32_id _ (by omega) (by omega)
    simp only [colStep, hns, hcf, Bool.false_eq_true, if_false, gt_iff_lt]
    rw [if_pos h, hw]
    by_cases hc : skip = false ∧ (rec.length : Int) - b ≠ 0
    · simp only [if_pos hc, hsl, Option.map_some']
      exact ⟨_, _, rfl, by simp only [ne_eq]; omega, by simp [hc.1]⟩
    · simp only [if_neg hc]
      refine ⟨_, _, rfl, by simp only [ne_eq]; omega, ?_⟩
      by_cases hs : skip = false
      · have h0 : (rec.length : Int) - b = 0 := by
          by_contra hne; exact hc ⟨hs, hne⟩
        have : rec.drop b = [] := by
          apply List.drop_eq_nil_of_le
          omega
        simp [hs, this]
      · simp [hs]
  · subst h
    subst hs
    have hw : wrap32 (wrap32 ((rec.length : Int) - b + 1) - ((rec.length : Int) - b)) = 1 := by
      rw [wrap32_id ((rec.length : Int) - b + 1) (by omega) (by omega)]
      simp [wrap32]
    by_cases h0 : (rec.length : Int) - b = 0
    · have hd : rec.drop b = [] := by
        apply List.drop_eq_nil_of_le
        omega
      simp only [colStep, hns, hcf, Bool.false_eq_true, if_false, gt_iff_lt, lt_self_iff_false,
        and_self, if_true, hw, h0, ne_eq, not_true_eq_false, and_false]
      exact ⟨_, _, rfl, by simp [wrap32], by simp [hd]⟩
    · simp only [colStep, hns, hcf, Bool.false_eq_true, if_false, gt_iff_lt, lt_self_iff_false,
        and_self, if_true, hw, ne_eq, h0, not_false_eq_true, hsl, Option.map_some']
      exact ⟨_, _, rfl, by simp, by simp⟩

theorem colLoop_of_last (cut : Cut_t) (mblen : List Nat → Int → Int) (rec : List Nat)
    (st st1 : ColState) (c : Int) (h : colStep cut mblen rec st = some (c, st1))
    (hn : st1.ncol ≠ 0) (L : List Int) : colLoop cut mblen rec L st = some st1 := by
  cases L <;> simp [colLoop, h, hn]

theorem colLoop_of_inside (cut : Cut_t) (mblen : List Nat → Int → Int) (rec : List Nat)
    (st st1 : ColState) (c : Int) (h : colStep cut mblen rec st = some (c, st1))
    (hn : st1.ncol = 0) (next : Int) (lp : List Int) :
    colLoop cut mblen rec (next :: lp) st =
      if next = HUGE then
        some { bp := st1.bp, len := wrap32 (st1.len - c), ncol := next, skip := !st1.skip,
               must := st1.must, xx := st1.xx, out := st1.out }
      else colLoop cut mblen rec lp
        { bp := st1.bp, len := wrap32 (st1.len - c), ncol := next, skip := !st1.skip,
          must := st1.must, xx := st1.xx, out := st1.out } := by
  simp [colLoop, h, hn]

/-- A run that reaches the end of the record ends the loop; the rest of the record is
written when the run is a take. -/
theorem colLoop_reach_end (cut : Cut_t) (mblen : List Nat → Int → Int) (rec : List Nat)
    (hns : cut.nosplit = false) (hcf : cut.cflag = false) (hlen : (rec.length : Int) < HUGE)
    (L : List Int) (b : Nat) (k : Int) (skip must : Bool) (xx : Option Int) (out : List Nat)
    (hb : b ≤ rec.length) (hkH : k ≤ HUGE)
    (hout : k > (rec.length : Int) - b ∨ (k = (rec.length : Int) - b ∧ skip = false)) :
    ∃ st', colLoop cut mblen rec L
        { bp := b, len := (rec.length : Int) - b, ncol := k, skip := skip, must := must,
          xx := xx, out := out } = some st' ∧
      st'.out = if skip = false then out ++ rec.drop b else out := by
  obtain ⟨c, st1, h1, h2, h3⟩ :=
    colStep_last cut mblen rec hns hcf b k skip must xx out hb hlen hkH hout
  exact ⟨st1, colLoop_of_last cut mblen rec _ st1 c h1 h2 L, h3⟩

theorem colLoop_take_inside (cut : Cut_t) (mblen : List Nat → Int → Int) (rec : List Nat)
    (hns : cut.nosplit = false) (hcf : cut.cflag = false) (hlen : (rec.length : Int) < HUGE)
    (b : Nat) (t : Int) (must : Bool) (xx : Option Int) (out : List Nat) (next : Int)
    (lp : List Int) (ht : 1 ≤ t) (h : t < (rec.length : Int) - b) :
    colLoop cut mblen rec (next :: lp)
        { bp := b, len := (rec.length : Int) - b, ncol := t, skip := false, must := must,
          xx := xx, out := out } =
      if next = HUGE then
        some { bp := ((b + t.toNat : Nat) : Int),
               len := (rec.length : Int) - ((b + t.toNat : Nat) : Int), ncol := next,
               skip := true, must := false, xx := xx,
               out := out ++ (rec.drop b).take t.toNat }
      else colLoop cut mblen rec lp
        { bp := ((b + t.toNat : Nat) : Int),
          len := (rec.length : Int) - ((b + t.toNat : Nat) : Int), ncol := next,
          skip := true, must := false, xx := xx, out := out ++ (rec.drop b).take t.toNat } := by
  rw [HUGE_eq] at hlen
  have hstep := colStep_inside cut mblen rec hns hcf b ((rec.length : Int) - b) t false
    must xx out (by omega) (by omega) (Or.inl h)
  have htne : t ≠ 0 := by omega
  have hb2 : ((b + t.toNat : Nat) : Int) = (b : Int) + t := by
    rw [Nat.cast_add, Int.toNat_of_nonneg (by omega)]
  have hl2 : wrap32 ((rec.length : Int) - b - t) = (rec.length : Int) - ((b + t.toNat : Nat) : Int) := by
    rw [wrap32_id _ (by omega) (by omega), hb2]
    ring
  rw [colLoop_of_inside cut mblen rec _ _ t hstep rfl next lp]
  simp only [htne, ne_eq, not_false_eq_true, and_self, if_true, Bool.not_false, hl2, hb2]

theorem colLoop_skip_inside (cut : Cut_t) (mblen : List Nat → Int → Int) (rec : List Nat)
    (hns : cut.nosplit = false) (hcf : cut.cflag = false) (hlen : (rec.length : Int) < HUGE)
    (b : Nat) (k : Int) (must : Bool) (xx : Option Int) (out : List Nat) (next : Int)
    (lp : List Int) (hk : 0 ≤ k) (h : k ≤ (rec.length : Int) - b) :
    colLoop cut mblen rec (next :: lp)
        { bp := b, len := (rec.length : Int) - b, ncol := k, skip := true, must := must,
          xx := xx, out := out } =
      if next = HUGE then
        some { bp := ((b + k.toNat : Nat) : Int),
               len := (rec.length : Int) - ((b + k.toNat : Nat) : Int), ncol := next,
               skip := false, must := must, xx := xx, out := out }
      else colLoop cut mblen rec lp
        { bp := ((b + k.toNat : Nat) : Int),
          len := (rec.length : Int) - ((b + k.toNat : Nat) : Int), ncol := next,
          skip := false, must := must, xx := xx, out := out } := by
  rw [HUGE_eq] at hlen
  have hstep := colStep_inside cut mblen rec hns hcf b ((rec.length : Int) - b) k true
    must xx out hk (by omega)
    (by
      rcases lt_or_eq_of_le h with h3 | h3
      · exact Or.inl h3
      · exact Or.inr ⟨h3, rfl⟩)
  have hb2 : ((b + k.toNat : Nat) : Int) = (b : Int) + k := by
    rw [Nat.cast_add, Int.toNat_of_nonneg hk]
  have hl2 : wrap32 ((rec.length : Int) - b - k) = (rec.length : Int) - ((b + k.toNat : Nat) : Int) := by
    rw [wrap32_id _ (by omega) (by omega), hb2]
    ring
  rw [colLoop_of_inside cut mblen rec _ _ k hstep rfl next lp]
  simp only [Bool.true_eq_false, false_and, if_false, Bool.not_true, hl2, hb2]

/-- The loop of `cutcols` in byte mode from a take run on, over the gaps of runs in
canonical form: it ends, and it has written the bytes of the take runs. -/
theorem colLoop_take (cut : Cut_t) (mblen : List Nat → Int → Int) (rec : List Nat)
    (hns : cut.nosplit = false) (hcf : cut.cflag = false) (hlen : (rec.length : Int) < HUGE) :
    ∀ (rs : List (Int × Int)) (n t : Int) (b : Nat) (must : Bool) (xx : Option Int)
      (out : List Nat), 0 ≤ n → 1 ≤ t → t ≤ HUGE → Runs (n + 1) rs → b ≤ rec.length →
      ∃ st', colLoop cut mblen rec (flatten (gaps n rs) ++ [HUGE])
          { bp := b, len := (rec.length : Int) - b, ncol := t, skip := false, must := must,
            xx := xx, out := out } = some st' ∧
        st'.out = out ++ (rec.drop b).take t.toNat ++
          takeRuns (flatten (gaps n rs) ++ [HUGE]) (rec.drop (b + t.toNat)) := by
  have hlen' := hlen
  rw [HUGE_eq] at hlen'
  have hend : ∀ (L : List Int) (t : Int) (b : Nat) (must : Bool) (xx : Option Int)
      (out : List Nat), 1 ≤ t → t ≤ HUGE → b ≤ rec.length → ¬ t < (rec.length : Int) - b →
      ∃ st', colLoop cut mblen rec L
          { bp := b, len := (rec.length : Int) - b, ncol := t, skip := false, must := must,
            xx := xx, out := out } = some st' ∧
        st'.out = out ++ (rec.drop b).take t.toNat ++ takeRuns L (rec.drop (b + t.toNat)) := by
    intro L t b must xx out ht htH hb h
    obtain ⟨st', h1, h2⟩ := colLoop_reach_end cut mblen rec hns hcf hlen L b t false
      must xx out hb htH
      (by
        rcases lt_or_eq_of_le (not_lt.mp h) with h3 | h3
        · exact Or.inl h3
        · exact Or.inr ⟨h3.symm, rfl⟩)
    refine ⟨st', h1, ?_⟩
    rw [h2, if_pos rfl]
    have hd : rec.drop (b + t.toNat) = [] := by
      apply List.drop_eq_nil_of_le
      omega
    rw [hd, takeRuns_nil, List.append_nil]
    congr 1
    symm
    apply List.take_of_length_le
    rw [List.length_drop]
    omega
  intro rs
  induction rs with
  | nil =>
    intro n t b must xx out hn ht htH _ hb
    by_cases h : t < (rec.length : Int) - b
    · simp only [gaps, flatten, List.nil_append, takeRuns_sentinel, List.append_nil]
      rw [colLoop_take_inside cut mblen rec hns hcf hlen b t must xx out HUGE [] ht h,
        if_pos rfl]
      exact ⟨_, rfl, rfl⟩
    · exact hend _ t b must xx out ht htH hb h
  | cons q rest ih =>
    intro n t b must xx out hn ht htH hruns hb
    by_cases h : t < (rec.length : Int) - b
    · obtain ⟨s, t'⟩ := q
      obtain ⟨hr1, hr2, hr3, hr4⟩ := hruns
      rw [HUGE_eq] at hr3 htH
      have hk : wrap32 (s - n) = s - n := wrap32_id _ (by omega) (by omega)
      have hst : wrap32 (s + t') = s + t' := wrap32_id _ (by omega) (by omega)
      simp only [gaps, flatten, List.cons_append, hk, hst]
      have hkne : s - n ≠ HUGE := by rw [HUGE_eq]; omega
      have ht'ne : t' ≠ HUGE := by rw [HUGE_eq]; omega
      rw [colLoop_take_inside cut mblen rec hns hcf hlen b t must xx out (s - n) _ ht h,
        if_neg hkne]
      have htk : takeRuns ((s - n) :: t' :: (flatten (gaps (s + t') rest) ++ [HUGE]))
          (rec.drop (b + t.toNat)) =
          (rec.drop (b + t.toNat + (s - n).toNat)).take t'.toNat ++
            takeRuns (flatten (gaps (s + t') rest) ++ [HUGE])
              (rec.drop (b + t.toNat + (s - n).toNat + t'.toNat)) := by
        simp only [takeRuns, if_neg hkne, List.drop_drop]
        congr 3
        omega
      by_cases h2 : s - n ≤ (rec.length : Int) - ((b + t.toNat : Nat) : Int)
      · rw [colLoop_skip_inside cut mblen rec hns hcf hlen (b + t.toNat) (s - n) false xx _ t' _
          (by omega) h2, if_neg ht'ne]
        obtain ⟨st', h4, h5⟩ := ih (s + t') t' (b + t.toNat + (s - n).toNat) false xx
          (out ++ (rec.drop b).take t.toNat) (by omega) hr2 (by rw [HUGE_eq]; omega) hr4
          (by omega)
        refine ⟨st', h4, ?_⟩
        rw [h5, htk]
        simp only [List.append_assoc]
      · obtain ⟨st', h4, h5⟩ := colLoop_reach_end cut mblen rec hns hcf hlen
          (t' :: (flatten (gaps (s + t') rest) ++ [HUGE])) (b + t.toNat) (s - n) true false xx
          (out ++ (rec.drop b).take t.toNat) (by omega) (by rw [HUGE_eq]; omega)
          (Or.inl (by omega))
        refine ⟨st', h4, ?_⟩
        rw [h5, htk]
        have hd1 : rec.drop (b + t.toNat + (s - n).toNat) = [] := by
          apply List.drop_eq_nil_of_le
          omega
        have hd2 : rec.drop (b + t.toNat + (s - n).toNat + t'.toNat) = [] := by
          apply List.drop_eq_nil_of_le
          omega
        simp [hd1, hd2, takeRuns_nil]
    · exact hend _ t b must xx out ht htH hb h

/-- In byte mode with `-N`, on the gaps of runs in canonical form, `cutcols` writes for a
record the bytes of its take runs and nothing else. -/
theorem cutcolsRecord_runs (cut : Cut_t) (mblen : List Nat → Int → Int) (rec : List Nat)
    (hns : cut.nosplit = false) (hcf : cut.cflag = false) (hnl : cut.nlflag = true)
    (hlen : (rec.length : Int) < HUGE) (rs : List (Int × Int)) (hruns : Runs 0 rs)
    (hlist : cut.list = flatten (gaps 0 rs) ++ [HUGE]) :
    cutcolsRecord cut mblen rec = some (takeRuns cut.list rec) := by
  have hlen' := hlen
  rw [HUGE_eq] at hlen'
  have hst0 : ∀ (k : Int) (sk : Bool),
      ({ bp := 0, len := (rec.length : Int), ncol := k, skip := sk, must := true, xx := none,
         out := [] } : ColState) =
      { bp := ((0 : Nat) : Int), len := (rec.length : Int) - ((0 : Nat) : Int), ncol := k,
        skip := sk, must := true, xx := none, out := [] } := by
    intro k sk
    simp
  have hfin : ∀ (o : Option ColState) (x : List Nat), (∃ st', o = some st' ∧ st'.out = x) →
      o.map (fun st => st.out ++
        (if cut.nlflag = false ∧ (st.skip = true ∨ st.must = true ∨ cut.reclen ≠ 0) then
          (if cut.ldelim.len > 1 then cut.ldelim.str.take cut.ldelim.len.toNat
           else [(cut.ldelim.chr % 256).toNat])
        else [])) = some x := by
    rintro o x ⟨st', h1, h2⟩
    rw [h1]
    simp [hnl, h2]
  unfold cutcolsRecord
  rw [hlist]
  cases rs with
  | nil =>
    simp only [gaps, flatten, List.nil_append]
    have hH : HUGE ≠ 0 := by decide
    simp only [hH, ne_eq, not_false_eq_true, if_true, decide_True]
    rw [hst0]
    apply hfin
    obtain ⟨st', h1, h2⟩ := colLoop_reach_end cut mblen rec hns hcf hlen [] 0 HUGE true true
      none [] (Nat.zero_le _) (le_refl _) (Or.inl (by rw [HUGE_eq]; simp; omega))
    exact ⟨st', h1, by rw [h2]; rfl⟩
  | cons q rest =>
    obtain ⟨s, t⟩ := q
    obtain ⟨hr1, hr2, hr3, hr4⟩ := hruns
    rw [HUGE_eq] at hr3
    have hk : wrap32 (s - 0) = s := by rw [sub_zero]; exact wrap32_id _ (by omega) (by omega)
    have hst : wrap32 (s + t) = s + t := wrap32_id _ (by omega) (by omega)
    simp only [gaps, flatten, List.cons_append, hk, hst]
    by_cases hs : s = 0
    · subst hs
      simp only [ne_eq, not_true_eq_false, if_false, decide_False]
      rw [hst0]
      apply hfin
      obtain ⟨st', h1, h2⟩ := colLoop_take cut mblen rec hns hcf hlen rest (0 + t) t 0 true
        none [] (by omega) hr2 (by rw [HUGE_eq]; omega) hr4 (Nat.zero_le _)
      refine ⟨st', h1, ?_⟩
      rw [h2]
      simp [takeRuns, HUGE_eq]
    · simp only [ne_eq, hs, not_false_eq_true, if_true, decide_True]
      rw [hst0]
      apply hfin
      have hsne : s ≠ HUGE := by rw [HUGE_eq]; omega
      have htne : t ≠ HUGE := by rw [HUGE_eq]; omega
      have htk : takeRuns (s :: t :: (flatten (gaps (s + t) rest) ++ [HUGE])) rec =
          (rec.drop (0 + s.toNat)).take t.toNat ++
            takeRuns (flatten (gaps (s + t) rest) ++ [HUGE])
              (rec.drop (0 + s.toNat + t.toNat)) := by
        simp only [takeRuns, if_neg hsne, Nat.zero_add]
      by_cases h2 : s ≤ (rec.length : Int) - ((0 : Nat) : Int)
      · rw [colLoop_skip_inside cut mblen rec hns hcf hlen 0 s true none [] t _ hr1 h2,
          if_neg htne]
        obtain ⟨st', h4, h5⟩ := colLoop_take cut mblen rec hns hcf hlen rest (s + t) t
          (0 + s.toNat) true none [] (by omega) hr2 (by rw [HUGE_eq]; omega) hr4
          (by simp at h2; omega)
        refine ⟨st', h4, ?_⟩
        rw [h5, htk]
        simp
      · obtain ⟨st', h4, h5⟩ := colLoop_reach_end cut mblen rec hns hcf hlen
          (t :: (flatten (gaps (s + t) rest) ++ [HUGE])) 0 s true true none []
          (Nat.zero_le _) (by rw [HUGE_eq]; omega) (Or.inl (by omega))
        refine ⟨st', h4, ?_⟩
        have hd1 : rec.drop (0 + s.toNat) = [] := by
          apply List.drop_eq_nil_of_le
          simp at h2
          omega
        have hd2 : rec.drop (0 + s.toNat + t.toNat) = [] := by
          apply List.drop_eq_nil_of_le
          simp at h2
          omega
        rw [h5, htk, hd1, hd2, takeRuns_nil]
        simp


set_option maxRecDepth 100000 in
/-- C22, as stated, fails: `cut -b1-3 -N` on the record `ab\n` writes `ab\n`: the take run
reaches the newline of the record, which is written as its third byte, so the output
holds a line delimiter although `-N` is set. -/
theorem cutcols_newline_despite_N :
    cutColsOutput (C_BYTES ||| C_NONEWLINE) (bytes "1-3") (delim1 9) (delim1 10) 0
      [bytes "ab\n"] = Except.ok (some (bytes "ab\n")) ∧
    cutColsOutput (C_BYTES ||| C_NONEWLINE) (bytes "1-2") (delim1 9) (delim1 10) 0
      [bytes "ab\n"] = Except.ok (some (bytes "ab")) := by
  refine ⟨by decide, by decide⟩

/-- C22, amended: with `-N`, in byte mode or in character mode in a single-byte locale,
for every list made of items `N`, `-N` and `N-M` with `1 ≤ N ≤ M ≤ INT_MAX` and every
record (its newline, when it has one, counting as its last byte), `cutcols` writes
exactly the bytes of the record that lie in the take runs of the compiled gap list and
appends no record terminator. -/
theorem cutcols_nonewline (first : Item) (rest : List (Sep × Item))
    (hi : ∀ i ∈ listItems first rest, i.wf) (hs : ∀ s ∈ rest.map Prod.fst, s.wf)
    (mode : Nat) (hN : mode &&& C_NONEWLINE ≠ 0) (wdelim ldelim : Delim_t) (reclen : Int)
    (mblen : List Nat → Int → Int) (rec : List Nat) (hlen : (rec.length : Int) < HUGE) :
    ∃ cut, cutinit false mode (listText first rest) wdelim ldelim reclen = Except.ok cut ∧
      cutcolsRecord cut mblen rec = some (takeRuns cut.list rec) := by
  obtain ⟨rs, h1, h2, _⟩ := cutinitList_runs first rest hi hs
  unfold cutinit
  rw [h1]
  refine ⟨_, rfl, ?_⟩
  apply cutcolsRecord_runs _ mblen rec _ _ _ hlen rs h2 rfl
  · simp
  · simp
  · simp [hN]

set_option maxRecDepth 100000 in
/-- Witness of C22, amended: `cut -b1-3 -N` on the record `ab\n`. -/
theorem cutcols_nonewline_witness :
    (∀ i ∈ listItems (Item.range (bytes "1") (bytes "3")) [], i.wf) ∧
    listText (Item.range (bytes "1") (bytes "3")) [] = bytes "1-3" ∧
    (C_BYTES ||| C_NONEWLINE) &&& C_NONEWLINE ≠ 0 ∧
    ∃ cut, cutinit false (C_BYTES ||| C_NONEWLINE) (bytes "1-3") (delim1 9) (delim1 10) 0
        = Except.ok cut ∧
      cutcolsRecord cut (fun _ _ => 1) (bytes "ab\n") = some (takeRuns cut.list (bytes "ab\n")) :=
  ⟨by decide, by decide, by decide,
    cutcols_nonewline (Item.range (bytes "1") (bytes "3")) [] (by decide) (by decide)
      (C_BYTES ||| C_NONEWLINE) (by decide) (delim1 9) (delim1 10) 0 (fun _ _ => 1)
      (bytes "ab\n") (by decide)⟩

/-! ### The canonical form of the compiled gap list -/

theorem gaps_canonTail (rs : List (Int × Int)) :
    ∀ n : Int, 0 ≤ n → Runs (n + 1) rs → CanonTail (flatten (gaps n rs) ++ [HUGE]) := by
  induction rs with
  | nil => intro n _ _; simp [gaps, flatten, CanonTail]
  | cons q rest ih =>
    intro n hn hr
    obtain ⟨s, t⟩ := q
    obtain ⟨h1, h2, h3, h4⟩ := hr
    rw [HUGE_eq] at h3
    have hk : wrap32 (s - n) = s - n := wrap32_id _ (by omega) (by omega)
    have hst : wrap32 (s + t) = s + t := wrap32_id _ (by omega) (by omega)
    simp only [gaps, flatten, List.cons_append, hk, hst, CanonTail]
    refine ⟨by omega, by rw [HUGE_eq]; omega, h2, ih (s + t) (by omega) h4⟩

theorem gaps_canonical (rs : List (Int × Int)) (hr : Runs 0 rs) :
    Canonical (flatten (gaps 0 rs) ++ [HUGE]) := by
  cases rs with
  | nil => simp [gaps, flatten, Canonical]
  | cons q rest =>
    obtain ⟨s, t⟩ := q
    obtain ⟨h1, h2, h3, h4⟩ := hr
    rw [HUGE_eq] at h3
    have hk : wrap32 (s - 0) = s - 0 := wrap32_id _ (by omega) (by omega)
    have hst : wrap32 (s + t) = s + t := wrap32_id _ (by omega) (by omega)
    simp only [gaps, flatten, List.cons_append, hk, hst, Canonical]
    refine ⟨by omega, by rw [HUGE_eq]; omega, h2, gaps_canonTail rest (s + t) (by omega) h4⟩

theorem gaps_nonneg (rs : List (Int × Int)) :
    ∀ n : Int, 0 ≤ n → Runs n rs → ∀ x ∈ flatten (gaps n rs) ++ [HUGE], 0 ≤ x := by
  induction rs with
  | nil =>
    intro n _ _ x hx
    simp only [gaps, flatten, List.nil_append, List.mem_singleton] at hx
    rw [hx, HUGE_eq]; omega
  | cons q rest ih =>
    intro n hn hr x hx
    obtain ⟨s, t⟩ := q
    obtain ⟨h1, h2, h3, h4⟩ := hr
    rw [HUGE_eq] at h3
    have hk : wrap32 (s - n) = s - n := wrap32_id _ (by omega) (by omega)
    have hst : wrap32 (s + t) = s + t := wrap32_id _ (by omega) (by omega)
    simp only [gaps, flatten, List.cons_append, hk, hst, List.mem_cons] at hx
    rcases hx with hx | hx | hx
    · omega
    · omega
    · exact ih (s + t) (by omega) (Runs_mono rest _ _ (by omega) h4) x hx

/-- The gap list compiled from pairs that are valid is in canonical form and holds no
negative entry. -/
theorem compile_canonical (ps : List (Int × Int)) (hv : ∀ q ∈ ps, ValidPair q) :
    ∃ l, compile ps = Except.ok l ∧ Canonical l ∧ ∀ x ∈ l, 0 ≤ x := by
  obtain ⟨rs, h1, h2, _⟩ := merge_qsort ps hv
  refine ⟨flatten (gaps 0 rs) ++ [HUGE], ?_, gaps_canonical rs h2,
    gaps_nonneg rs 0 (le_refl _) h2⟩
  simp only [compile, h1, Except.map]

/-- The same for a list string whose parsed pairs are valid, which covers the open item
`N-` for `N ≤ 2`. -/
theorem cutinitList_canonical_of_pairs (str : List Nat) (ps : List (Int × Int))
    (hp : parseList false 0 0 str = Except.ok ps) (hv : ∀ q ∈ ps, ValidPair q) :
    ∃ l, cutinitList str = Except.ok l ∧ Canonical l ∧ ∀ x ∈ l, 0 ≤ x := by
  obtain ⟨l, h1, h2, h3⟩ := compile_canonical ps hv
  exact ⟨l, by simp only [cutinitList, hp, Except.bind, h1], h2, h3⟩

/-- C27, amended: for every list made of items `N`, `-N` and `N-M` with
`1 ≤ N ≤ M ≤ INT_MAX`, separated by a single comma or a run of blanks, `cutinit` succeeds
and every entry of the compiled gap list, skip or take, is a non-negative integer. -/
theorem cutinit_entries_nonneg (first : Item) (rest : List (Sep × Item))
    (hi : ∀ i ∈ listItems first rest, i.wf) (hs : ∀ s ∈ rest.map Prod.fst, s.wf) :
    ∃ l, cutinitList (listText first rest) = Except.ok l ∧
      (∀ (mbwide : Bool) (mode : Nat) (wdelim ldelim : Delim_t) (reclen : Int),
        ∃ cut, cutinit mbwide mode (listText first rest) wdelim ldelim reclen = Except.ok cut ∧
          cut.list = l) ∧
      ∀ x ∈ l, 0 ≤ x := by
  obtain ⟨rs, h1, h2, _⟩ := cutinitList_runs first rest hi hs
  exact ⟨_, h1, fun mbwide mode wdelim ldelim reclen =>
    cutinit_of_list mbwide mode _ wdelim ldelim reclen _ h1, gaps_nonneg rs 0 (le_refl _) h2⟩

/-- Witness of C27, amended: the list `2-3,5`. -/
theorem cutinit_entries_nonneg_witness :
    (∀ i ∈ listItems (Item.range (bytes "2") (bytes "3"))
        [(Sep.comma, Item.single (bytes "5"))], i.wf) ∧
    listText (Item.range (bytes "2") (bytes "3")) [(Sep.comma, Item.single (bytes "5"))]
      = bytes "2-3,5" ∧
    ∃ l, cutinitList (bytes "2-3,5") = Except.ok l ∧ ∀ x ∈ l, 0 ≤ x := by
  refine ⟨by decide, by decide, ?_⟩
  obtain ⟨l, h1, _, h3⟩ := cutinit_entries_nonneg (Item.range (bytes "2") (bytes "3"))
    [(Sep.comma, Item.single (bytes "5"))] (by decide) (by decide)
  exact ⟨l, h1, h3⟩

/-- C29: for every two arrangements of the same pairs of closed ranges (start at least 0,
length at least 1, end at most `INT_MAX`) that are both sorted by `mycomp`, the overlap
merge gives the same range list and lines 186-215 the same gap list; so the gap list
`cutinit` compiles is the one of any sorted arrangement of the pairs. -/
theorem merge_any_sorted_arrangement (l1 l2 : List (Int × Int)) (hperm : l1.Perm l2)
    (hv : ∀ q ∈ l1, ValidPair q) (hs1 : l1.Pairwise pairLe) (hs2 : l2.Pairwise pairLe) :
    (∃ rs, mergeLoop l1 (-2) none = Except.ok rs ∧ mergeLoop l2 (-2) none = Except.ok rs) ∧
    mergeGaps l1 = mergeGaps l2 ∧ compile l1 = mergeGaps l1 := by
  have hv2 : ∀ q ∈ l2, ValidPair q := fun q hq => hv q (hperm.mem_iff.mpr hq)
  have hp1 : l1.Pairwise (fun a b => a.1 ≤ b.1) :=
    List.Pairwise.imp (fun {a b} hab => (pairLe_iff a b).mp hab) hs1
  have hp2 : l2.Pairwise (fun a b => a.1 ≤ b.1) :=
    List.Pairwise.imp (fun {a b} hab => (pairLe_iff a b).mp hab) hs2
  obtain ⟨rs1, h1, hr1, hc1⟩ := mergeLoop_sorted l1 hv hp1
  obtain ⟨rs2, h2, hr2, hc2⟩ := mergeLoop_sorted l2 hv2 hp2
  obtain ⟨rs3, h3, hr3, hc3⟩ := merge_qsort l1 hv
  have h12 : rs1 = rs2 := Runs_unique rs1 rs2 0 0 hr1 hr2 (fun p =>
    (hc1 p).trans ((Covers_congr l1 l2 (fun q => hperm.mem_iff) p).trans (hc2 p).symm))
  have h13 : rs3 = rs1 := Runs_unique rs3 rs1 0 0 hr3 hr1 (fun p =>
    (hc3 p).trans (hc1 p).symm)
  subst h12
  subst h13
  refine ⟨⟨_, h1, h2⟩, ?_, ?_⟩
  · simp only [mergeGaps, h1, h2]
  · simp only [compile, mergeGaps, h1, h3]

/-- Witness of C29: the pairs of the list `2-3,2,5` in the two orders sorted by start. -/
theorem merge_any_sorted_arrangement_witness :
    [((1 : Int), (2 : Int)), (1, 1), (4, 1)].Perm [(1, 1), (1, 2), (4, 1)] ∧
    mergeGaps [(1, 2), (1, 1), (4, 1)] = Except.ok [1, 2, 1, 1, HUGE] ∧
    mergeGaps [(1, 2), (1, 1), (4, 1)] = mergeGaps [(1, 1), (1, 2), (4, 1)] :=
  ⟨by decide, by decide,
    (merge_any_sorted_arrangement [(1, 2), (1, 1), (4, 1)] [(1, 1), (1, 2), (4, 1)]
      (by decide) (by decide) (by decide) (by decide)).2.1⟩

/-! ### `-N` and the record terminator -/

theorem colStep_congr (cut cut' : Cut_t) (mblen : List Nat → Int → Int) (rec : List Nat)
    (h1 : cut'.nosplit = cut.nosplit) (h2 : cut'.cflag = cut.cflag) (st : ColState) :
    colStep cut' mblen rec st = colStep cut mblen rec st := by
  unfold colStep
  rw [h1, h2]

theorem colLoop_congr (cut cut' : Cut_t) (mblen : List Nat → Int → Int) (rec : List Nat)
    (h1 : cut'.nosplit = cut.nosplit) (h2 : cut'.cflag = cut.cflag) (lp : List Int) :
    ∀ st : ColState, colLoop cut' mblen rec lp st = colLoop cut mblen rec lp st := by
  induction lp with
  | nil =>
    intro st
    simp only [colLoop, colStep_congr cut cut' mblen rec h1 h2]
  | cons next lp ih =>
    intro st
    simp only [colLoop, colStep_congr cut cut' mblen rec h1 h2, ih]

theorem cutcolsRecord_shape (cut : Cut_t) (mblen : List Nat → Int → Int) (rec : List Nat) :
    ∃ r : Option ColState, ∀ nl : Bool,
      cutcolsRecord { cut with nlflag := nl } mblen rec =
        r.map (fun st => st.out ++
          (if nl = false ∧ (st.skip = true ∨ st.must = true ∨ cut.reclen ≠ 0) then
            (if cut.ldelim.len > 1 then cut.ldelim.str.take cut.ldelim.len.toNat
             else [(cut.ldelim.chr % 256).toNat])
          else [])) := by
  cases hl : cut.list with
  | nil => exact ⟨none, fun nl => by simp [cutcolsRecord, hl]⟩
  | cons l0 lp =>
    by_cases h0 : l0 ≠ 0
    · refine ⟨colLoop cut mblen rec lp
        { bp := 0, len := rec.length, ncol := l0, skip := decide (l0 ≠ 0), must := true,
          xx := none, out := [] }, fun nl => ?_⟩
      simp only [cutcolsRecord, hl, if_pos h0]
      rw [colLoop_congr cut _ mblen rec (by rfl) (by rfl)]
    · cases lp with
      | nil => exact ⟨none, fun nl => by simp [cutcolsRecord, hl, h0]⟩
      | cons l1 lp1 =>
        refine ⟨colLoop cut mblen rec lp1
          { bp := 0, len := rec.length, ncol := l1, skip := decide (l0 ≠ 0), must := true,
            xx := none, out := [] }, fun nl => ?_⟩
        simp only [cutcolsRecord, hl, if_neg h0]
        rw [colLoop_congr cut _ mblen rec (by rfl) (by rfl)]

/-- In every mode, what `cutcols` writes for a record without `-N` is what it writes with
`-N`, followed by the line delimiter or by nothing: `-N` removes the appended terminator
and nothing else. -/
theorem cutcolsRecord_nlflag (cut : Cut_t) (mblen : List Nat → Int → Int) (rec o : List Nat)
    (h : cutcolsRecord { cut with nlflag := true } mblen rec = some o) :
    cutcolsRecord { cut with nlflag := false } mblen rec = some o ∨
    cutcolsRecord { cut with nlflag := false } mblen rec
      = some (o ++ (if cut.ldelim.len > 1 then cut.ldelim.str.take cut.ldelim.len.toNat
                    else [(cut.ldelim.chr % 256).toNat])) := by
  obtain ⟨r, hr⟩ := cutcolsRecord_shape cut mblen rec
  rw [hr true] at h
  rw [hr false]
  cases r with
  | none => cases h
  | some st =>
    simp only [Option.map_some', Bool.true_eq_false, false_and, if_false,
      List.append_nil, Option.some.injEq] at h
    subst h
    simp only [Option.map_some', true_and]
    by_cases hc : st.skip = true ∨ st.must = true ∨ cut.reclen ≠ 0
    · right
      rw [if_pos hc]
    · left
      rw [if_neg hc, List.append_nil]

/-! ### The stores of the parsing loop and the size of the array -/

theorem parseStores_end (b : Bool) (n range : Int) : parseStores b n range [] ≤ 3 := by
  unfold parseStores
  cases endItem n range <;> simp

theorem parseStores_of_ok (s : List Nat) :
    ∀ (b : Bool) (n range : Int) (ps : List (Int × Int)),
      parseList b n range s = Except.ok ps → parseStores b n range s = 2 * ps.length + 1 := by
  induction s with
  | nil =>
    intro b n range ps h
    unfold parseList at h
    unfold parseStores
    cases he : endItem n range with
    | error e => rw [he] at h; cases h
    | ok p =>
      rw [he] at h
      simp only [Except.map] at h
      injection h with h
      subst h
      rfl
  | cons c cs ih =>
    intro b n range ps h
    unfold parseList at h
    unfold parseStores
    by_cases h0 : c = 0
    · rw [if_pos h0] at h ⊢
      cases he : endItem n range with
      | error e => rw [he] at h; cases h
      | ok p =>
        rw [he] at h
        simp only [Except.map] at h
        injection h with h
        subst h
        rfl
    · rw [if_neg h0] at h ⊢
      by_cases hb : c = 32 ∨ c = 9
      · rw [if_pos hb] at h ⊢
        cases b with
        | true =>
          simp only [if_true] at h ⊢
          exact ih true n range ps h
        | false =>
          simp only [Bool.false_eq_true, if_false] at h ⊢
          cases he : endItem n range with
          | error e => rw [he] at h; cases h
          | ok p =>
            rw [he] at h
            simp only [Except.bind] at h
            cases hr : parseList true 0 0 cs with
            | error e => rw [hr] at h; cases h
            | ok qs =>
              rw [hr] at h
              simp only [Except.map] at h
              injection h with h
              subst h
              simp only [ih true 0 0 qs hr, List.length_cons]
              omega
      · rw [if_neg hb] at h ⊢
        by_cases hc : c = 44
        · rw [if_pos hc] at h ⊢
          cases he : endItem n range with
          | error e => rw [he] at h; cases h
          | ok p =>
            rw [he] at h
            simp only [Except.bind] at h
            cases hr : parseList false 0 0 cs with
            | error e => rw [hr] at h; cases h
            | ok qs =>
              rw [hr] at h
              simp only [Except.map] at h
              injection h with h
              subst h
              simp only [ih false 0 0 qs hr, List.length_cons]
              omega
        · rw [if_neg hc] at h ⊢
          by_cases hd : c = 45
          · rw [if_pos hd] at h ⊢
            by_cases hr : range ≠ 0
            · rw [if_pos hr] at h; cases h
            · rw [if_neg hr] at h ⊢
              exact ih false 0 _ ps h
          · rw [if_neg hd] at h ⊢
            by_cases hg : isdigit c = true
            · rw [if_pos hg] at h ⊢
              exact ih false _ range ps h
            · rw [if_neg hg] at h; cases h

theorem parseStores_item (i : List Nat) (hi : ∀ c ∈ i, isSep c = false ∧ c ≠ 0)
    (tail : List Nat) (K : Nat)
    (hK : ∀ (b : Bool) (n range : Int), parseStores b n range tail ≤ K) :
    ∀ (b : Bool) (n range : Int), parseStores b n range (i ++ tail) ≤ K := by
  induction i with
  | nil => intro b n range; exact hK b n range
  | cons c cs ih =>
    intro b n range
    have hc := hi c (List.mem_cons_self _ _)
    have ih' := ih (fun d hd => hi d (List.mem_cons_of_mem _ hd))
    have hsep : ¬ (c = 32 ∨ c = 9) ∧ c ≠ 44 := by
      have := hc.1
      simp only [isSep, Bool.or_eq_false_iff, decide_eq_false_iff_not] at this
      tauto
    rw [List.cons_append]
    unfold parseStores
    rw [if_neg hc.2, if_neg hsep.1, if_neg hsep.2]
    split_ifs
    all_goals first | exact Nat.zero_le _ | exact ih' false _ _

theorem parseStores_blanks (bs : List Nat) (hb : ∀ c ∈ bs, c = 32 ∨ c = 9) (tail : List Nat)
    (K : Nat) (hK : ∀ (b : Bool) (n range : Int), parseStores b n range tail ≤ K) :
    ∀ (n range : Int), parseStores true n range (bs ++ tail) ≤ K ∧
      parseStores false n range (bs ++ tail) ≤ 2 + K := by
  induction bs with
  | nil =>
    intro n range
    exact ⟨hK true n range, le_trans (hK false n range) (by omega)⟩
  | cons c cs ih =>
    intro n range
    have hc := hb c (List.mem_cons_self _ _)
    have ih' := ih (fun d hd => hb d (List.mem_cons_of_mem _ hd))
    have h0 : c ≠ 0 := by rcases hc with h | h <;> omega
    rw [List.cons_append]
    constructor
    · unfold parseStores
      rw [if_neg h0, if_pos hc, if_pos rfl]
      exact (ih' n range).1
    · unfold parseStores
      rw [if_neg h0, if_pos hc, if_neg (by decide)]
      cases endItem n range with
      | error e => exact Nat.zero_le _
      | ok p =>
        have := (ih' 0 0).1
        simp only
        omega

theorem parseStores_sep (s : Sep) (hs : s.wf) (tail : List Nat) (K : Nat)
    (hK : ∀ (b : Bool) (n range : Int), parseStores b n range tail ≤ K) :
    ∀ (b : Bool) (n range : Int), parseStores b n range (s.text ++ tail) ≤ 2 + K := by
  intro b n range
  cases s with
  | comma =>
    simp only [Sep.text, List.singleton_append]
    unfold parseStores
    rw [if_neg (by decide), if_neg (by decide), if_pos rfl]
    cases endItem n range with
    | error e => exact Nat.zero_le _
    | ok p =>
      have := hK false 0 0
      simp only
      omega
  | blanks bs =>
    obtain ⟨_, hb⟩ := hs
    have := parseStores_blanks bs hb tail K hK n range
    cases b with
    | true => exact le_trans this.1 (by omega)
    | false => exact this.2

theorem parseStores_rawText (rest : List (Sep × List Nat)) :
    ∀ (first : List Nat), rawItem first → (∀ x ∈ rest, x.1.wf ∧ rawItem x.2) →
      ∀ (b : Bool) (n range : Int),
        parseStores b n range (rawText first rest) ≤ 2 * rest.length + 3 := by
  induction rest with
  | nil =>
    intro first hf _ b n range
    have := parseStores_item first hf.2 [] 3 (fun b n range => parseStores_end b n range)
      b n range
    simpa [rawText] using this
  | cons x rest ih =>
    intro first hf hr b n range
    obtain ⟨s, i⟩ := x
    have hx := hr (s, i) (List.mem_cons_self _ _)
    have ih' := ih i hx.2 (fun y hy => hr y (List.mem_cons_of_mem _ hy))
    have h1 := parseStores_sep s hx.1 (rawText i rest) (2 * rest.length + 3) ih'
    have h2 := parseStores_item first hf.2 (s.text ++ rawText i rest)
      (2 + (2 * rest.length + 3)) h1 b n range
    simp only [rawText, List.length_cons]
    omega

theorem rawText_length (rest : List (Sep × List Nat)) :
    ∀ (first : List Nat), rawItem first → (∀ x ∈ rest, x.1.wf ∧ rawItem x.2) →
      2 * rest.length + 1 ≤ (rawText first rest).length ∧ 0 ∉ rawText first rest := by
  induction rest with
  | nil =>
    intro first hf _
    simp only [rawText, List.length_nil]
    refine ⟨?_, fun h => (hf.2 0 h).2 rfl⟩
    have := List.length_pos.mpr hf.1
    omega
  | cons x rest ih =>
    intro first hf hr
    obtain ⟨s, i⟩ := x
    have hx := hr (s, i) (List.mem_cons_self _ _)
    obtain ⟨h1, h2⟩ := ih i hx.2 (fun y hy => hr y (List.mem_cons_of_mem _ hy))
    have hf1 := List.length_pos.mpr hf.1
    have hs1 : 1 ≤ s.text.length ∧ 0 ∉ s.text := by
      cases s with
      | comma => simp [Sep.text]
      | blanks bs =>
        obtain ⟨hne, hb⟩ := hx.1
        refine ⟨List.length_pos.mpr hne, fun h => ?_⟩
        rcases hb 0 h with h | h <;> omega
    simp only [rawText, List.length_append, List.length_cons, List.mem_append, not_or]
    refine ⟨by omega, fun h => (hf.2 0 h).2 rfl, hs1.2, h2⟩

theorem mergeLoop_length (l : List (Int × Int)) :
    ∀ (range : Int) (cur : Option (Int × Int)) (rs : List (Int × Int)),
      mergeLoop l range cur = Except.ok rs → rs.length ≤ l.length + cur.toList.length := by
  induction l with
  | nil =>
    intro range cur rs h
    simp only [mergeLoop] at h
    injection h with h
    subst h
    simp
  | cons q rest ih =>
    intro range cur rs h
    obtain ⟨s, t⟩ := q
    have hrec : ∀ out, mergeLoop rest (wrap32 (s + t)) (some (s, t)) = Except.ok out →
        out.length ≤ rest.length + 1 := fun out ho => by
      have := ih _ _ out ho
      simpa using this
    cases cur with
    | none =>
      rw [mergeLoop] at h
      by_cases h1 : s = HUGE
      · rw [if_pos h1] at h
        injection h with h
        subst h
        simp
      · rw [if_neg h1] at h
        by_cases h2 : s ≤ range
        · rw [if_pos h2] at h
          by_cases h3 : t = HUGE
          · rw [if_pos h3] at h; cases h
          · rw [if_neg h3] at h
            by_cases h4 : wrap32 (wrap32 (s + t) - range) > 0
            · rw [if_pos h4] at h; cases h
            · rw [if_neg h4] at h
              have := ih range none rs h
              simp only [List.length_cons, Option.toList, List.length_nil] at this ⊢
              omega
        · rw [if_neg h2] at h
          by_cases h3 : t = HUGE
          · rw [if_pos h3] at h
            injection h with h
            subst h
            simp
          · rw [if_neg h3] at h
            cases hr : mergeLoop rest (wrap32 (s + t)) (some (s, t)) with
            | error e => rw [hr] at h; cases h
            | ok out =>
              rw [hr] at h
              simp only [Except.map] at h
              injection h with h
              subst h
              have := hrec out hr
              simp only [List.length_cons, Option.toList, List.length_nil,
                List.length_append] at this ⊢
              omega
    | some c =>
      obtain ⟨cs, ct⟩ := c
      rw [mergeLoop] at h
      by_cases h1 : s = HUGE
      · rw [if_pos h1] at h
        injection h with h
        subst h
        simp
      · rw [if_neg h1] at h
        by_cases h2 : s ≤ range
        · rw [if_pos h2] at h
          by_cases h3 : t = HUGE
          · rw [if_pos h3] at h
            injection h with h
            subst h
            simp
          · rw [if_neg h3] at h
            by_cases h4 : wrap32 (wrap32 (s + t) - range) > 0
            · rw [if_pos h4] at h
              have := ih _ _ rs h
              simp only [List.length_cons, Option.toList, List.length_singleton] at this ⊢
              omega
            · rw [if_neg h4] at h
              have := ih _ _ rs h
              simp only [List.length_cons, Option.toList, List.length_singleton] at this ⊢
              omega
        · rw [if_neg h2] at h
          by_cases h3 : t = HUGE
          · rw [if_pos h3] at h
            injection h with h
            subst h
            simp
          · rw [if_neg h3] at h
            cases hr : mergeLoop rest (wrap32 (s + t)) (some (s, t)) with
            | error e => rw [hr] at h; cases h
            | ok out =>
              rw [hr] at h
              simp only [Except.map] at h
              injection h with h
              subst h
              have := hrec out hr
              simp only [List.length_cons, Option.toList, List.length_singleton,
                List.length_append] at this ⊢
              omega

theorem flatten_gaps_length (rs : List (Int × Int)) :
    ∀ n : Int, (flatten (gaps n rs)).length = 2 * rs.length := by
  induction rs with
  | nil => intro n; rfl
  | cons q rest ih =>
    intro n
    obtain ⟨s, t⟩ := q
    simp only [gaps, flatten, List.length_cons, ih]
    omega

/-- The compiled list up to its final `HUGE` holds no more `int`s than the parsing loop
has stored. -/
theorem compile_length (ps : List (Int × Int)) (l : List Int)
    (h : compile ps = Except.ok l) : l.length ≤ 2 * ps.length + 1 := by
  unfold compile at h
  cases hm : mergeLoop (qsort ps) (-2) none with
  | error e => rw [hm] at h; cases h
  | ok rs =>
    rw [hm] at h
    simp only [Except.map] at h
    injection h with h
    subst h
    have h1 := mergeLoop_length (qsort ps) (-2) none rs hm
    have h2 : (qsort ps).length = ps.length := List.length_insertionSort pairLe ps
    simp only [List.length_append, flatten_gaps_length, List.length_singleton, Option.toList,
      List.length_nil] at h1 ⊢
    omega

/-- The stores of `cutinit` through `lp` and `dp` stay inside the array: for every list
string made of items that are not empty (and hold no separator), separated by a single
comma or a run of blanks, the number of `int`s the parsing loop stores through `lp`, the
final `HUGE` included, is at most `strlen(list) + 2`, the number of `int`s of `cut->list`
inside the allocated block; when the loop reaches the end of the list that number is two
for every stored pair and one for the `HUGE`; and the list `cutinit` returns, up to its
last `HUGE`, is no longer than that.  The array given to `qsort` in between is one `int`
longer than what was stored (`qsortInts_of_ok`). -/
theorem cutinit_stores_within_capacity (first : List Nat) (rest : List (Sep × List Nat))
    (hfirst : rawItem first) (hrest : ∀ x ∈ rest, x.1.wf ∧ rawItem x.2) :
    parseStores false 0 0 (rawText first rest) ≤ listCapacity (rawText first rest) ∧
    listCapacity (rawText first rest) = (rawText first rest).length + 2 ∧
    (∀ ps, parseList false 0 0 (rawText first rest) = Except.ok ps →
      parseStores false 0 0 (rawText first rest) = 2 * ps.length + 1) ∧
    ∀ l, cutinitList (rawText first rest) = Except.ok l →
      l.length ≤ listCapacity (rawText first rest) := by
  have h1 := parseStores_rawText rest first hfirst hrest false 0 0
  obtain ⟨h2, h3⟩ := rawText_length rest first hfirst hrest
  have hcap : listCapacity (rawText first rest) = (rawText first rest).length + 2 := by
    unfold listCapacity Ksh.strlen
    rw [Ksh.cstr_of_not_mem _ h3]
    omega
  refine ⟨by omega, hcap, fun ps hp => parseStores_of_ok _ false 0 0 ps hp, ?_⟩
  intro l hl
  unfold cutinitList at hl
  cases hp : parseList false 0 0 (rawText first rest) with
  | error e => rw [hp] at hl; cases hl
  | ok ps =>
    rw [hp] at hl
    have h4 := compile_length ps l hl
    have h5 := parseStores_of_ok _ false 0 0 ps hp
    omega

/-- The list `1,2 3-4`, which has 7 characters: 7 `int`s are stored through `lp` and the
array holds 9. -/
theorem cutinit_stores_within_capacity_witness :
    rawItem (bytes "1") ∧
    (∀ x ∈ [(Sep.comma, bytes "2"), (Sep.blanks [32], bytes "3-4")], x.1.wf ∧ rawItem x.2) ∧
    rawText (bytes "1") [(Sep.comma, bytes "2"), (Sep.blanks [32], bytes "3-4")]
      = bytes "1,2 3-4" ∧
    parseStores false 0 0 (bytes "1,2 3-4") = 7 ∧ listCapacity (bytes "1,2 3-4") = 9 ∧
    parseStores false 0 0 (bytes "1,2 3-4") ≤ listCapacity (bytes "1,2 3-4") :=
  ⟨by decide, by decide, by decide, by decide, by decide,
    (cutinit_stores_within_capacity (bytes "1")
      [(Sep.comma, bytes "2"), (Sep.blanks [32], bytes "3-4")] (by decide) (by decide)).1⟩

/-! ### The extent of the array given to `qsort` -/

theorem wrap32_le_HUGE (x : Int) : wrap32 x ≤ HUGE := by
  unfold wrap32
  rw [HUGE_eq]
  omega

theorem endItem_start_le (n range : Int) (p : Int × Int)
    (h : endItem n range = Except.ok p) : p.1 ≤ HUGE := by
  unfold endItem at h
  by_cases hr : range ≠ 0
  · rw [if_pos hr] at h
    simp only at h
    split_ifs at h
    all_goals
      injection h with h
      subst h
      exact wrap32_le_HUGE _
  · rw [if_neg hr] at h
    injection h with h
    subst h
    exact wrap32_le_HUGE _

theorem parseList_start_le (s : List Nat) :
    ∀ (b : Bool) (n range : Int) (ps : List (Int × Int)),
      parseList b n range s = Except.ok ps → ∀ q ∈ ps, q.1 ≤ HUGE := by
  induction s with
  | nil =>
    intro b n range ps h
    unfold parseList at h
    cases he : endItem n range with
    | error e => rw [he] at h; cases h
    | ok p =>
      rw [he] at h
      simp only [Except.map] at h
      injection h with h
      subst h
      intro q hq
      rw [List.mem_singleton] at hq
      subst hq
      exact endItem_start_le n range _ he
  | cons c cs ih =>
    intro b n range ps h
    unfold parseList at h
    by_cases h0 : c = 0
    · rw [if_pos h0] at h
      cases he : endItem n range with
      | error e => rw [he] at h; cases h
      | ok p =>
        rw [he] at h
        simp only [Except.map] at h
        injection h with h
        subst h
        intro q hq
        rw [List.mem_singleton] at hq
        subst hq
        exact endItem_start_le n range _ he
    · rw [if_neg h0] at h
      by_cases hb : c = 32 ∨ c = 9
      · rw [if_pos hb] at h
        cases b with
        | true =>
          simp only [if_true] at h
          exact ih true n range ps h
        | false =>
          simp only [Bool.false_eq_true, if_false] at h
          cases he : endItem n range with
          | error e => rw [he] at h; cases h
          | ok p =>
            rw [he] at h
            simp only [Except.bind] at h
            cases hr : parseList true 0 0 cs with
            | error e => rw [hr] at h; cases h
            | ok qs =>
              rw [hr] at h
              simp only [Except.map] at h
              injection h with h
              subst h
              intro q hq
              rcases List.mem_cons.mp hq with hq | hq
              · subst hq
                exact endItem_start_le n range _ he
              · exact ih true 0 0 qs hr q hq
      · rw [if_neg hb] at h
        by_cases hc : c = 44
        · rw [if_pos hc] at h
          cases he : endItem n range with
          | error e => rw [he] at h; cases h
          | ok p =>
            rw [he] at h
            simp only [Except.bind] at h
            cases hr : parseList false 0 0 cs with
            | error e => rw [hr] at h; cases h
            | ok qs =>
              rw [hr] at h
              simp only [Except.map] at h
              injection h with h
              subst h
              intro q hq
              rcases List.mem_cons.mp hq with hq | hq
              · subst hq
                exact endItem_start_le n range _ he
              · exact ih false 0 0 qs hr q hq
        · rw [if_neg hc] at h
          by_cases hd : c = 45
          · rw [if_pos hd] at h
            by_cases hr : range ≠ 0
            · rw [if_pos hr] at h; cases h
            · rw [if_neg hr] at h
              exact ih false 0 _ ps h
          · rw [if_neg hd] at h
            by_cases hg : isdigit c = true
            · rw [if_pos hg] at h
              exact ih false _ range ps h
            · rw [if_neg hg] at h
              cases h

theorem orderedInsert_sentinel (a s : Int × Int) (h : pairLe a s) (l : List (Int × Int)) :
    List.orderedInsert pairLe a (l ++ [s]) = List.orderedInsert pairLe a l ++ [s] := by
  induction l with
  | nil => simp [List.orderedInsert, h]
  | cons b l ih =>
    simp only [List.cons_append, List.orderedInsert]
    by_cases hab : pairLe a b
    · rw [if_pos hab, if_pos hab]
      rfl
    · rw [if_neg hab, if_neg hab]
      show b :: List.orderedInsert pairLe a (l ++ [s]) = _
      rw [ih]
      rfl

/-- Sorting the stored pairs together with the sentinel pair leaves the sentinel pair
last, after the sorted pairs: no stored start exceeds `HUGE`. -/
theorem qsort_sentinel (ps : List (Int × Int)) (x : Int) (h : ∀ q ∈ ps, q.1 ≤ HUGE) :
    qsort (ps ++ [(HUGE, x)]) = qsort ps ++ [(HUGE, x)] := by
  unfold qsort
  induction ps with
  | nil => rfl
  | cons a l ih =>
    show List.orderedInsert pairLe a (List.insertionSort pairLe (l ++ [(HUGE, x)])) = _
    rw [ih (fun q hq => h q (List.mem_cons_of_mem _ hq))]
    show _ = List.orderedInsert pairLe a (List.insertionSort pairLe l) ++ [(HUGE, x)]
    apply orderedInsert_sentinel
    have ha := h a (List.mem_cons_self _ _)
    unfold pairLe mycomp
    simp only
    split_ifs <;> omega

/-- The array given to `qsort` at line 185 is one `int` longer than what the parsing loop
has stored, the final `HUGE` included. -/
theorem qsortInts_of_ok (str : List Nat) (ps : List (Int × Int))
    (h : parseList false 0 0 str = Except.ok ps) :
    qsortInts ps = parseStores false 0 0 str + 1 := by
  rw [parseStores_of_ok str false 0 0 ps h]
  unfold qsortInts
  omega

/-- For a list string made of items that are not empty, separated by a single comma or a
run of blanks, the array given to `qsort` ends past the allocated block exactly when the
list has one character less than twice its number of items, that is when every item and
every separator is a single character. -/
theorem qsortInts_past_capacity (first : List Nat) (rest : List (Sep × List Nat))
    (hfirst : rawItem first) (hrest : ∀ x ∈ rest, x.1.wf ∧ rawItem x.2)
    (ps : List (Int × Int)) (hp : parseList false 0 0 (rawText first rest) = Except.ok ps) :
    listCapacity (rawText first rest) < qsortInts ps ↔
      (rawText first rest).length + 1 = 2 * ps.length := by
  have h1 := parseStores_rawText rest first hfirst hrest false 0 0
  obtain ⟨h2, h3⟩ := rawText_length rest first hfirst hrest
  have h4 := parseStores_of_ok _ false 0 0 ps hp
  have hcap : listCapacity (rawText first rest) = (rawText first rest).length + 2 := by
    unfold listCapacity Ksh.strlen
    rw [Ksh.cstr_of_not_mem _ h3]
    omega
  rw [hcap]
  unfold qsortInts
  omega

set_option maxRecDepth 100000 in
/-- C30: for the list `1,4` the parsing loop of `cutinit` stores the pairs `(0, 1)` and
`(3, 1)` and the final `HUGE`, 5 `int`s, and the allocated block holds 5 `int`s of
`cut->list`; yet line 183 counts the `HUGE` as a third pair, so the array given to `qsort`
at line 185 has 6 `int`s and ends one `int` past the block, at an `int` that was never
stored.  For the list `1` the block holds 3 `int`s and the array given to `qsort` has 4. -/
theorem cutinit_qsort_past_array :
    (parseList false 0 0 (bytes "1,4") = Except.ok [(0, 1), (3, 1)] ∧
      parseStores false 0 0 (bytes "1,4") = 5 ∧
      listCapacity (bytes "1,4") = 5 ∧
      qsortInts [(0, 1), (3, 1)] = 6) ∧
    (parseList false 0 0 (bytes "1") = Except.ok [(0, 1)] ∧
      parseStores false 0 0 (bytes "1") = 3 ∧
      listCapacity (bytes "1") = 3 ∧
      qsortInts [(0, 1)] = 4) := by
  refine ⟨⟨?_, ?_, ?_, ?_⟩, ?_, ?_, ?_, ?_⟩ <;> decide

end Cut

